import Mathlib

/-!
Verification of the rank-augmented skip list from the `skiplists` package.

The Go structure stores, per node, a value together with two parallel
per-level arrays `next` (forward pointers) and `width` (rank spans).
We embed a skip list state as the head sentinel's width array plus the
list of real nodes in bottom-chain order; the level-ℓ forward pointer of
a position is recovered as the next position whose height exceeds ℓ,
which is exactly the reachability structure of the Go pointer graph for
the states the program constructs.  Go `int` widths are embedded as
`Int`; sizes and levels as `Nat`; Go panics are embedded as error
results.  The probabilistic `randomLevel` draw is passed to `Insert` as
an explicit oracle argument, so theorems quantify over every possible
random outcome.
-/

namespace Skiplists

/-- A real node: stored value and the per-level width array.  The node's
height (number of levels it participates in) is the length of `width`,
matching the Go invariant `len(width) == len(next)`. -/
structure Node (V : Type) where
  val : V
  width : List Int
  deriving Repr, DecidableEq

/-- Height of a node = number of levels it participates in. -/
def Node.height {V : Type} (n : Node V) : Nat := n.width.length

/-- A position in the chain: `none` is the head sentinel, `some i` is the
real node at bottom-chain index `i`. -/
abbrev Pos := Option Nat

/-- Index of a position in the head-prefixed bottom chain: head is 0 and
node `i` is `i + 1`. -/
def idxOf : Pos → Nat
  | none => 0
  | some i => i + 1

/-- Rank origin of a position for width bookkeeping: the head anchors the
rank origin 0, and node `i` has rank `i`. -/
def rankP : Pos → Int
  | none => 0
  | some i => (i : Int)

/-- Rank denoted by a forward-pointer target: `none` (the Go `nil`) stands
past the last element, at rank `len`. -/
def rankN (len : Nat) : Option Nat → Int
  | none => (len : Int)
  | some q => (q : Int)

/-- The skip list state: comparator, head sentinel widths, real nodes in
bottom-chain order, current level and size counter, mirroring the fields
of the Go `SkipList` struct. -/
structure SkipList (V : Type) where
  cmp : V → V → Int
  headWidth : List Int
  nodes : List (Node V)
  level : Nat
  size : Nat

/-- A lawful three-way comparator, as required by the `NewFunc`
documentation: antisymmetric signs, transitive strict order, and
equal-comparing values are interchangeable on the left. -/
structure LawfulCmp {V : Type} (c : V → V → Int) : Prop where
  antisymm : ∀ a b, c b a = -c a b
  lt_trans : ∀ a b d, c a b < 0 → c b d < 0 → c a d < 0
  eq_congr : ∀ a b d, c a b = 0 → c a d = c b d

/-- The integer comparator, the embedding of `cmp.Compare[int]`. -/
def intCmp (a b : Int) : Int := if a < b then -1 else if b < a then 1 else 0

namespace SkipList

variable {V : Type} [Inhabited V]

/-- The node stored at bottom index `i` (default node when out of range). -/
def nodeAt (sl : SkipList V) (i : Nat) : Node V :=
  sl.nodes.getD i ⟨default, []⟩

/-- Height of the node at bottom index `i`. -/
def heightAt (sl : SkipList V) (i : Nat) : Nat := (sl.nodeAt i).height

/-- Value stored at a position; the head sentinel holds the zero value of
`V`, as a freshly allocated Go struct field does. -/
def valP (sl : SkipList V) (p : Pos) : V :=
  match p with
  | none => default
  | some i => (sl.nodeAt i).val

/-- Stored width of a position at level `ℓ`. -/
def widthAt (sl : SkipList V) (ℓ : Nat) (p : Pos) : Int :=
  match p with
  | none => sl.headWidth.getD ℓ 0
  | some i => (sl.nodeAt i).width.getD ℓ 0

/-- First index `≥ k` (scanning the suffix `rest` that starts at absolute
index `k`) whose node is taller than `ℓ`. -/
def firstTallAux (ℓ : Nat) : List (Node V) → Nat → Option Nat
  | [], _ => none
  | n :: rest, k => if ℓ < n.height then some k else firstTallAux ℓ rest (k + 1)

/-- The level-`ℓ` forward pointer of position `p`: the next node after `p`
that participates in level `ℓ`; `none` is the Go `nil`. -/
def nextPos (sl : SkipList V) (ℓ : Nat) (p : Pos) : Option Nat :=
  firstTallAux ℓ (sl.nodes.drop (idxOf p)) (idxOf p)

/-- Overwrite the stored width of position `p` at level `ℓ`. -/
def setWidth (sl : SkipList V) (p : Pos) (ℓ : Nat) (w : Int) : SkipList V :=
  match p with
  | none => { sl with headWidth := sl.headWidth.set ℓ w }
  | some i =>
    match sl.nodes.get? i with
    | some n => { sl with nodes := sl.nodes.set i { n with width := n.width.set ℓ w } }
    | none => sl

/-- Overwrite the stored value of the node at bottom index `i` in place
(`nd.val = val` in Go). -/
def setVal (sl : SkipList V) (i : Nat) (v : V) : SkipList V :=
  match sl.nodes.get? i with
  | some n => { sl with nodes := sl.nodes.set i { n with val := v } }
  | none => sl

/-- Errors corresponding to the Go panics: out-of-range index, nil-pointer
dereference, and the two `UpdateAt` ordering panics. -/
inductive SLErr where
  | outOfRange
  | nilDeref
  | notGreaterPrev
  | notLessNext
  deriving Repr, DecidableEq

/-- `NewFunc`: the empty list with a one-level head whose width array is
`[0]`. -/
def NewFunc (cmp : V → V → Int) : SkipList V :=
  { cmp := cmp, headWidth := [0], nodes := [], level := 1, size := 0 }

/-- `Len` returns the size counter. -/
def Len (sl : SkipList V) : Nat := sl.size

/-- `Reverse` returns a new list sharing the node chain, head widths,
level and size, with the comparator's argument order swapped. -/
def Reverse (sl : SkipList V) : SkipList V :=
  { sl with cmp := fun a b => sl.cmp b a }

/-- The inner advance loop of the by-value descents
(`for nd.next[level] != nil && cmp(nd.next[level].val, val) < 0`),
accumulating the traversed widths into `jump`.  `fuel` bounds the number
of iterations; every caller passes enough fuel for the loop to run to
completion (positions advance strictly within the chain). -/
def walkV (sl : SkipList V) (val : V) (ℓ : Nat) : Nat → Pos → Int → Pos × Int
  | 0, p, jump => (p, jump)
  | fuel + 1, p, jump =>
    match sl.nextPos ℓ p with
    | none => (p, jump)
    | some q =>
      if sl.cmp (sl.valP (some q)) val < 0 then
        walkV sl val ℓ fuel (some q) (jump + sl.widthAt ℓ p)
      else (p, jump)

/-- The by-value descent of `Insert`, from level `lvls - 1` down to 0,
recording for each level the last node visited before crossing `val`
(`updates`, indexed by level) and the widths traversed at that level
(`jumps`). -/
def descendV (sl : SkipList V) (val : V) : Nat → Pos → List Pos × List Int
  | 0, _ => ([], [])
  | ℓ + 1, p =>
    let w := sl.walkV val ℓ (sl.nodes.length + 1) p 0
    let rest := sl.descendV val ℓ w.1
    (rest.1 ++ [w.1], rest.2 ++ [w.2])

/-- The by-value descent of `Delete` and `Search`, keeping only the final
position of each level. -/
def descendS (sl : SkipList V) (val : V) : Nat → Pos → Pos
  | 0, p => p
  | ℓ + 1, p => sl.descendS val ℓ (sl.walkV val ℓ (sl.nodes.length + 1) p 0).1

/-- The by-value descent of `Delete`, recording the per-level
predecessors. -/
def descendD (sl : SkipList V) (val : V) : Nat → Pos → List Pos
  | 0, _ => []
  | ℓ + 1, p =>
    let q := (sl.walkV val ℓ (sl.nodes.length + 1) p 0).1
    sl.descendD val ℓ q ++ [q]

/-- `bits.Len64`: the number of binary digits, by repeated halving (the
fuel argument bounds the recursion and any fuel of at least `n` is
exact). -/
def bitsLen : Nat → Nat → Nat
  | 0, _ => 0
  | fuel + 1, n => if n = 0 then 0 else bitsLen fuel (n / 2) + 1

/-- `bestEntryLevel`: `bits.Len64(uint64(sl.size + 1))`. -/
def bestEntryLevel (sl : SkipList V) : Nat := bitsLen (sl.size + 1) (sl.size + 1)

/-- `Search`: descend from `min(sl.level-1, sl.bestEntryLevel())`, then
check whether the bottom-level successor compares equal; returns the
stored value and a found flag, or the zero value and `false`. -/
def Search (sl : SkipList V) (val : V) : V × Bool :=
  let entry := min (sl.level - 1) sl.bestEntryLevel
  let p := sl.descendS val (entry + 1) none
  match sl.nextPos 0 p with
  | none => (default, false)
  | some q =>
    if sl.cmp (sl.valP (some q)) val = 0 then (sl.valP (some q), true)
    else (default, false)

/-- The splice loop of `Insert`: for levels `k = 0 .. count - 1`, compute
the new node's width at level `k` (collected in `acc`) and overwrite the
predecessor's width, reading the level-`k-1` data already updated by the
previous iteration exactly as the Go loop does through its aliased
pointers. -/
def spliceLoop (updates : List Pos) (jumps : List Int) :
    Nat → Nat → SkipList V → List Int → SkipList V × List Int
  | 0, _, sl, acc => (sl, acc)
  | count + 1, k, sl, acc =>
    if k = 0 then
      spliceLoop updates jumps count (k + 1) sl (acc ++ [1])
    else
      let left := sl.widthAt (k - 1) (updates.getD (k - 1) none) + jumps.getD (k - 1) 0
      let nw := sl.widthAt k (updates.getD k none) - left + 1
      spliceLoop updates jumps count (k + 1)
        (sl.setWidth (updates.getD k none) k left) (acc ++ [nw])

/-- The post-splice loop of `Insert`: for levels `k` from the new node's
height up to the list level, increment the predecessor's width (the new
node adds one rank to every jump spanning over it). -/
def bumpLoop (updates : List Pos) : Nat → Nat → SkipList V → SkipList V
  | 0, _, sl => sl
  | count + 1, k, sl =>
    bumpLoop updates count (k + 1)
      (sl.setWidth (updates.getD k none) k (sl.widthAt k (updates.getD k none) + 1))

/-- The not-found path of `Insert`: extend the head for any new top
levels (their widths set to the current size), splice the new node in
level by level fixing the widths, bump the widths of the levels jumping
over the new node, and link the node into the chain at the descent's
bottom position. -/
def insertNew (sl : SkipList V) (val : V) (newLevel : Nat)
    (updates : List Pos) (jumps : List Int) (bottom : Pos) : SkipList V :=
  let grown :=
    if sl.level < newLevel then
      ({ sl with
          headWidth := sl.headWidth ++ List.replicate (newLevel - sl.level) (sl.size : Int),
          level := newLevel },
        updates ++ List.replicate (newLevel - sl.level) (none : Pos),
        jumps ++ List.replicate (newLevel - sl.level) (0 : Int))
    else (sl, updates, jumps)
  let sl1 := grown.1
  let spliced := spliceLoop grown.2.1 grown.2.2 newLevel 0 sl1 []
  let sl2 := bumpLoop grown.2.1 (sl1.level - newLevel) newLevel spliced.1
  let r := idxOf bottom
  { sl2 with
      nodes := sl2.nodes.take r ++ [⟨val, spliced.2⟩] ++ sl2.nodes.drop r,
      size := sl2.size + 1 }

/-- `Insert` with the `randomLevel` draw passed explicitly as `newLevel`.
Performs the recording descent; overwrites in place if the successor
compares equal; otherwise splices a new node in via `insertNew`. -/
def Insert (sl : SkipList V) (val : V) (newLevel : Nat) : SkipList V :=
  let d := sl.descendV val sl.level none
  let updates := d.1
  let jumps := d.2
  let bottom := updates.getD 0 none
  match sl.nextPos 0 bottom with
  | some q =>
    if sl.cmp (sl.valP (some q)) val = 0 then
      sl.setVal q val
    else
      sl.insertNew val newLevel updates jumps bottom
  | none => sl.insertNew val newLevel updates jumps bottom

/-- The per-level unlink loop shared by `Delete` and `DeleteAt`: where the
level-`k` predecessor points at the removed node `q`, fold the removed
node's width in (minus one); otherwise just decrement.  `qw` is the
removed node's width array, read unchanged throughout the loop as in Go. -/
def unlinkLoop (updates : List Pos) (q : Nat) (qw : List Int) :
    Nat → Nat → SkipList V → SkipList V
  | 0, _, sl => sl
  | count + 1, k, sl =>
    let u := updates.getD k none
    let sl' :=
      if sl.nextPos k u = some q then
        sl.setWidth u k (sl.widthAt k u + qw.getD k 0 - 1)
      else
        sl.setWidth u k (sl.widthAt k u - 1)
    unlinkLoop updates q qw count (k + 1) sl'

/-- The trim loop run after unlinking: decrease the level while it
exceeds 1 and the head's top forward pointer is nil. -/
def trimLevel (nodes : List (Node V)) : Nat → Nat
  | 0 => 0
  | 1 => 1
  | ℓ + 2 =>
    if firstTallAux (ℓ + 1) nodes 0 = none then trimLevel nodes (ℓ + 1)
    else ℓ + 2

/-- The shared tail of `Delete` and `DeleteAt` once the target node `q`
is identified: unlink it from every level, drop it from the chain, trim
empty top levels, truncate the head arrays and decrement the size. -/
def removeNode (sl : SkipList V) (updates : List Pos) (q : Nat) : SkipList V :=
  let sl1 := unlinkLoop updates q (sl.nodeAt q).width sl.level 0 sl
  let nodes' := sl1.nodes.take q ++ sl1.nodes.drop (q + 1)
  let lvl := trimLevel nodes' sl1.level
  { sl1 with
      nodes := nodes',
      level := lvl,
      headWidth := sl1.headWidth.take lvl,
      size := sl1.size - 1 }

/-- `Delete`: locate the value; if the bottom successor does not compare
equal the list is returned unchanged, otherwise the node is removed. -/
def Delete (sl : SkipList V) (val : V) : SkipList V :=
  let updates := sl.descendD val sl.level none
  match sl.nextPos 0 (updates.getD 0 none) with
  | none => sl
  | some q =>
    if sl.cmp (sl.valP (some q)) val = 0 then
      sl.removeNode updates q
    else sl

/-- The inner advance loop of the by-rank descents
(`for node != nil && pos+node.width[level] (<|<=) i`).  The current
position is `Option Pos` because the Go pointer may step onto `nil`;
`strict` selects the `<` (`DeleteAt`/`UpdateAt`) or `<=` (`At`)
comparison. -/
def walkW (sl : SkipList V) (strict : Bool) (i : Int) (ℓ : Nat) :
    Nat → Option Pos → Int → Option Pos × Int
  | 0, cur, pos => (cur, pos)
  | fuel + 1, cur, pos =>
    match cur with
    | none => (none, pos)
    | some p =>
      let w := sl.widthAt ℓ p
      if (if strict then pos + w < i else pos + w ≤ i) then
        walkW sl strict i ℓ fuel ((sl.nextPos ℓ p).map some) (pos + w)
      else (cur, pos)

/-- The by-rank descent keeping only the running position (`At`,
`UpdateAt`). -/
def descendW (sl : SkipList V) (strict : Bool) (i : Int) :
    Nat → Option Pos × Int → Option Pos × Int
  | 0, c => c
  | ℓ + 1, c => sl.descendW strict i ℓ (sl.walkW strict i ℓ (sl.nodes.length + 1) c.1 c.2)

/-- The by-rank descent of `DeleteAt`, recording the per-level
predecessors. -/
def descendWU (sl : SkipList V) (i : Int) :
    Nat → Option Pos × Int → List (Option Pos) × (Option Pos × Int)
  | 0, c => ([], c)
  | ℓ + 1, c =>
    let w := sl.walkW true i ℓ (sl.nodes.length + 1) c.1 c.2
    let rest := sl.descendWU i ℓ w
    (rest.1 ++ [w.1], rest.2)

/-- `At`: validate the index, then descend purely by rank and return the
landed node's value.  A landing on the Go `nil` is the nil-dereference
panic. -/
def At (sl : SkipList V) (i : Int) : Except SLErr V :=
  if i < 0 ∨ (sl.size : Int) ≤ i then .error .outOfRange
  else
    match (sl.descendW false i sl.level (some none, 0)).1 with
    | none => .error .nilDeref
    | some p => .ok (sl.valP p)

/-- `UpdateAt`: validate the index, descend by rank to the predecessor,
then reject unless the new value strictly orders between the predecessor
(the head sentinel's zero value when the descent stays at the head) and
the successor; on success overwrite the target's value in place. -/
def UpdateAt (sl : SkipList V) (i : Int) (val : V) : Except SLErr (SkipList V) :=
  if i < 0 ∨ (sl.size : Int) ≤ i then .error .outOfRange
  else
    match (sl.descendW true i sl.level (some none, 0)).1 with
    | none => .error .nilDeref
    | some p =>
      match sl.nextPos 0 p with
      | none => .error .nilDeref
      | some t =>
        if 0 ≤ sl.cmp (sl.valP p) val then .error .notGreaterPrev
        else
          match sl.nextPos 0 (some t) with
          | some nx =>
            if 0 ≤ sl.cmp val (sl.valP (some nx)) then .error .notLessNext
            else .ok (sl.setVal t val)
          | none => .ok (sl.setVal t val)

/-- `DeleteAt`: validate the index, descend by rank recording the
per-level predecessors, then remove the landed node and return its old
value. -/
def DeleteAt (sl : SkipList V) (i : Int) : Except SLErr (V × SkipList V) :=
  if i < 0 ∨ (sl.size : Int) ≤ i then .error .outOfRange
  else
    let d := sl.descendWU i sl.level (some none, 0)
    match (d.2).1 with
    | none => .error .nilDeref
    | some p =>
      match sl.nextPos 0 p with
      | none => .error .nilDeref
      | some q =>
        match d.1.mapM id with
        | none => .error .nilDeref
        | some updates => .ok ((sl.valP (some q)), sl.removeNode updates q)

/-- The state after `UpdateAt`, unchanged when the operation was
rejected. -/
def updateAtSt (sl : SkipList V) (i : Int) (val : V) : SkipList V :=
  match sl.UpdateAt i val with
  | .ok sl' => sl'
  | .error _ => sl

/-- The state after `DeleteAt`, unchanged when the operation was
rejected. -/
def deleteAtSt (sl : SkipList V) (i : Int) : SkipList V :=
  match sl.DeleteAt i with
  | .ok r => r.2
  | .error _ => sl

/-- The default node used by out-of-range reads. -/
def dnode : Node V := ⟨default, []⟩

/-- First level-`ℓ` chain position at absolute index `≥ k`. -/
def ftall (sl : SkipList V) (ℓ k : Nat) : Option Nat :=
  firstTallAux ℓ (sl.nodes.drop k) k

/-- A position lying on the level-`ℓ` chain: the head, or a real node
participating in level `ℓ`. -/
def OnChain (sl : SkipList V) (ℓ : Nat) (p : Pos) : Prop :=
  p = none ∨ ∃ i, p = some i ∧ i < sl.nodes.length ∧ ℓ < sl.heightAt i

/-- Well-formedness of a skip list state: size agrees with the chain
length, the level bounds all node heights and is attained unless it is 1,
the head width array has one slot per level, values are strictly sorted
under the comparator, and every stored width is the rank distance the
corresponding forward pointer jumps. -/
structure WF (sl : SkipList V) : Prop where
  size_eq : sl.size = sl.nodes.length
  level_pos : 1 ≤ sl.level
  headW_len : sl.headWidth.length = sl.level
  height_pos : ∀ i, i < sl.nodes.length → 1 ≤ sl.heightAt i
  height_le : ∀ i, i < sl.nodes.length → sl.heightAt i ≤ sl.level
  top : sl.level = 1 ∨ ∃ i, i < sl.nodes.length ∧ sl.heightAt i = sl.level
  sorted : ∀ i, i < sl.nodes.length → ∀ j, j < sl.nodes.length → i < j →
    sl.cmp (sl.nodeAt i).val (sl.nodeAt j).val < 0
  headwidth : ∀ ℓ, ℓ < sl.level →
    sl.headWidth.getD ℓ 0 = rankN sl.nodes.length (sl.ftall ℓ 0)
  nodewidth : ∀ i, i < sl.nodes.length → ∀ ℓ, ℓ < sl.heightAt i →
    (sl.nodeAt i).width.getD ℓ 0 = rankN sl.nodes.length (sl.ftall ℓ (i + 1)) - i

/-- Validity of a width slot: the position exists and carries level `ℓ`. -/
def slotOk (sl : SkipList V) (p : Pos) (ℓ : Nat) : Prop :=
  match p with
  | none => ℓ < sl.headWidth.length
  | some i => i < sl.nodes.length ∧ ℓ < (sl.nodeAt i).width.length

/-- Precondition and invariant of the by-value walks: the current node is
the head or strictly precedes the searched value. -/
def PredOk (sl : SkipList V) (val : V) (p : Pos) : Prop :=
  p = none ∨ sl.cmp (sl.valP p) val < 0

/-- The facts about a recorded per-level descent needed by the unlink and
splice phases: one entry per level, each on its level's chain, lying at
or before index `r`, with no node strictly between it and index `r`
reaching its level. -/
structure DescentFacts (sl : SkipList V) (ups : List Pos) (r : Nat) : Prop where
  len_eq : ups.length = sl.level
  onChain : ∀ ℓ, ℓ < sl.level → sl.OnChain ℓ (ups.getD ℓ none)
  idx_le : ∀ ℓ, ℓ < sl.level → idxOf (ups.getD ℓ none) ≤ r
  gap : ∀ ℓ, ℓ < sl.level → ∀ t, idxOf (ups.getD ℓ none) ≤ t → t < r → sl.heightAt t ≤ ℓ

/-- Two states with identical comparator, sizes, chain shape (lengths,
heights) and values, differing at most in stored widths. -/
def SameShape (S G : SkipList V) : Prop :=
  S.cmp = G.cmp ∧ S.level = G.level ∧ S.size = G.size ∧
  S.nodes.length = G.nodes.length ∧ S.headWidth.length = G.headWidth.length ∧
  (∀ i, S.heightAt i = G.heightAt i) ∧ (∀ p, S.valP p = G.valP p)

/-- The width the splice loop gives the new node at level `ℓ`: 1 at the
bottom, otherwise one more than the rank distance from the insertion
point to the predecessor's old level-`ℓ` successor. -/
def nwF (G : SkipList V) (U : List Pos) (r : Nat) (ℓ : Nat) : Int :=
  if ℓ = 0 then 1
  else rankN G.nodes.length (G.ftall ℓ (idxOf (U.getD ℓ none))) + 1 - (r : Int)

/-- The state built by the not-found path of `Insert` from the (possibly
level-extended) state `G`: run the splice and bump loops, then link a new
node carrying `val` and the collected widths at bottom index `r`. -/
def mkT (G : SkipList V) (U : List Pos) (J : List Int) (nl r : Nat) (val : V) : SkipList V :=
  let spliced := spliceLoop U J nl 0 G []
  let S2 := bumpLoop U (G.level - nl) nl spliced.1
  { S2 with
      nodes := S2.nodes.take r ++ [⟨val, spliced.2⟩] ++ S2.nodes.drop r,
      size := S2.size + 1 }

/-- The split position of the `Insert`/`Delete` descent: the number of
elements strictly below the searched value (on well-formed states). -/
def insPos (sl : SkipList V) (val : V) : Nat :=
  idxOf ((sl.descendV val sl.level none).1.getD 0 none)

/-- The Go predecessor position of rank `n`: the head for `n = 0`, else
the node of rank `n - 1`. -/
def predIdx (n : Nat) : Pos := if n = 0 then none else some (n - 1)

/-- States reachable from a freshly created list under a lawful
comparator by the mutating operations; insertion levels are arbitrary
positive draws, covering every outcome of `randomLevel`. -/
inductive Reachable : SkipList V → Prop where
  | base (c : V → V → Int) : LawfulCmp c → Reachable (NewFunc c)
  | ins (sl : SkipList V) (v : V) (nl : Nat) : Reachable sl → 1 ≤ nl →
      Reachable (sl.Insert v nl)
  | del (sl : SkipList V) (v : V) : Reachable sl → Reachable (sl.Delete v)
  | delAt (sl : SkipList V) (i : Int) : Reachable sl → Reachable (sl.deleteAtSt i)
  | updAt (sl : SkipList V) (i : Int) (v : V) : Reachable sl →
      Reachable (sl.updateAtSt i v)

/-- Run a sequence of `Insert` calls (each with its level draw). -/
def insertAll (sl : SkipList V) : List (V × Nat) → SkipList V
  | [] => sl
  | x :: rest => insertAll (sl.Insert x.1 x.2) rest

/-- The number of inserted values that are comparator-new relative to the
accumulated list `base` of values already present. -/
def newCount (c : V → V → Int) (base : List V) : List V → Nat
  | [] => 0
  | v :: rest =>
    if base.any (fun u => decide (c u v = 0)) then newCount c base rest
    else newCount c (v :: base) rest + 1

/-- Sum of the stored widths along the level-`ℓ` forward chain from
position `p` up to (and excluding) the node of bottom index `n`; `none`
when the chain never reaches that node within the fuel. -/
def chainSum (sl : SkipList V) (ℓ n : Nat) : Nat → Pos → Option Int
  | 0, _ => none
  | fuel + 1, p =>
    if p = some n then some 0
    else
      match sl.nextPos ℓ p with
      | none => none
      | some t => (sl.chainSum ℓ n fuel (some t)).map (fun s2 => sl.widthAt ℓ p + s2)

end SkipList

namespace LawfulCmp

variable {V : Type} {c : V → V → Int}

theorem refl (L : LawfulCmp c) (a : V) : c a a = 0 := by
  have h := L.antisymm a a; omega

theorem eq_symm (L : LawfulCmp c) {a b : V} (h : c a b = 0) : c b a = 0 := by
  have := L.antisymm a b; omega

theorem le_lt_trans (L : LawfulCmp c) {a b d : V} (hab : c a b ≤ 0) (hbd : c b d < 0) :
    c a d < 0 := by
  rcases lt_or_eq_of_le hab with h | h
  · exact L.lt_trans a b d h hbd
  · rw [L.eq_congr a b d h]; exact hbd

theorem eq_congr_right (L : LawfulCmp c) {a b d : V} (h : c b d = 0) : c a b = c a d := by
  have h1 := L.antisymm a b
  have h2 := L.antisymm a d
  have h3 := L.eq_congr b d a h
  omega

theorem lt_le_trans (L : LawfulCmp c) {a b d : V} (hab : c a b < 0) (hbd : c b d ≤ 0) :
    c a d < 0 := by
  rcases lt_or_eq_of_le hbd with h | h
  · exact L.lt_trans a b d hab h
  · rw [L.eq_congr_right h] at hab
    exact hab

end LawfulCmp

theorem lawful_intCmp : LawfulCmp intCmp := by
  constructor
  · intro a b; unfold intCmp; split_ifs <;> omega
  · intro a b d hab hbd
    unfold intCmp at *
    split_ifs at * <;> omega
  · intro a b d hab
    unfold intCmp at *
    split_ifs at * <;> omega

namespace SkipList

variable {V : Type} [Inhabited V]

theorem nextPos_eq_ftall (sl : SkipList V) (ℓ : Nat) (p : Pos) :
    sl.nextPos ℓ p = sl.ftall ℓ (idxOf p) := rfl

theorem getD_cons_succ (n : Node V) (rest : List (Node V)) (j : Nat) :
    (n :: rest).getD (j + 1) dnode = rest.getD j dnode := by
  simp [List.getD]

theorem getD_cons_zero (n : Node V) (rest : List (Node V)) :
    (n :: rest).getD 0 dnode = n := by
  simp [List.getD]

theorem firstTallAux_some_iff {ℓ : Nat} {l : List (Node V)} {k q : Nat} :
    firstTallAux ℓ l k = some q ↔
      (∃ j, q = k + j ∧ j < l.length ∧ ℓ < (l.getD j dnode).height ∧
        ∀ m, m < j → (l.getD m dnode).height ≤ ℓ) := by
  induction l generalizing k q with
  | nil => simp [firstTallAux]
  | cons n rest ih =>
    simp only [firstTallAux]
    split
    · rename_i htall
      constructor
      · rintro h
        cases h
        exact ⟨0, by omega, by simp, by rwa [getD_cons_zero], by omega⟩
      · rintro ⟨j, hq, hlen, hj, hall⟩
        rcases j with _ | j
        · simp [hq]
        · have h0 := hall 0 (by omega)
          rw [getD_cons_zero] at h0
          omega
    · rename_i hshort
      rw [ih]
      constructor
      · rintro ⟨j, hq, hlen, hj, hall⟩
        refine ⟨j + 1, by omega, by simp; omega, by rwa [getD_cons_succ], ?_⟩
        intro m hm
        rcases m with _ | m
        · rw [getD_cons_zero]; omega
        · rw [getD_cons_succ]; exact hall m (by omega)
      · rintro ⟨j, hq, hlen, hj, hall⟩
        rcases j with _ | j
        · rw [getD_cons_zero] at hj; omega
        · rw [getD_cons_succ] at hj
          refine ⟨j, by omega, by simp at hlen; omega, hj, ?_⟩
          intro m hm
          have := hall (m + 1) (by omega)
          rwa [getD_cons_succ] at this

theorem firstTallAux_none_iff {ℓ : Nat} {l : List (Node V)} {k : Nat} :
    firstTallAux ℓ l k = none ↔ ∀ j, j < l.length → (l.getD j dnode).height ≤ ℓ := by
  induction l generalizing k with
  | nil => simp [firstTallAux]
  | cons n rest ih =>
    simp only [firstTallAux]
    split
    · rename_i htall
      simp only [List.length_cons]
      constructor
      · intro h; cases h
      · intro hall
        have := hall 0 (by omega)
        rw [getD_cons_zero] at this
        omega
    · rename_i hshort
      rw [ih]
      constructor
      · intro hall j hj
        rcases j with _ | j
        · rw [getD_cons_zero]; omega
        · simp only [List.length_cons] at hj
          rw [getD_cons_succ]
          exact hall j (by omega)
      · intro hall j hj
        have := hall (j + 1) (by simp; omega)
        rwa [getD_cons_succ] at this

theorem getD_drop (l : List (Node V)) (s j : Nat) :
    (l.drop s).getD j dnode = l.getD (s + j) dnode := by
  rw [List.getD_eq_getElem?_getD, List.getD_eq_getElem?_getD, List.getElem?_drop]

theorem ftall_some_iff {sl : SkipList V} {ℓ k q : Nat} :
    sl.ftall ℓ k = some q ↔
      (k ≤ q ∧ q < sl.nodes.length ∧ ℓ < sl.heightAt q ∧
        ∀ m, k ≤ m → m < q → sl.heightAt m ≤ ℓ) := by
  unfold ftall
  rw [firstTallAux_some_iff]
  constructor
  · rintro ⟨j, hq, hlen, hj, hall⟩
    rw [List.length_drop] at hlen
    rw [getD_drop] at hj
    subst hq
    refine ⟨by omega, by omega, hj, ?_⟩
    intro m hm1 hm2
    have := hall (m - k) (by omega)
    rw [getD_drop] at this
    have h2 : k + (m - k) = m := by omega
    rw [h2] at this; exact this
  · rintro ⟨hk, hlen, hq, hall⟩
    refine ⟨q - k, by omega, by rw [List.length_drop]; omega, ?_, ?_⟩
    · rw [getD_drop]
      have : k + (q - k) = q := by omega
      rw [this]; exact hq
    · intro j hj
      rw [getD_drop]
      exact hall (k + j) (by omega) (by omega)

theorem ftall_none_iff {sl : SkipList V} {ℓ k : Nat} :
    sl.ftall ℓ k = none ↔ ∀ m, k ≤ m → m < sl.nodes.length → sl.heightAt m ≤ ℓ := by
  unfold ftall
  rw [firstTallAux_none_iff]
  constructor
  · intro hall m hm1 hm2
    have := hall (m - k) (by rw [List.length_drop]; omega)
    rw [getD_drop] at this
    have h2 : k + (m - k) = m := by omega
    rw [h2] at this; exact this
  · intro hall j hj
    rw [List.length_drop] at hj
    rw [getD_drop]
    exact hall (k + j) (by omega) (by omega)

theorem ftall_le_of_tall {sl : SkipList V} {ℓ k t : Nat}
    (ht : ℓ < sl.heightAt t) (hk : k ≤ t) (hlen : t < sl.nodes.length) :
    ∃ q, sl.ftall ℓ k = some q ∧ q ≤ t := by
  match h : sl.ftall ℓ k with
  | none =>
    rw [ftall_none_iff] at h
    exact absurd (h t hk hlen) (by omega)
  | some q =>
    rw [ftall_some_iff] at h
    refine ⟨q, rfl, ?_⟩
    by_contra hqt
    exact absurd (h.2.2.2 t hk (by omega)) (by omega)

theorem ftall_congr_start {sl : SkipList V} {ℓ k k' : Nat}
    (hk : k ≤ k') (hgap : ∀ m, k ≤ m → m < k' → sl.heightAt m ≤ ℓ) :
    sl.ftall ℓ k = sl.ftall ℓ k' := by
  match h : sl.ftall ℓ k' with
  | none =>
    rw [ftall_none_iff] at h ⊢
    intro m hm1 hm2
    by_cases hmk : m < k'
    · exact hgap m hm1 hmk
    · exact h m (by omega) hm2
  | some q =>
    rw [ftall_some_iff] at h ⊢
    obtain ⟨h1, h2, h3, h4⟩ := h
    refine ⟨by omega, h2, h3, ?_⟩
    intro m hm1 hm2
    by_cases hmk : m < k'
    · exact hgap m hm1 hmk
    · exact h4 m (by omega) hm2

theorem ftall_congr_heights {sl sl' : SkipList V}
    (hlen : sl'.nodes.length = sl.nodes.length)
    (hh : ∀ i, i < sl.nodes.length → sl'.heightAt i = sl.heightAt i)
    (ℓ k : Nat) : sl'.ftall ℓ k = sl.ftall ℓ k := by
  match h : sl.ftall ℓ k with
  | none =>
    rw [ftall_none_iff] at h ⊢
    intro m hm1 hm2
    rw [hlen] at hm2
    rw [hh m hm2]
    exact h m hm1 hm2
  | some q =>
    rw [ftall_some_iff] at h ⊢
    obtain ⟨h1, h2, h3, h4⟩ := h
    refine ⟨h1, by omega, by rw [hh q h2]; exact h3, ?_⟩
    intro m hm1 hm2
    rw [hh m (by omega)]
    exact h4 m hm1 hm2

theorem onChain_head (sl : SkipList V) (ℓ : Nat) : sl.OnChain ℓ none := Or.inl rfl

theorem onChain_mono {sl : SkipList V} {ℓ ℓ' : Nat} {p : Pos}
    (h : sl.OnChain ℓ p) (hle : ℓ' ≤ ℓ) : sl.OnChain ℓ' p := by
  rcases h with h | ⟨i, rfl, hi, ht⟩
  · exact Or.inl h
  · exact Or.inr ⟨i, rfl, hi, by omega⟩

theorem idxOf_le_length {sl : SkipList V} {ℓ : Nat} {p : Pos}
    (h : sl.OnChain ℓ p) : idxOf p ≤ sl.nodes.length := by
  rcases h with rfl | ⟨i, rfl, hi, _⟩
  · simp [idxOf]
  · simp [idxOf]; omega

/-- On well-formed states, the stored width of any chain position is the
rank distance to its forward-pointer target. -/
theorem WF.widthAt_eq {sl : SkipList V} (w : sl.WF) {ℓ : Nat} {p : Pos}
    (hℓ : ℓ < sl.level) (hp : sl.OnChain ℓ p) :
    sl.widthAt ℓ p = rankN sl.nodes.length (sl.nextPos ℓ p) - rankP p := by
  rcases hp with rfl | ⟨i, rfl, hi, ht⟩
  · rw [nextPos_eq_ftall]
    simpa [widthAt, idxOf, rankP] using w.headwidth ℓ hℓ
  · rw [nextPos_eq_ftall]
    simpa [widthAt, idxOf, rankP] using w.nodewidth i hi ℓ ht

theorem rankN_lower {len : Nat} {o : Option Nat} {k : Nat}
    (h : ∀ q, o = some q → k ≤ q) (hlen : k ≤ len) : (k : Int) ≤ rankN len o := by
  match o with
  | none => simpa [rankN]
  | some q => have := h q rfl; simp [rankN]; omega

theorem ftall_rank_lower {sl : SkipList V} {ℓ k : Nat} (hk : k ≤ sl.nodes.length) :
    (k : Int) ≤ rankN sl.nodes.length (sl.ftall ℓ k) := by
  apply rankN_lower _ hk
  intro q hq
  rw [ftall_some_iff] at hq
  exact hq.1

/-- Stored widths of chain positions are nonnegative on well-formed
states. -/
theorem WF.widthAt_nonneg {sl : SkipList V} (w : sl.WF) {ℓ : Nat} {p : Pos}
    (hℓ : ℓ < sl.level) (hp : sl.OnChain ℓ p) : 0 ≤ sl.widthAt ℓ p := by
  rw [w.widthAt_eq hℓ hp]
  have h1 := @ftall_rank_lower V _ sl ℓ (idxOf p) (idxOf_le_length hp)
  rw [nextPos_eq_ftall]
  rcases hp with rfl | ⟨i, rfl, hi, ht⟩
  · simp [rankP, idxOf] at h1 ⊢; omega
  · simp [rankP, idxOf] at h1 ⊢; omega

theorem getD_set_self {α : Type} (l : List α) (i : Nat) (a d : α) (h : i < l.length) :
    (l.set i a).getD i d = a := by
  rw [List.getD_eq_getElem?_getD, List.getElem?_set_self (by omega)]
  rfl

theorem getD_set_other {α : Type} (l : List α) {i j : Nat} (a d : α) (h : i ≠ j) :
    (l.set i a).getD j d = l.getD j d := by
  rw [List.getD_eq_getElem?_getD, List.getElem?_set_ne h, ← List.getD_eq_getElem?_getD]

theorem nodes_get?_eq {sl : SkipList V} {i : Nat} (h : i < sl.nodes.length) :
    sl.nodes.get? i = some (sl.nodeAt i) := by
  rw [List.get?_eq_getElem?, List.getElem?_eq_getElem h]
  simp [nodeAt, List.getD_eq_getElem?_getD, List.getElem?_eq_getElem h]

theorem nodeAt_set_self {sl : SkipList V} {i : Nat} (n : Node V) (h : i < sl.nodes.length) :
    ({ sl with nodes := sl.nodes.set i n } : SkipList V).nodeAt i = n := by
  simp only [nodeAt]
  exact getD_set_self _ _ _ _ (by omega)

theorem nodeAt_set_other {sl : SkipList V} {i j : Nat} (n : Node V) (h : i ≠ j) :
    ({ sl with nodes := sl.nodes.set i n } : SkipList V).nodeAt j = sl.nodeAt j := by
  simp only [nodeAt]
  exact getD_set_other _ _ _ h

/-- Fields untouched by `setWidth`. -/
theorem setWidth_fields (sl : SkipList V) (p : Pos) (ℓ : Nat) (w : Int) :
    (sl.setWidth p ℓ w).cmp = sl.cmp ∧ (sl.setWidth p ℓ w).level = sl.level ∧
    (sl.setWidth p ℓ w).size = sl.size ∧
    (sl.setWidth p ℓ w).nodes.length = sl.nodes.length ∧
    (sl.setWidth p ℓ w).headWidth.length = sl.headWidth.length := by
  match p with
  | none => simp [setWidth]
  | some i =>
    simp only [setWidth]
    match h : sl.nodes.get? i with
    | none => simp
    | some n => simp

/-- `setWidth` preserves every node height. -/
theorem setWidth_heightAt (sl : SkipList V) (p : Pos) (ℓ : Nat) (w : Int) (j : Nat) :
    (sl.setWidth p ℓ w).heightAt j = sl.heightAt j := by
  match p with
  | none => simp [setWidth, heightAt, nodeAt]
  | some i =>
    simp only [setWidth]
    match h : sl.nodes.get? i with
    | none => simp
    | some n =>
      have hi : i < sl.nodes.length := by
        by_contra hc
        rw [List.get?_eq_getElem?, List.getElem?_eq_none (by omega)] at h
        cases h
      by_cases hij : i = j
      · subst hij
        have hn : sl.nodeAt i = n := by
          have := nodes_get?_eq hi
          rw [this] at h; cases h; rfl
        rw [heightAt, nodeAt_set_self _ hi, heightAt, hn]
        simp [Node.height]
      · rw [heightAt, nodeAt_set_other _ hij, heightAt]

/-- `setWidth` preserves every stored value. -/
theorem setWidth_valP (sl : SkipList V) (p : Pos) (ℓ : Nat) (w : Int) (p' : Pos) :
    (sl.setWidth p ℓ w).valP p' = sl.valP p' := by
  match p with
  | none => cases p' <;> simp [setWidth, valP, nodeAt]
  | some i =>
    simp only [setWidth]
    match h : sl.nodes.get? i with
    | none => simp
    | some n =>
      have hi : i < sl.nodes.length := by
        by_contra hc
        rw [List.get?_eq_getElem?, List.getElem?_eq_none (by omega)] at h
        cases h
      match p' with
      | none => simp [valP]
      | some j =>
        by_cases hij : i = j
        · subst hij
          have hn : sl.nodeAt i = n := by
            have := nodes_get?_eq hi
            rw [this] at h; cases h; rfl
          simp only [valP]
          rw [nodeAt_set_self _ hi, hn]
        · simp only [valP]
          rw [nodeAt_set_other _ hij]

/-- `setWidth` preserves the forward-pointer structure. -/
theorem setWidth_ftall (sl : SkipList V) (p : Pos) (ℓ : Nat) (w : Int) (ℓ' k : Nat) :
    (sl.setWidth p ℓ w).ftall ℓ' k = sl.ftall ℓ' k := by
  apply ftall_congr_heights
  · exact (setWidth_fields sl p ℓ w).2.2.2.1
  · intro i _
    exact setWidth_heightAt sl p ℓ w i

/-- Reading the width slot just written (in-range writes). -/
theorem setWidth_widthAt_self {sl : SkipList V} {p : Pos} {ℓ : Nat} (w : Int)
    (hin : sl.slotOk p ℓ) :
    (sl.setWidth p ℓ w).widthAt ℓ p = w := by
  match p with
  | none =>
    simp only [setWidth, widthAt]
    exact getD_set_self _ _ _ _ hin
  | some i =>
    obtain ⟨hi, hℓ⟩ := (hin : i < sl.nodes.length ∧ ℓ < (sl.nodeAt i).width.length)
    simp only [setWidth]
    rw [nodes_get?_eq hi]
    simp only [widthAt]
    rw [nodeAt_set_self _ hi]
    exact getD_set_self _ _ _ _ hℓ

/-- Reading any other width slot. -/
theorem setWidth_widthAt_other {sl : SkipList V} {p p' : Pos} {ℓ ℓ' : Nat} (w : Int)
    (hdiff : p' ≠ p ∨ ℓ' ≠ ℓ) :
    (sl.setWidth p ℓ w).widthAt ℓ' p' = sl.widthAt ℓ' p' := by
  match p with
  | none =>
    match p' with
    | some j => simp [setWidth, widthAt, nodeAt]
    | none =>
      have hℓ : ℓ' ≠ ℓ := by
        rcases hdiff with h | h
        · exact absurd rfl h
        · exact h
      simp only [setWidth, widthAt]
      exact getD_set_other _ _ _ (by omega)
  | some i =>
    simp only [setWidth]
    match h : sl.nodes.get? i with
    | none => rfl
    | some n =>
      have hi : i < sl.nodes.length := by
        by_contra hc
        rw [List.get?_eq_getElem?, List.getElem?_eq_none (by omega)] at h
        cases h
      have hn : sl.nodeAt i = n := by
        have := nodes_get?_eq hi
        rw [this] at h; cases h; rfl
      match p' with
      | none => simp [widthAt]
      | some j =>
        by_cases hij : i = j
        · subst hij
          have hℓ : ℓ' ≠ ℓ := by
            rcases hdiff with h' | h'
            · exact absurd rfl h'
            · exact h'
          simp only [widthAt]
          rw [nodeAt_set_self _ hi, hn]
          exact getD_set_other _ _ _ (by omega)
        · simp only [widthAt]
          rw [nodeAt_set_other _ hij]

/-- Fields untouched by `setVal`, and its effect on values. -/
theorem setVal_fields (sl : SkipList V) (i : Nat) (v : V) :
    (sl.setVal i v).cmp = sl.cmp ∧ (sl.setVal i v).level = sl.level ∧
    (sl.setVal i v).size = sl.size ∧
    (sl.setVal i v).nodes.length = sl.nodes.length ∧
    (sl.setVal i v).headWidth = sl.headWidth := by
  simp only [setVal]
  match h : sl.nodes.get? i with
  | none => simp
  | some n => simp

theorem setVal_heightAt (sl : SkipList V) (i : Nat) (v : V) (j : Nat) :
    (sl.setVal i v).heightAt j = sl.heightAt j := by
  simp only [setVal]
  match h : sl.nodes.get? i with
  | none => simp
  | some n =>
    have hi : i < sl.nodes.length := by
      by_contra hc
      rw [List.get?_eq_getElem?, List.getElem?_eq_none (by omega)] at h
      cases h
    by_cases hij : i = j
    · subst hij
      have hn : sl.nodeAt i = n := by
        have := nodes_get?_eq hi
        rw [this] at h; cases h; rfl
      rw [heightAt, nodeAt_set_self _ hi, heightAt, hn]
      simp [Node.height]
    · rw [heightAt, nodeAt_set_other _ hij, heightAt]

theorem setVal_widthAt (sl : SkipList V) (i : Nat) (v : V) (ℓ : Nat) (p : Pos) :
    (sl.setVal i v).widthAt ℓ p = sl.widthAt ℓ p := by
  simp only [setVal]
  match h : sl.nodes.get? i with
  | none => rfl
  | some n =>
    have hi : i < sl.nodes.length := by
      by_contra hc
      rw [List.get?_eq_getElem?, List.getElem?_eq_none (by omega)] at h
      cases h
    have hn : sl.nodeAt i = n := by
      have := nodes_get?_eq hi
      rw [this] at h; cases h; rfl
    match p with
    | none => simp [widthAt]
    | some j =>
      by_cases hij : i = j
      · subst hij
        simp only [widthAt]
        rw [nodeAt_set_self _ hi, hn]
      · simp only [widthAt]
        rw [nodeAt_set_other _ hij]

theorem setVal_valP_self {sl : SkipList V} {i : Nat} (v : V) (hi : i < sl.nodes.length) :
    (sl.setVal i v).valP (some i) = v := by
  simp only [setVal]
  rw [nodes_get?_eq hi]
  simp only [valP]
  rw [nodeAt_set_self _ hi]

theorem setVal_valP_other {sl : SkipList V} {i : Nat} (v : V) {p : Pos}
    (hp : p ≠ some i) : (sl.setVal i v).valP p = sl.valP p := by
  simp only [setVal]
  match h : sl.nodes.get? i with
  | none => rfl
  | some n =>
    match p with
    | none => simp [valP]
    | some j =>
      have hij : i ≠ j := by
        intro hc; subst hc; exact hp rfl
      simp only [valP]
      rw [nodeAt_set_other _ hij]

theorem setVal_ftall (sl : SkipList V) (i : Nat) (v : V) (ℓ k : Nat) :
    (sl.setVal i v).ftall ℓ k = sl.ftall ℓ k := by
  apply ftall_congr_heights
  · exact (setVal_fields sl i v).2.2.2.1
  · intro j _
    exact setVal_heightAt sl i v j

theorem getD_append_lt {α : Type} (xs ys : List α) (i : Nat) (d : α) (h : i < xs.length) :
    (xs ++ ys).getD i d = xs.getD i d := by
  rw [List.getD_eq_getElem?_getD, List.getD_eq_getElem?_getD, List.getElem?_append,
    if_pos h]

theorem getD_snoc_self {α : Type} (xs : List α) (a : α) (d : α) :
    (xs ++ [a]).getD xs.length d = a := by
  rw [List.getD_eq_getElem?_getD, List.getElem?_append, if_neg (by omega)]
  simp

/-- Specification of the by-value inner loop on well-formed states: it
stays on the level-`ℓ` chain, only moves forward, keeps the strictly-below
invariant, stops exactly when the successor is not strictly below, and
accumulates the traversed widths as the rank distance covered. -/
theorem walkV_spec {sl : SkipList V} (w : sl.WF) {val : V} {ℓ : Nat}
    (hℓ : ℓ < sl.level) :
    ∀ fuel (p : Pos) (jump : Int), sl.OnChain ℓ p → sl.PredOk val p →
    sl.nodes.length + 1 ≤ fuel + idxOf p →
    sl.OnChain ℓ (sl.walkV val ℓ fuel p jump).1 ∧
    sl.PredOk val (sl.walkV val ℓ fuel p jump).1 ∧
    idxOf p ≤ idxOf (sl.walkV val ℓ fuel p jump).1 ∧
    (sl.walkV val ℓ fuel p jump).2 = jump + rankP (sl.walkV val ℓ fuel p jump).1 - rankP p ∧
    (∀ q, sl.nextPos ℓ (sl.walkV val ℓ fuel p jump).1 = some q →
      0 ≤ sl.cmp (sl.valP (some q)) val) := by
  intro fuel
  induction fuel with
  | zero =>
    intro p jump hp hpred hfuel
    have := idxOf_le_length hp
    omega
  | succ fuel ih =>
    intro p jump hp hpred hfuel
    match hnext : sl.nextPos ℓ p with
    | none =>
      simp only [walkV, hnext]
      refine ⟨hp, hpred, le_refl _, by ring, ?_⟩
      intro q hq
      simp at hq
    | some q =>
      have hq := hnext
      rw [nextPos_eq_ftall, ftall_some_iff] at hq
      obtain ⟨hq1, hq2, hq3, hq4⟩ := hq
      by_cases hcmp : sl.cmp (sl.valP (some q)) val < 0
      · have hwidth : sl.widthAt ℓ p = (q : Int) - rankP p := by
          rw [w.widthAt_eq hℓ hp, hnext]; rfl
        have hchain : sl.OnChain ℓ (some q) := Or.inr ⟨q, rfl, hq2, hq3⟩
        have hidx : idxOf (some q) = q + 1 := rfl
        have hrec := ih (some q) (jump + sl.widthAt ℓ p) hchain (Or.inr hcmp)
          (by rw [hidx]; omega)
        simp only [walkV, hnext, if_pos hcmp]
        refine ⟨hrec.1, hrec.2.1, ?_, ?_, hrec.2.2.2.2⟩
        · have h6 := hrec.2.2.1
          rw [hidx] at h6
          omega
        · rw [hrec.2.2.2.1, hwidth]
          simp only [rankP]
          ring
      · simp only [walkV, hnext, if_neg hcmp]
        refine ⟨hp, hpred, le_refl _, by ring, ?_⟩
        intro q' hq'
        cases hq'
        omega

/-- The level-0 forward pointer on well-formed states is the immediate
bottom successor. -/
theorem WF.ftall_zero {sl : SkipList V} (w : sl.WF) (k : Nat) :
    sl.ftall 0 k = if k < sl.nodes.length then some k else none := by
  split
  · rename_i h
    rw [ftall_some_iff]
    exact ⟨le_refl _, h, w.height_pos k h, by omega⟩
  · rename_i h
    rw [ftall_none_iff]
    omega

/-- Specification of the recording by-value descent: every recorded
per-level position is on its chain, strictly precedes the value, stops
before a successor not strictly below, positions shrink going up, and the
recorded jumps are the rank distances between consecutive levels'
positions. -/
theorem descendV_spec {sl : SkipList V} (w : sl.WF) (val : V) :
    ∀ (L : Nat), L ≤ sl.level → ∀ (p : Pos), (L = 0 ∨ sl.OnChain (L - 1) p) →
    sl.PredOk val p →
    (sl.descendV val L p).1.length = L ∧
    (sl.descendV val L p).2.length = L ∧
    (∀ ℓ, ℓ < L →
      sl.OnChain ℓ ((sl.descendV val L p).1.getD ℓ none) ∧
      sl.PredOk val ((sl.descendV val L p).1.getD ℓ none) ∧
      (∀ q, sl.nextPos ℓ ((sl.descendV val L p).1.getD ℓ none) = some q →
        0 ≤ sl.cmp (sl.valP (some q)) val)) ∧
    (∀ ℓ, ℓ + 1 < L →
      idxOf ((sl.descendV val L p).1.getD (ℓ + 1) none) ≤
        idxOf ((sl.descendV val L p).1.getD ℓ none) ∧
      (sl.descendV val L p).2.getD ℓ 0 =
        rankP ((sl.descendV val L p).1.getD ℓ none) -
          rankP ((sl.descendV val L p).1.getD (ℓ + 1) none)) ∧
    (1 ≤ L →
      idxOf p ≤ idxOf ((sl.descendV val L p).1.getD (L - 1) none) ∧
      (sl.descendV val L p).2.getD (L - 1) 0 =
        rankP ((sl.descendV val L p).1.getD (L - 1) none) - rankP p) := by
  intro L
  induction L with
  | zero =>
    intro _ p _ _
    simp [descendV]
  | succ L ih =>
    intro hL p hp hpred
    rcases hp with hp | hp
    · cases hp
    · simp only [Nat.add_sub_cancel] at hp
      have hw := walkV_spec w (by omega) (sl.nodes.length + 1) p 0 hp hpred (by omega)
      set q := (sl.walkV val L (sl.nodes.length + 1) p 0).1 with hqdef
      have hrec := ih (by omega) q
        (by
          rcases Nat.eq_zero_or_pos L with h0 | h0
          · exact Or.inl h0
          · exact Or.inr (onChain_mono hw.1 (by omega)))
        hw.2.1
      simp only [descendV]
      set d := sl.descendV val L q with hddef
      have hlen1 : d.1.length = L := hrec.1
      have hlen2 : d.2.length = L := hrec.2.1
      have hgetU : ∀ ℓ, ℓ < L → (d.1 ++ [q]).getD ℓ none = d.1.getD ℓ none := by
        intro ℓ hℓ'
        exact getD_append_lt _ _ _ _ (by omega)
      have hgetUL : (d.1 ++ [q]).getD L none = q := by
        have := getD_snoc_self d.1 q none
        rwa [hlen1] at this
      have hgetJ : ∀ ℓ, ℓ < L → (d.2 ++ [(sl.walkV val L (sl.nodes.length + 1) p 0).2]).getD ℓ 0 = d.2.getD ℓ 0 := by
        intro ℓ hℓ'
        exact getD_append_lt _ _ _ _ (by omega)
      have hgetJL : (d.2 ++ [(sl.walkV val L (sl.nodes.length + 1) p 0).2]).getD L 0 =
          (sl.walkV val L (sl.nodes.length + 1) p 0).2 := by
        have := getD_snoc_self d.2 (sl.walkV val L (sl.nodes.length + 1) p 0).2 0
        rwa [hlen2] at this
      refine ⟨by simp [hlen1], by simp [hlen2], ?_, ?_, ?_⟩
      · intro ℓ hℓ'
        by_cases hcase : ℓ < L
        · rw [hgetU ℓ hcase]
          exact hrec.2.2.1 ℓ hcase
        · have hℓL : ℓ = L := by omega
          subst hℓL
          rw [hgetUL]
          exact ⟨hw.1, hw.2.1, hw.2.2.2.2⟩
      · intro ℓ hℓ'
        by_cases hcase : ℓ + 1 < L
        · rw [hgetU ℓ (by omega), hgetU (ℓ + 1) hcase, hgetJ ℓ (by omega)]
          exact hrec.2.2.2.1 ℓ hcase
        · have hℓL : ℓ + 1 = L := by omega
          have hL1 : 1 ≤ L := by omega
          have htop := hrec.2.2.2.2 hL1
          rw [hgetU ℓ (by omega), hgetJ ℓ (by omega)]
          have hLL : ℓ = L - 1 := by omega
          subst hLL
          rw [hℓL, hgetUL]
          exact htop
      · intro _
        simp only [Nat.add_sub_cancel]
        rw [hgetUL, hgetJL]
        refine ⟨hw.2.2.1, ?_⟩
        have := hw.2.2.2.1
        omega

theorem idxOf_inj {p q : Pos} (h : idxOf p = idxOf q) : p = q := by
  cases p <;> cases q <;> simp [idxOf] at h ⊢ <;> omega

/-- Full characterization of the `Insert`/`Delete` value descent on a
well-formed state under a lawful comparator: the recorded predecessors
satisfy the descent facts with respect to the split index `r` (the number
of elements strictly below `val`), every element before `r` is strictly
below `val`, every element from `r` on is not, and the recorded jumps
measure the rank distances between consecutive levels. -/
theorem descendV_facts {sl : SkipList V} (w : sl.WF) (Lc : LawfulCmp sl.cmp) (val : V) :
    DescentFacts sl (sl.descendV val sl.level none).1
      (idxOf ((sl.descendV val sl.level none).1.getD 0 none)) ∧
    (∀ i, i < idxOf ((sl.descendV val sl.level none).1.getD 0 none) →
      sl.cmp (sl.nodeAt i).val val < 0) ∧
    (∀ i, idxOf ((sl.descendV val sl.level none).1.getD 0 none) ≤ i →
      i < sl.nodes.length → 0 ≤ sl.cmp (sl.nodeAt i).val val) ∧
    idxOf ((sl.descendV val sl.level none).1.getD 0 none) ≤ sl.nodes.length ∧
    (∀ ℓ, ℓ < sl.level → sl.PredOk val ((sl.descendV val sl.level none).1.getD ℓ none)) ∧
    (∀ ℓ, ℓ + 1 < sl.level → (sl.descendV val sl.level none).2.getD ℓ 0 =
      rankP ((sl.descendV val sl.level none).1.getD ℓ none) -
        rankP ((sl.descendV val sl.level none).1.getD (ℓ + 1) none)) ∧
    ((sl.descendV val sl.level none).2.getD (sl.level - 1) 0 =
      rankP ((sl.descendV val sl.level none).1.getD (sl.level - 1) none)) ∧
    (sl.descendV val sl.level none).2.length = sl.level := by
  have spec := descendV_spec w val sl.level (le_refl _) none
    (Or.inr (onChain_head sl _)) (Or.inl rfl)
  set d := sl.descendV val sl.level none with hd
  set r := idxOf (d.1.getD 0 none) with hr
  have hL1 : 1 ≤ sl.level := w.level_pos
  have humono : ∀ ℓ, ℓ < sl.level → idxOf (d.1.getD ℓ none) ≤ r := by
    intro ℓ
    induction ℓ with
    | zero => intro _; exact le_refl _
    | succ ℓ ih =>
      intro hℓ
      have h1 := (spec.2.2.2.1 ℓ hℓ).1
      have h2 := ih (by omega)
      omega
  have hchain0 := (spec.2.2.1 0 (by omega)).1
  have hrlen : r ≤ sl.nodes.length := idxOf_le_length hchain0
  have hbelow : ∀ i, i < r → sl.cmp (sl.nodeAt i).val val < 0 := by
    intro i hi
    rcases hchain0 with hnone | ⟨j, hj, hjlen, _⟩
    · rw [hnone] at hr
      simp [idxOf] at hr
      omega
    · have hidxr : r = j + 1 := by rw [hr, hj]; rfl
      have hpred := (spec.2.2.1 0 (by omega)).2.1
      rcases hpred with hnone | hlt
      · rw [hj] at hnone; cases hnone
      · rw [hj] at hlt
        simp only [valP] at hlt
        by_cases hij : i = j
        · subst hij; exact hlt
        · have hij2 : i < j := by omega
          exact Lc.lt_trans _ _ _ (w.sorted i (by omega) j hjlen hij2) hlt
  have habove : ∀ i, r ≤ i → i < sl.nodes.length → 0 ≤ sl.cmp (sl.nodeAt i).val val := by
    intro i hi hilen
    have hnext0 : sl.nextPos 0 (d.1.getD 0 none) = some r := by
      rw [nextPos_eq_ftall, ← hr, w.ftall_zero]
      rw [if_pos (by omega)]
    have hstop := (spec.2.2.1 0 (by omega)).2.2 r hnext0
    simp only [valP] at hstop
    by_cases hir : i = r
    · subst hir; exact hstop
    · have hri : r < i := by omega
      have hsort := w.sorted r (by omega) i hilen hri
      have h1 := Lc.antisymm (sl.nodeAt r).val val
      have h2 : sl.cmp val (sl.nodeAt r).val ≤ 0 := by omega
      have h3 := Lc.le_lt_trans h2 hsort
      have h4 := Lc.antisymm val (sl.nodeAt i).val
      omega
  refine ⟨⟨spec.1, fun ℓ hℓ => (spec.2.2.1 ℓ hℓ).1, humono, ?_⟩, hbelow, habove, hrlen,
    fun ℓ hℓ => (spec.2.2.1 ℓ hℓ).2.1, fun ℓ hℓ => (spec.2.2.2.1 ℓ hℓ).2,
    ?_, spec.2.1⟩
  · intro ℓ hℓ t ht1 ht2
    by_contra hc
    have htall2 : ℓ < sl.heightAt t := by omega
    obtain ⟨q, hq, hqt⟩ := ftall_le_of_tall htall2 ht1 (by omega)
    have hstop := (spec.2.2.1 ℓ hℓ).2.2 q (by rw [nextPos_eq_ftall]; exact hq)
    rw [ftall_some_iff] at hq
    have hqlow := hbelow q (by omega)
    simp only [valP] at hstop
    omega
  · have := (spec.2.2.2.2 hL1).2
    rw [this]
    simp [rankP]

/-- Forward-pointer transport under insertion, below the insertion point:
an old target before the insertion point is unchanged. -/
theorem ftall_ins_below {sl sl' : SkipList V} {r : Nat}
    (hh_lt : ∀ m, m < r → sl'.heightAt m = sl.heightAt m)
    {ℓ k q : Nat} (hq : sl.ftall ℓ k = some q) (hqr : q < r)
    (hlen' : sl'.nodes.length = sl.nodes.length + 1) :
    sl'.ftall ℓ k = some q := by
  rw [ftall_some_iff] at hq ⊢
  obtain ⟨h1, h2, h3, h4⟩ := hq
  refine ⟨h1, by omega, by rw [hh_lt q hqr]; exact h3, ?_⟩
  intro m hm1 hm2
  rw [hh_lt m (by omega)]
  exact h4 m hm1 hm2

/-- Forward-pointer transport under insertion, from beyond the insertion
point: targets shift up by one. -/
theorem ftall_ins_above {sl sl' : SkipList V} {r : Nat}
    (hh_gt : ∀ m, r ≤ m → m < sl.nodes.length → sl'.heightAt (m + 1) = sl.heightAt m)
    (hlen' : sl'.nodes.length = sl.nodes.length + 1)
    {ℓ k : Nat} (hk : r ≤ k) :
    sl'.ftall ℓ (k + 1) = (sl.ftall ℓ k).map (· + 1) := by
  match h : sl.ftall ℓ k with
  | some q =>
    rw [ftall_some_iff] at h
    obtain ⟨h1, h2, h3, h4⟩ := h
    show sl'.ftall ℓ (k + 1) = some (q + 1)
    rw [ftall_some_iff]
    refine ⟨by omega, by omega, by rw [hh_gt q (by omega) h2]; exact h3, ?_⟩
    intro m hm1 hm2
    have hm3 : m - 1 < sl.nodes.length := by omega
    have := h4 (m - 1) (by omega) (by omega)
    have hrw := hh_gt (m - 1) (by omega) hm3
    have hmm : m - 1 + 1 = m := by omega
    rw [hmm] at hrw
    omega
  | none =>
    rw [ftall_none_iff] at h
    show sl'.ftall ℓ (k + 1) = none
    rw [ftall_none_iff]
    intro m hm1 hm2
    have hm3 : m - 1 < sl.nodes.length := by omega
    have := h (m - 1) (by omega) hm3
    have hrw := hh_gt (m - 1) (by omega) hm3
    have hmm : m - 1 + 1 = m := by omega
    rw [hmm] at hrw
    omega

/-- The inserted node is its own chain entry when tall enough. -/
theorem ftall_ins_at {sl' : SkipList V} {r : Nat} {H : Nat}
    (hh_r : sl'.heightAt r = H) (hr : r < sl'.nodes.length)
    {ℓ : Nat} (hℓ : ℓ < H) :
    sl'.ftall ℓ r = some r := by
  rw [ftall_some_iff]
  exact ⟨le_refl _, hr, by rw [hh_r]; exact hℓ, by omega⟩

/-- Forward-pointer transport under erasure, below the erased index. -/
theorem ftall_del_below {sl sl' : SkipList V} {q : Nat}
    (hh_lt : ∀ m, m < q → sl'.heightAt m = sl.heightAt m)
    (hlen' : sl'.nodes.length + 1 = sl.nodes.length)
    (hqlen : q < sl.nodes.length)
    {ℓ k t : Nat} (ht : sl.ftall ℓ k = some t) (htq : t < q) :
    sl'.ftall ℓ k = some t := by
  rw [ftall_some_iff] at ht ⊢
  obtain ⟨h1, h2, h3, h4⟩ := ht
  refine ⟨h1, by omega, by rw [hh_lt t htq]; exact h3, ?_⟩
  intro m hm1 hm2
  rw [hh_lt m (by omega)]
  exact h4 m hm1 hm2

/-- Forward-pointer transport under erasure, from the erased index on:
targets shift down by one. -/
theorem ftall_del_above {sl sl' : SkipList V} {q : Nat}
    (hh_ge : ∀ m, q ≤ m → m + 1 < sl.nodes.length → sl'.heightAt m = sl.heightAt (m + 1))
    (hlen' : sl'.nodes.length + 1 = sl.nodes.length)
    {ℓ k : Nat} (hk : q ≤ k) :
    sl'.ftall ℓ k = (sl.ftall ℓ (k + 1)).map (· - 1) := by
  match h : sl.ftall ℓ (k + 1) with
  | some t =>
    rw [ftall_some_iff] at h
    obtain ⟨h1, h2, h3, h4⟩ := h
    show sl'.ftall ℓ k = some (t - 1)
    rw [ftall_some_iff]
    have ht1 : t - 1 < sl'.nodes.length := by omega
    refine ⟨by omega, ht1, ?_, ?_⟩
    · have hrw := hh_ge (t - 1) (by omega) (by omega)
      have hmm : t - 1 + 1 = t := by omega
      rw [hmm] at hrw
      rw [hrw]
      exact h3
    · intro m hm1 hm2
      have := h4 (m + 1) (by omega) (by omega)
      rw [hh_ge m (by omega) (by omega)]
      exact this
  | none =>
    rw [ftall_none_iff] at h
    show sl'.ftall ℓ k = none
    rw [ftall_none_iff]
    intro m hm1 hm2
    rw [hh_ge m (by omega) (by omega)]
    exact h (m + 1) (by omega) (by omega)

theorem sameShape_refl (S : SkipList V) : SameShape S S :=
  ⟨rfl, rfl, rfl, rfl, rfl, fun _ => rfl, fun _ => rfl⟩

theorem sameShape_trans {S T G : SkipList V} (h1 : SameShape S T) (h2 : SameShape T G) :
    SameShape S G := by
  obtain ⟨a1, a2, a3, a4, a5, a6, a7⟩ := h1
  obtain ⟨b1, b2, b3, b4, b5, b6, b7⟩ := h2
  exact ⟨a1.trans b1, a2.trans b2, a3.trans b3, a4.trans b4, a5.trans b5,
    fun i => (a6 i).trans (b6 i), fun p => (a7 p).trans (b7 p)⟩

theorem setWidth_sameShape (S : SkipList V) (p : Pos) (ℓ : Nat) (v : Int) :
    SameShape (S.setWidth p ℓ v) S := by
  obtain ⟨f1, f2, f3, f4, f5⟩ := setWidth_fields S p ℓ v
  exact ⟨f1, f2, f3, f4, f5, setWidth_heightAt S p ℓ v, setWidth_valP S p ℓ v⟩

theorem SameShape.ftall_eq {S G : SkipList V} (h : SameShape S G) (ℓ k : Nat) :
    S.ftall ℓ k = G.ftall ℓ k :=
  ftall_congr_heights h.2.2.2.1 (fun i _ => h.2.2.2.2.2.1 i) ℓ k

theorem SameShape.onChain_iff {S G : SkipList V} (h : SameShape S G) (ℓ : Nat) (p : Pos) :
    S.OnChain ℓ p ↔ G.OnChain ℓ p := by
  unfold OnChain
  rw [h.2.2.2.1]
  constructor <;> rintro (hp | ⟨i, rfl, hi, ht⟩)
  · exact Or.inl hp
  · exact Or.inr ⟨i, rfl, hi, by rw [← h.2.2.2.2.2.1 i]; exact ht⟩
  · exact Or.inl hp
  · exact Or.inr ⟨i, rfl, hi, by rw [h.2.2.2.2.2.1 i]; exact ht⟩

/-- Invariant proof for the splice loop of `Insert`: processing levels
`k, …, nl-1` starting from a state whose slots below `k` are already
rewritten, it rewrites each predecessor's level-`ℓ` width to the rank
distance `r - rankP`, and collects the new node's widths. -/
theorem spliceLoop_spec {G : SkipList V} {U : List Pos} {J : List Int} {nl r : Nat}
    (HO : ∀ ℓ, ℓ < nl → G.OnChain ℓ (U.getD ℓ none))
    (HB : G.widthAt 0 (U.getD 0 none) = (r : Int) - rankP (U.getD 0 none))
    (HJ : ∀ ℓ, ℓ + 1 < nl → J.getD ℓ 0 = rankP (U.getD ℓ none) - rankP (U.getD (ℓ + 1) none))
    (HW : ∀ ℓ, 1 ≤ ℓ → ℓ < nl →
      G.widthAt ℓ (U.getD ℓ none) =
        rankN G.nodes.length (G.ftall ℓ (idxOf (U.getD ℓ none))) - rankP (U.getD ℓ none))
    (Hheadlen : nl ≤ G.headWidth.length)
    (Hheight : ∀ ℓ i, ℓ < nl → U.getD ℓ none = some i → ℓ < (G.nodeAt i).width.length) :
    ∀ count k S acc, k + count = nl → SameShape S G →
    (∀ ℓ p, S.widthAt ℓ p =
      if 1 ≤ ℓ ∧ ℓ < k ∧ p = U.getD ℓ none then (r : Int) - rankP p else G.widthAt ℓ p) →
    acc.length = k →
    SameShape (spliceLoop U J count k S acc).1 G ∧
    (∀ ℓ p, (spliceLoop U J count k S acc).1.widthAt ℓ p =
      if 1 ≤ ℓ ∧ ℓ < nl ∧ p = U.getD ℓ none then (r : Int) - rankP p else G.widthAt ℓ p) ∧
    (spliceLoop U J count k S acc).2.length = nl ∧
    (∀ i, i < k → (spliceLoop U J count k S acc).2.getD i 0 = acc.getD i 0) ∧
    (∀ ℓ, k ≤ ℓ → ℓ < nl → (spliceLoop U J count k S acc).2.getD ℓ 0 = nwF G U r ℓ) := by
  intro count
  induction count with
  | zero =>
    intro k S acc hk hshape hw hacc
    simp only [spliceLoop]
    refine ⟨hshape, ?_, by omega, ?_, ?_⟩
    · intro ℓ p
      rw [hw ℓ p]
      by_cases hc : 1 ≤ ℓ ∧ ℓ < k ∧ p = U.getD ℓ none
      · rw [if_pos hc, if_pos ⟨hc.1, by omega, hc.2.2⟩]
      · rw [if_neg hc, if_neg (by rintro ⟨a, b, c⟩; exact hc ⟨a, by omega, c⟩)]
    · intros
      trivial
    · intro ℓ h1 h2
      omega
  | succ count ih =>
    intro k S acc hk hshape hw hacc
    by_cases hk0 : k = 0
    · subst hk0
      simp only [spliceLoop, eq_self_iff_true, if_true, Nat.zero_add]
      have hrec := ih 1 S (acc ++ [1]) (by omega) hshape
        (by
          intro ℓ p
          rw [hw ℓ p]
          rw [if_neg (by rintro ⟨_, h, _⟩; omega), if_neg (by rintro ⟨h1', h2', _⟩; omega)])
        (by rw [List.length_append, hacc]; rfl)
      refine ⟨hrec.1, hrec.2.1, hrec.2.2.1, by intro i hi; omega, ?_⟩
      intro ℓ h1 h2
      by_cases hℓ0 : ℓ = 0
      · subst hℓ0
        rw [hrec.2.2.2.1 0 (by omega)]
        have hsnoc : (acc ++ [(1 : Int)]).getD 0 0 = 1 := by
          have := getD_snoc_self acc (1 : Int) 0
          rw [hacc] at this
          exact this
        rw [hsnoc]
        simp [nwF]
      · exact hrec.2.2.2.2 ℓ (by omega) h2
    · have hk1 : 1 ≤ k := by omega
      simp only [spliceLoop, if_neg hk0]
      have hJk : J.getD (k - 1) 0 = rankP (U.getD (k - 1) none) - rankP (U.getD k none) := by
        have h := HJ (k - 1) (by omega)
        have hkk : k - 1 + 1 = k := by omega
        rw [hkk] at h
        exact h
      have hwprev : S.widthAt (k - 1) (U.getD (k - 1) none) =
          (r : Int) - rankP (U.getD (k - 1) none) := by
        by_cases hk2 : k - 1 = 0
        · rw [hk2]
          rw [hw 0 (U.getD 0 none), if_neg (by rintro ⟨a, _, _⟩; omega)]
          exact HB
        · rw [hw (k - 1) (U.getD (k - 1) none), if_pos ⟨by omega, by omega, rfl⟩]
      have hleft : S.widthAt (k - 1) (U.getD (k - 1) none) + J.getD (k - 1) 0 =
          (r : Int) - rankP (U.getD k none) := by
        rw [hwprev, hJk]; ring
      have hwk : S.widthAt k (U.getD k none) = G.widthAt k (U.getD k none) := by
        rw [hw k (U.getD k none), if_neg (by rintro ⟨_, h, _⟩; omega)]
      have hnw : S.widthAt k (U.getD k none) -
          (S.widthAt (k - 1) (U.getD (k - 1) none) + J.getD (k - 1) 0) + 1 = nwF G U r k := by
        rw [hleft, hwk, HW k (by omega) (by omega)]
        simp only [nwF, if_neg hk0]
        ring
      have hslot : S.slotOk (U.getD k none) k := by
        rcases hcase : U.getD k none with _ | i
        · show k < S.headWidth.length
          rw [hshape.2.2.2.2.1]
          omega
        · show i < S.nodes.length ∧ k < (S.nodeAt i).width.length
          have hO := HO k (by omega)
          rw [hcase] at hO
          rcases hO with h | ⟨i2, hi2, hlen2, ht2⟩
          · cases h
          · injection hi2 with hii
            subst hii
            refine ⟨by rw [hshape.2.2.2.1]; exact hlen2, ?_⟩
            have h6 := hshape.2.2.2.2.2.1 i
            have h7 := Hheight k i (by omega) hcase
            have h4 : (S.nodeAt i).width.length = S.heightAt i := rfl
            have h5 : (G.nodeAt i).width.length = G.heightAt i := rfl
            omega
      have hshape2 : SameShape (S.setWidth (U.getD k none) k
          (S.widthAt (k - 1) (U.getD (k - 1) none) + J.getD (k - 1) 0)) G :=
        sameShape_trans (setWidth_sameShape S _ k _) hshape
      have hw2 : ∀ ℓ p, (S.setWidth (U.getD k none) k
          (S.widthAt (k - 1) (U.getD (k - 1) none) + J.getD (k - 1) 0)).widthAt ℓ p =
          if 1 ≤ ℓ ∧ ℓ < k + 1 ∧ p = U.getD ℓ none then (r : Int) - rankP p
          else G.widthAt ℓ p := by
        intro ℓ p
        by_cases hslot2 : p = U.getD k none ∧ ℓ = k
        · obtain ⟨hp, hℓ⟩ := hslot2
          subst hℓ
          rw [hp]
          rw [setWidth_widthAt_self _ hslot]
          rw [if_pos ⟨by omega, by omega, hp ▸ hp⟩]
          rw [hleft]
        · have hdiff : p ≠ U.getD k none ∨ ℓ ≠ k := by tauto
          rw [setWidth_widthAt_other _ hdiff, hw ℓ p]
          by_cases hc : 1 ≤ ℓ ∧ ℓ < k ∧ p = U.getD ℓ none
          · rw [if_pos hc, if_pos ⟨hc.1, by omega, hc.2.2⟩]
          · rw [if_neg hc, if_neg (by
              rintro ⟨a, b, c⟩
              by_cases hℓk : ℓ = k
              · subst hℓk
                exact hslot2 ⟨c, rfl⟩
              · exact hc ⟨a, by omega, c⟩)]
      have hrec := ih (k + 1)
        (S.setWidth (U.getD k none) k
          (S.widthAt (k - 1) (U.getD (k - 1) none) + J.getD (k - 1) 0))
        (acc ++ [S.widthAt k (U.getD k none) -
          (S.widthAt (k - 1) (U.getD (k - 1) none) + J.getD (k - 1) 0) + 1])
        (by omega) hshape2 hw2
        (by rw [List.length_append, hacc]; rfl)
      refine ⟨hrec.1, hrec.2.1, hrec.2.2.1, ?_, ?_⟩
      · intro i hi
        rw [hrec.2.2.2.1 i (by omega)]
        exact getD_append_lt _ _ _ _ (by omega)
      · intro ℓ h1 h2
        by_cases hℓk : ℓ = k
        · subst hℓk
          rw [hrec.2.2.2.1 ℓ (by omega)]
          have hsnoc := getD_snoc_self acc (S.widthAt ℓ (U.getD ℓ none) -
            (S.widthAt (ℓ - 1) (U.getD (ℓ - 1) none) + J.getD (ℓ - 1) 0) + 1) (0 : Int)
          rw [hacc] at hsnoc
          rw [hsnoc]
          exact hnw
        · exact hrec.2.2.2.2 ℓ (by omega) h2

/-- Invariant proof for the post-splice width bump loop of `Insert`:
levels `k, …, k+count-1` each get the matching predecessor's width
incremented by one; nothing else changes. -/
theorem bumpLoop_spec {U : List Pos} :
    ∀ (count k : Nat) (S : SkipList V),
    (∀ ℓ, k ≤ ℓ → ℓ < k + count → S.slotOk (U.getD ℓ none) ℓ) →
    SameShape (bumpLoop U count k S) S ∧
    (∀ ℓ p, (bumpLoop U count k S).widthAt ℓ p =
      if k ≤ ℓ ∧ ℓ < k + count ∧ p = U.getD ℓ none then S.widthAt ℓ p + 1
      else S.widthAt ℓ p) := by
  intro count
  induction count with
  | zero =>
    intro k S hin
    simp only [bumpLoop]
    refine ⟨sameShape_refl S, ?_⟩
    intro ℓ p
    rw [if_neg (by rintro ⟨a, b, _⟩; omega)]
  | succ count ih =>
    intro k S hin
    simp only [bumpLoop]
    have hslot := hin k (le_refl _) (by omega)
    have hshape' : SameShape (S.setWidth (U.getD k none) k (S.widthAt k (U.getD k none) + 1)) S :=
      setWidth_sameShape S _ k _
    have hrec := ih (k + 1) (S.setWidth (U.getD k none) k (S.widthAt k (U.getD k none) + 1))
      (by
        intro ℓ hℓ1 hℓ2
        have hS := hin ℓ (by omega) (by omega)
        rcases hcase : U.getD ℓ none with _ | i
        · show ℓ < (S.setWidth (U.getD k none) k (S.widthAt k (U.getD k none) + 1)).headWidth.length
          rw [hshape'.2.2.2.2.1]
          rw [hcase] at hS
          exact hS
        · show i < (S.setWidth (U.getD k none) k (S.widthAt k (U.getD k none) + 1)).nodes.length ∧
            ℓ < ((S.setWidth (U.getD k none) k (S.widthAt k (U.getD k none) + 1)).nodeAt i).width.length
          rw [hcase] at hS
          obtain ⟨ha, hb⟩ := (hS : i < S.nodes.length ∧ ℓ < (S.nodeAt i).width.length)
          refine ⟨by rw [hshape'.2.2.2.1]; exact ha, ?_⟩
          have h4 : ((S.setWidth (U.getD k none) k (S.widthAt k (U.getD k none) + 1)).nodeAt i).width.length =
            (S.setWidth (U.getD k none) k (S.widthAt k (U.getD k none) + 1)).heightAt i := rfl
          have h5 : (S.nodeAt i).width.length = S.heightAt i := rfl
          have h6 := hshape'.2.2.2.2.2.1 i
          omega)
    refine ⟨sameShape_trans hrec.1 hshape', ?_⟩
    intro ℓ p
    rw [hrec.2 ℓ p]
    by_cases hc : k + 1 ≤ ℓ ∧ ℓ < k + 1 + count ∧ p = U.getD ℓ none
    · rw [if_pos hc, if_pos ⟨by omega, by omega, hc.2.2⟩]
      rw [setWidth_widthAt_other _ (Or.inr (by omega))]
    · rw [if_neg hc]
      by_cases hslot2 : p = U.getD k none ∧ ℓ = k
      · obtain ⟨hp, hℓ⟩ := hslot2
        subst hℓ
        rw [hp]
        rw [setWidth_widthAt_self _ hslot]
        rw [if_pos ⟨le_refl _, by omega, hp ▸ hp⟩]
      · have hdiff : p ≠ U.getD k none ∨ ℓ ≠ k := by tauto
        rw [setWidth_widthAt_other _ hdiff]
        rw [if_neg (by
          rintro ⟨a, b, c⟩
          by_cases hℓk : ℓ = k
          · subst hℓk
            exact hslot2 ⟨c, rfl⟩
          · exact hc ⟨by omega, by omega, c⟩)]

theorem rankN_map_add_one (len : Nat) (o : Option Nat) :
    rankN (len + 1) (o.map (· + 1)) = rankN len o + 1 := by
  match o with
  | none => simp [rankN]
  | some q => simp [rankN]

theorem length_ins {α : Type} (ns : List α) (r : Nat) (nd : α) (hr : r ≤ ns.length) :
    (ns.take r ++ [nd] ++ ns.drop r).length = ns.length + 1 := by
  simp [List.length_take, List.length_drop]
  omega

theorem getD_ins_lt {α : Type} (ns : List α) (r : Nat) (nd : α) (d : α) {j : Nat}
    (hj : j < r) (hr : r ≤ ns.length) :
    (ns.take r ++ [nd] ++ ns.drop r).getD j d = ns.getD j d := by
  rw [List.getD_eq_getElem?_getD, List.getD_eq_getElem?_getD]
  rw [List.getElem?_append_left (by simp [List.length_take]; omega)]
  rw [List.getElem?_append_left (by simp [List.length_take]; omega)]
  rw [List.getElem?_take]
  rw [if_pos hj]

theorem getD_ins_self {α : Type} (ns : List α) (r : Nat) (nd : α) (d : α)
    (hr : r ≤ ns.length) :
    (ns.take r ++ [nd] ++ ns.drop r).getD r d = nd := by
  have hmin : min r ns.length = r := Nat.min_eq_left hr
  rw [List.getD_eq_getElem?_getD]
  rw [List.getElem?_append_left (by simp [List.length_take, hmin])]
  rw [List.getElem?_append_right (by simp [List.length_take, hmin])]
  simp [List.length_take, hmin]

theorem getD_ins_gt {α : Type} (ns : List α) (r : Nat) (nd : α) (d : α) {j : Nat}
    (hj : r < j) (hr : r ≤ ns.length) :
    (ns.take r ++ [nd] ++ ns.drop r).getD j d = ns.getD (j - 1) d := by
  have hmin : min r ns.length = r := Nat.min_eq_left hr
  rw [List.getD_eq_getElem?_getD, List.getD_eq_getElem?_getD]
  rw [List.getElem?_append_right (by simp [List.length_take, hmin]; omega)]
  rw [List.getElem?_drop]
  congr 1
  simp only [List.length_append, List.length_take, List.length_cons, List.length_nil, hmin]
  congr 1
  omega

/-- Any element strictly after a not-below split point is strictly above
the value. -/
theorem strict_above {sl : SkipList V} (w : sl.WF) (Lc : LawfulCmp sl.cmp) (val : V)
    {r i : Nat} (hri : r < i) (hi : i < sl.nodes.length)
    (hr0 : 0 ≤ sl.cmp (sl.nodeAt r).val val) : 0 < sl.cmp (sl.nodeAt i).val val := by
  have hsort := w.sorted r (by omega) i hi hri
  have h1 := Lc.antisymm (sl.nodeAt r).val val
  have h2 : sl.cmp val (sl.nodeAt r).val ≤ 0 := by omega
  have h3 := Lc.le_lt_trans h2 hsort
  have h4 := Lc.antisymm val (sl.nodeAt i).val
  omega

/-- `insertNew` is the level extension followed by `mkT`. -/
theorem insertNew_eq_mkT (sl : SkipList V) (val : V) (nl : Nat)
    (updates : List Pos) (jumps : List Int) (bottom : Pos) :
    sl.insertNew val nl updates jumps bottom =
      (if sl.level < nl then
        mkT { sl with
                headWidth := sl.headWidth ++ List.replicate (nl - sl.level) (sl.size : Int),
                level := nl }
          (updates ++ List.replicate (nl - sl.level) (none : Pos))
          (jumps ++ List.replicate (nl - sl.level) (0 : Int)) nl (idxOf bottom) val
      else mkT sl updates jumps nl (idxOf bottom) val) := by
  by_cases hgrow : sl.level < nl
  · rw [if_pos hgrow]
    simp only [insertNew, mkT, if_pos hgrow]
  · rw [if_neg hgrow]
    simp only [insertNew, mkT, if_neg hgrow]

/-- Core correctness of the not-found path of `Insert`, stated over the
(possibly already level-extended) state `G`: splicing a node of height
`nl` at split index `r` with the recorded descent data yields a
well-formed state holding the old values with `val` inserted at rank
`r`. -/
theorem insertCore_wf {G : SkipList V} {U : List Pos} {J : List Int} {nl r : Nat} {val : V}
    (Lc : LawfulCmp G.cmp)
    (hnl1 : 1 ≤ nl) (hnlL : nl ≤ G.level)
    (hsz : G.size = G.nodes.length)
    (hhd : G.headWidth.length = G.level)
    (hh1 : ∀ i, i < G.nodes.length → 1 ≤ G.heightAt i)
    (hhle : ∀ i, i < G.nodes.length → G.heightAt i ≤ G.level)
    (htop : G.level = nl ∨ ∃ i, i < G.nodes.length ∧ G.heightAt i = G.level)
    (hsorted : ∀ i, i < G.nodes.length → ∀ j, j < G.nodes.length → i < j →
      G.cmp (G.nodeAt i).val (G.nodeAt j).val < 0)
    (Hwidth : ∀ ℓ, ℓ < G.level → ∀ p, G.OnChain ℓ p →
      G.widthAt ℓ p = rankN G.nodes.length (G.ftall ℓ (idxOf p)) - rankP p)
    (DF : DescentFacts G U r)
    (hr0 : idxOf (U.getD 0 none) = r)
    (hrlen : r ≤ G.nodes.length)
    (HJ : ∀ ℓ, ℓ + 1 < nl → J.getD ℓ 0 = rankP (U.getD ℓ none) - rankP (U.getD (ℓ + 1) none))
    (hbelow : ∀ i, i < r → G.cmp (G.nodeAt i).val val < 0)
    (habove : ∀ i, r ≤ i → i < G.nodes.length → 0 < G.cmp (G.nodeAt i).val val) :
    (mkT G U J nl r val).WF ∧
    (mkT G U J nl r val).cmp = G.cmp ∧
    (mkT G U J nl r val).level = G.level ∧
    (mkT G U J nl r val).size = G.size + 1 ∧
    (mkT G U J nl r val).nodes.length = G.nodes.length + 1 ∧
    (∀ i, i < r → (mkT G U J nl r val).valP (some i) = G.valP (some i)) ∧
    (mkT G U J nl r val).valP (some r) = val ∧
    (∀ i, r ≤ i → i < G.nodes.length →
      (mkT G U J nl r val).valP (some (i + 1)) = G.valP (some i)) := by
  classical
  have hLpos : 1 ≤ G.level := le_trans hnl1 hnlL
  set len := G.nodes.length with hlendef
  have hftall0r : rankN len (G.ftall 0 r) = (r : Int) := by
    by_cases hrl : r < len
    · have : G.ftall 0 r = some r := by
        rw [ftall_some_iff]
        exact ⟨le_refl _, hrl, by have := hh1 r hrl; omega, by omega⟩
      rw [this]; rfl
    · have : G.ftall 0 r = none := by
        rw [ftall_none_iff]
        intro m hm1 hm2
        omega
      rw [this]
      simp [rankN]
      omega
  -- splice loop
  have HO : ∀ ℓ, ℓ < nl → G.OnChain ℓ (U.getD ℓ none) :=
    fun ℓ hℓ => DF.onChain ℓ (by omega)
  have HB : G.widthAt 0 (U.getD 0 none) = (r : Int) - rankP (U.getD 0 none) := by
    rw [Hwidth 0 (by omega) _ (DF.onChain 0 (by omega)), hr0, hftall0r]
  have HW : ∀ ℓ, 1 ≤ ℓ → ℓ < nl →
      G.widthAt ℓ (U.getD ℓ none) =
        rankN len (G.ftall ℓ (idxOf (U.getD ℓ none))) - rankP (U.getD ℓ none) :=
    fun ℓ _ hℓ => Hwidth ℓ (by omega) _ (DF.onChain ℓ (by omega))
  have Hheadlen : nl ≤ G.headWidth.length := by rw [hhd]; exact hnlL
  have Hheight : ∀ ℓ i, ℓ < nl → U.getD ℓ none = some i → ℓ < (G.nodeAt i).width.length := by
    intro ℓ i hℓ hcase
    have hO := DF.onChain ℓ (by omega)
    rw [hcase] at hO
    rcases hO with h | ⟨i2, hi2, hlen2, ht2⟩
    · cases h
    · injection hi2 with hii
      subst hii
      exact ht2
  have splice := spliceLoop_spec HO HB HJ HW Hheadlen Hheight nl 0 G []
    (by omega) (sameShape_refl G)
    (by intro ℓ p; rw [if_neg (by rintro ⟨_, h, _⟩; omega)]) rfl
  set A := spliceLoop U J nl 0 G [] with hA
  have S1shape : SameShape A.1 G := splice.1
  have hWlen : A.2.length = nl := splice.2.2.1
  have hWget : ∀ ℓ, ℓ < nl → A.2.getD ℓ 0 = nwF G U r ℓ :=
    fun ℓ hℓ => splice.2.2.2.2 ℓ (by omega) hℓ
  -- bump loop
  have hslots : ∀ ℓ, nl ≤ ℓ → ℓ < nl + (G.level - nl) → A.1.slotOk (U.getD ℓ none) ℓ := by
    intro ℓ hℓ1 hℓ2
    have hℓL : ℓ < G.level := by omega
    have hO := DF.onChain ℓ hℓL
    rcases hcase : U.getD ℓ none with _ | i
    · show ℓ < A.1.headWidth.length
      rw [S1shape.2.2.2.2.1, hhd]
      exact hℓL
    · show i < A.1.nodes.length ∧ ℓ < (A.1.nodeAt i).width.length
      rw [hcase] at hO
      rcases hO with h | ⟨i2, hi2, hlen2, ht2⟩
      · cases h
      · injection hi2 with hii
        subst hii
        refine ⟨by rw [S1shape.2.2.2.1]; exact hlen2, ?_⟩
        have h4 : (A.1.nodeAt i).width.length = A.1.heightAt i := rfl
        have h6 := S1shape.2.2.2.2.2.1 i
        have h5 : (G.nodeAt i).width.length = G.heightAt i := rfl
        omega
  have bump := bumpLoop_spec (G.level - nl) nl A.1 hslots
  set S2 := bumpLoop U (G.level - nl) nl A.1 with hS2
  have S2shape : SameShape S2 G := sameShape_trans bump.1 S1shape
  have hW2 : ∀ ℓ p, S2.widthAt ℓ p =
      if 1 ≤ ℓ ∧ ℓ < nl ∧ p = U.getD ℓ none then (r : Int) - rankP p
      else if nl ≤ ℓ ∧ ℓ < G.level ∧ p = U.getD ℓ none then G.widthAt ℓ p + 1
      else G.widthAt ℓ p := by
    intro ℓ p
    rw [bump.2 ℓ p]
    by_cases hb : nl ≤ ℓ ∧ ℓ < nl + (G.level - nl) ∧ p = U.getD ℓ none
    · rw [if_pos hb, splice.2.1 ℓ p,
        if_neg (by rintro ⟨_, h, _⟩; omega),
        if_neg (by rintro ⟨_, h, _⟩; omega),
        if_pos ⟨hb.1, by omega, hb.2.2⟩]
    · rw [if_neg hb, splice.2.1 ℓ p]
      by_cases hs : 1 ≤ ℓ ∧ ℓ < nl ∧ p = U.getD ℓ none
      · rw [if_pos hs, if_pos hs]
      · rw [if_neg hs, if_neg hs, if_neg (by rintro ⟨a, b, c⟩; exact hb ⟨a, by omega, c⟩)]
  -- the final inserted state
  set T := mkT G U J nl r val with hTdef
  have hT : T = { S2 with
      nodes := S2.nodes.take r ++ [⟨val, A.2⟩] ++ S2.nodes.drop r,
      size := S2.size + 1 } := rfl
  have hS2len : S2.nodes.length = len := S2shape.2.2.2.1
  have hrlen2 : r ≤ S2.nodes.length := by omega
  have hTnodes : T.nodes = S2.nodes.take r ++ [⟨val, A.2⟩] ++ S2.nodes.drop r := by rw [hT]
  have hTcmp : T.cmp = G.cmp := by rw [hT]; exact S2shape.1
  have hTlevel : T.level = G.level := by rw [hT]; exact S2shape.2.1
  have hTsize : T.size = G.size + 1 := by
    rw [hT]
    show S2.size + 1 = G.size + 1
    rw [S2shape.2.2.1]
  have hThw : T.headWidth = S2.headWidth := by rw [hT]
  have hTlen : T.nodes.length = len + 1 := by
    rw [hTnodes, length_ins _ _ _ hrlen2, hS2len]
  have hTnode_lt : ∀ j, j < r → T.nodeAt j = S2.nodeAt j := by
    intro j hj
    show T.nodes.getD j dnode = S2.nodes.getD j dnode
    rw [hTnodes]
    exact getD_ins_lt _ _ _ _ hj hrlen2
  have hTnode_self : T.nodeAt r = ⟨val, A.2⟩ := by
    show T.nodes.getD r dnode = _
    rw [hTnodes]
    exact getD_ins_self _ _ _ _ hrlen2
  have hTnode_gt : ∀ j, r < j → T.nodeAt j = S2.nodeAt (j - 1) := by
    intro j hj
    show T.nodes.getD j dnode = S2.nodes.getD (j - 1) dnode
    rw [hTnodes]
    exact getD_ins_gt _ _ _ _ hj hrlen2
  have hTh_lt : ∀ m, m < r → T.heightAt m = G.heightAt m := by
    intro m hm
    show (T.nodeAt m).height = _
    rw [hTnode_lt m hm]
    exact S2shape.2.2.2.2.2.1 m
  have hTh_r : T.heightAt r = nl := by
    show (T.nodeAt r).height = nl
    rw [hTnode_self]
    exact hWlen
  have hTh_gt : ∀ m, r ≤ m → m < len → T.heightAt (m + 1) = G.heightAt m := by
    intro m hm1 hm2
    show (T.nodeAt (m + 1)).height = _
    rw [hTnode_gt (m + 1) (by omega)]
    simp only [Nat.add_sub_cancel]
    exact S2shape.2.2.2.2.2.1 m
  have hTval_lt : ∀ j, j < r → T.valP (some j) = G.valP (some j) := by
    intro j hj
    show (T.nodeAt j).val = _
    rw [hTnode_lt j hj]
    exact S2shape.2.2.2.2.2.2 (some j)
  have hTval_self : T.valP (some r) = val := by
    show (T.nodeAt r).val = val
    rw [hTnode_self]
  have hTval_gt : ∀ j, r ≤ j → j < len → T.valP (some (j + 1)) = G.valP (some j) := by
    intro j hj1 hj2
    show (T.nodeAt (j + 1)).val = _
    rw [hTnode_gt (j + 1) (by omega)]
    simp only [Nat.add_sub_cancel]
    exact S2shape.2.2.2.2.2.2 (some j)
  have hTw_head : ∀ ℓ, T.widthAt ℓ none = S2.widthAt ℓ none := by
    intro ℓ
    show T.headWidth.getD ℓ 0 = S2.headWidth.getD ℓ 0
    rw [hThw]
  have hTw_lt : ∀ ℓ j, j < r → T.widthAt ℓ (some j) = S2.widthAt ℓ (some j) := by
    intro ℓ j hj
    show (T.nodeAt j).width.getD ℓ 0 = (S2.nodeAt j).width.getD ℓ 0
    rw [hTnode_lt j hj]
  -- the central per-slot width verification for positions at or before r
  have claim : ∀ ℓ, ℓ < G.level → ∀ p : Pos, G.OnChain ℓ p → idxOf p ≤ r →
      S2.widthAt ℓ p = rankN (len + 1) (T.ftall ℓ (idxOf p)) - rankP p := by
    intro ℓ hℓ p hchain hidx
    have hgapT : ∀ m, idxOf (U.getD ℓ none) ≤ m → m < r → T.heightAt m ≤ ℓ := by
      intro m hm1 hm2
      rw [hTh_lt m hm2]
      exact DF.gap ℓ hℓ m hm1 hm2
    by_cases hup : p = U.getD ℓ none
    · have hidxu : idxOf p = idxOf (U.getD ℓ none) := by rw [hup]
      have hcongrT : T.ftall ℓ (idxOf p) = T.ftall ℓ r :=
        ftall_congr_start (by omega) (by
          intro m hm1 hm2
          exact hgapT m (by omega) hm2)
      by_cases hℓnl : ℓ < nl
      · have hvalue : S2.widthAt ℓ p = (r : Int) - rankP p := by
          by_cases hℓ1 : 1 ≤ ℓ
          · rw [hW2 ℓ p, if_pos ⟨hℓ1, hℓnl, hup⟩]
          · have hℓ0 : ℓ = 0 := by omega
            subst hℓ0
            rw [hW2 0 p, if_neg (by rintro ⟨h, _, _⟩; omega),
              if_neg (by rintro ⟨h, _, _⟩; omega)]
            rw [Hwidth 0 (by omega) p hchain]
            rw [hidxu, hr0, hftall0r]
        rw [hvalue, hcongrT, ftall_ins_at hTh_r (by omega) hℓnl]
        rfl
      · have hvalue : S2.widthAt ℓ p = G.widthAt ℓ p + 1 := by
          rw [hW2 ℓ p, if_neg (by rintro ⟨_, h, _⟩; omega), if_pos ⟨by omega, hℓ, hup⟩]
        have hG : G.widthAt ℓ p = rankN len (G.ftall ℓ (idxOf p)) - rankP p :=
          Hwidth ℓ hℓ p hchain
        have hcongrT2 : T.ftall ℓ r = T.ftall ℓ (r + 1) :=
          ftall_congr_start (by omega) (by
            intro m hm1 hm2
            have hmr : m = r := by omega
            subst hmr
            rw [hTh_r]
            omega)
        have hins := ftall_ins_above hTh_gt (by omega) (le_refl r) (ℓ := ℓ)
        have hcongrG : G.ftall ℓ (idxOf p) = G.ftall ℓ r :=
          ftall_congr_start (by omega) (by
            intro m hm1 hm2
            exact DF.gap ℓ hℓ m (by omega) hm2)
        rw [hvalue, hG, hcongrT, hcongrT2, hins, rankN_map_add_one, hcongrG]
        ring
    · have hidxne : idxOf p ≠ idxOf (U.getD ℓ none) := fun h => hup (idxOf_inj h)
      by_cases hlt : idxOf p < idxOf (U.getD ℓ none)
      · rcases hUc : U.getD ℓ none with _ | t
        · rw [hUc] at hlt
          have h0 : idxOf (none : Pos) = 0 := rfl
          omega
        · have hOU := DF.onChain ℓ hℓ
          rw [hUc] at hOU
          rcases hOU with h | ⟨t2, ht2, htlen, httall⟩
          · cases h
          · injection ht2 with htt
            subst htt
            have hidxU : idxOf (some t : Pos) = t + 1 := rfl
            rw [hUc, hidxU] at hlt
            have htr : t < r := by
              have h5 := DF.idx_le ℓ hℓ
              rw [hUc] at h5
              rw [hidxU] at h5
              omega
            obtain ⟨q', hq', hq't⟩ := ftall_le_of_tall (k := idxOf p) httall (by omega) htlen
            have hvalue : S2.widthAt ℓ p = G.widthAt ℓ p := by
              rw [hW2 ℓ p, if_neg (by rintro ⟨_, _, c⟩; exact hup c),
                if_neg (by rintro ⟨_, _, c⟩; exact hup c)]
            have hG := Hwidth ℓ hℓ p hchain
            have hins := ftall_ins_below hTh_lt hq' (by omega) (by omega)
            rw [hvalue, hG, hq', hins]
            rfl
      · rcases hchain with rfl | ⟨j, rfl, hjlen, hjt⟩
        · have h0 : idxOf (none : Pos) = 0 := rfl
          omega
        · have hidxj : idxOf (some j : Pos) = j + 1 := rfl
          have hjr : j < r := by rw [hidxj] at hidx; omega
          have := DF.gap ℓ hℓ j (by omega) hjr
          omega
  have newwidth : ∀ ℓ, ℓ < nl →
      A.2.getD ℓ 0 = rankN (len + 1) (T.ftall ℓ (r + 1)) - (r : Int) := by
    intro ℓ hℓ
    have hins := ftall_ins_above hTh_gt (by omega) (le_refl r) (ℓ := ℓ)
    rw [hWget ℓ hℓ, hins, rankN_map_add_one]
    by_cases hℓ0 : ℓ = 0
    · subst hℓ0
      simp only [nwF, eq_self_iff_true, if_true]
      rw [hftall0r]
      ring
    · simp only [nwF, if_neg hℓ0]
      have hcongrG : G.ftall ℓ (idxOf (U.getD ℓ none)) = G.ftall ℓ r := by
        apply ftall_congr_start (DF.idx_le ℓ (by omega))
        intro m hm1 hm2
        exact DF.gap ℓ (by omega) m hm1 hm2
      rw [hcongrG]
  have highwidth : ∀ ℓ m, r ≤ m → m < len → ℓ < G.heightAt m →
      S2.widthAt ℓ (some m) = rankN (len + 1) (T.ftall ℓ (m + 2)) - ((m : Int) + 1) := by
    intro ℓ m hm1 hm2 hℓh
    have hℓL : ℓ < G.level := by have := hhle m hm2; omega
    have hidxm : idxOf (some m : Pos) = m + 1 := rfl
    have hne : (some m : Pos) ≠ U.getD ℓ none := by
      intro hcon
      have h5 := DF.idx_le ℓ hℓL
      rw [← hcon, hidxm] at h5
      omega
    have hvalue : S2.widthAt ℓ (some m) = G.widthAt ℓ (some m) := by
      rw [hW2 ℓ (some m), if_neg (by rintro ⟨_, _, c⟩; exact hne c),
        if_neg (by rintro ⟨_, _, c⟩; exact hne c)]
    have hG := Hwidth ℓ hℓL (some m) (Or.inr ⟨m, rfl, hm2, hℓh⟩)
    rw [hidxm] at hG
    have hrankm : rankP (some m : Pos) = (m : Int) := rfl
    rw [hrankm] at hG
    have hins := ftall_ins_above hTh_gt (by omega) (show r ≤ m + 1 by omega) (ℓ := ℓ)
    have h22 : m + 1 + 1 = m + 2 := rfl
    rw [h22] at hins
    rw [hvalue, hG, hins, rankN_map_add_one]
    ring
  have hWF : T.WF := by
    constructor
    · rw [hTsize, hTlen, hsz]
    · rw [hTlevel]; omega
    · rw [hThw, hTlevel, S2shape.2.2.2.2.1, hhd]
    · intro i hi
      rw [hTlen] at hi
      rcases Nat.lt_trichotomy i r with h | h | h
      · rw [hTh_lt i h]
        exact hh1 i (by omega)
      · subst h
        rw [hTh_r]
        omega
      · have hi1 : i - 1 < len := by omega
        have hieq : i = (i - 1) + 1 := by omega
        rw [hieq, hTh_gt (i - 1) (by omega) hi1]
        exact hh1 (i - 1) hi1
    · intro i hi
      rw [hTlen] at hi
      rw [hTlevel]
      rcases Nat.lt_trichotomy i r with h | h | h
      · rw [hTh_lt i h]
        exact hhle i (by omega)
      · subst h
        rw [hTh_r]
        omega
      · have hi1 : i - 1 < len := by omega
        have hieq : i = (i - 1) + 1 := by omega
        rw [hieq, hTh_gt (i - 1) (by omega) hi1]
        exact hhle (i - 1) hi1
    · right
      rcases htop with hnl2 | ⟨i, hi, hhi⟩
      · refine ⟨r, by rw [hTlen]; omega, ?_⟩
        rw [hTh_r, hTlevel, hnl2]
      · by_cases hir : i < r
        · refine ⟨i, by rw [hTlen]; omega, ?_⟩
          rw [hTh_lt i hir, hTlevel]
          exact hhi
        · refine ⟨i + 1, by rw [hTlen]; omega, ?_⟩
          rw [hTh_gt i (by omega) hi, hTlevel]
          exact hhi
    · intro i hi j2 hj2 hij
      rw [hTlen] at hi hj2
      have hvi : (T.nodeAt i).val = T.valP (some i) := rfl
      have hvj : (T.nodeAt j2).val = T.valP (some j2) := rfl
      rw [hvi, hvj, hTcmp]
      have hnv : ∀ m, (G.nodeAt m).val = G.valP (some m) := fun m => rfl
      rcases Nat.lt_trichotomy j2 r with hj2r | hj2r | hj2r
      · rw [hTval_lt i (by omega), hTval_lt j2 hj2r, ← hnv, ← hnv]
        exact hsorted i (by omega) j2 (by omega) hij
      · subst hj2r
        rw [hTval_lt i (by omega), hTval_self, ← hnv]
        exact hbelow i (by omega)
      · have hj2m : j2 - 1 < len := by omega
        have hj2eq : j2 = (j2 - 1) + 1 := by omega
        rcases Nat.lt_trichotomy i r with hir | hir | hir
        · rw [hTval_lt i hir, hj2eq, hTval_gt (j2 - 1) (by omega) hj2m, ← hnv, ← hnv]
          exact hsorted i (by omega) (j2 - 1) (by omega) (by omega)
        · subst hir
          rw [hTval_self, hj2eq, hTval_gt (j2 - 1) (by omega) hj2m, ← hnv]
          have hstrict := habove (j2 - 1) (by omega) hj2m
          have hanti := Lc.antisymm val (G.nodeAt (j2 - 1)).val
          omega
        · have him : i - 1 < len := by omega
          have hieq : i = (i - 1) + 1 := by omega
          rw [hieq, hTval_gt (i - 1) (by omega) him, hj2eq,
            hTval_gt (j2 - 1) (by omega) hj2m, ← hnv, ← hnv]
          exact hsorted (i - 1) (by omega) (j2 - 1) (by omega) (by omega)
    · intro ℓ hℓ
      rw [hTlevel] at hℓ
      have h1 : T.headWidth.getD ℓ 0 = S2.widthAt ℓ none := by
        rw [hThw]
        rfl
      rw [h1, claim ℓ hℓ none (onChain_head G ℓ)
        (by have h0 : idxOf (none : Pos) = 0 := rfl; omega), hTlen]
      have h2 : rankP (none : Pos) = 0 := rfl
      have h3 : idxOf (none : Pos) = 0 := rfl
      rw [h2, h3]
      ring
    · intro j hj ℓ hℓ
      rw [hTlen] at hj
      rcases Nat.lt_trichotomy j r with h | h | h
      · have hGh : ℓ < G.heightAt j := by rw [← hTh_lt j h]; exact hℓ
        have hjlen : j < len := by omega
        have hL : ℓ < G.level := by have := hhle j hjlen; omega
        have h1 : (T.nodeAt j).width.getD ℓ 0 = S2.widthAt ℓ (some j) := by
          rw [hTnode_lt j h]
          rfl
        rw [h1, claim ℓ hL (some j) (Or.inr ⟨j, rfl, hjlen, hGh⟩)
          (by have h4 : idxOf (some j : Pos) = j + 1 := rfl; omega), hTlen]
        rfl
      · subst h
        rw [hTh_r] at hℓ
        have h1 : (T.nodeAt j).width.getD ℓ 0 = A.2.getD ℓ 0 := by
          rw [hTnode_self]
        rw [h1, newwidth ℓ hℓ, hTlen]
      · have hm2 : j - 1 < len := by omega
        have hjm : j = (j - 1) + 1 := by omega
        have hGh : ℓ < G.heightAt (j - 1) := by
          rw [← hTh_gt (j - 1) (by omega) hm2, ← hjm]
          exact hℓ
        have h1 : (T.nodeAt j).width.getD ℓ 0 = S2.widthAt ℓ (some (j - 1)) := by
          rw [hTnode_gt j h]
          rfl
        rw [h1, highwidth ℓ (j - 1) (by omega) hm2 hGh, hTlen]
        have e1 : (j - 1) + 2 = j + 1 := by omega
        rw [e1]
        have e2 : ((j - 1 : Nat) : Int) + 1 = (j : Int) := by omega
        rw [e2]
  exact ⟨hWF, hTcmp, hTlevel, hTsize, by rw [hTlen], hTval_lt, hTval_self, hTval_gt⟩

theorem getD_append_replicate {α : Type} (xs : List α) (n : Nat) (a d : α) (ℓ : Nat) :
    (xs ++ List.replicate n a).getD ℓ d =
      if ℓ < xs.length then xs.getD ℓ d else if ℓ - xs.length < n then a else d := by
  split
  · exact getD_append_lt _ _ _ _ (by assumption)
  · rename_i h
    rw [List.getD_eq_getElem?_getD, List.getElem?_append_right (by omega)]
    by_cases h2 : ℓ - xs.length < n
    · rw [List.getElem?_replicate, if_pos h2, if_pos h2]
      rfl
    · rw [List.getElem?_eq_none (by simp; omega), if_neg h2]
      rfl

/-- `Insert` on a state already containing an equal element overwrites
that element's stored value in place. -/
theorem Insert_found {sl : SkipList V} (w : sl.WF) (Lc : LawfulCmp sl.cmp) {val : V}
    (nl : Nat)
    (hfound : ∃ j, j < sl.nodes.length ∧ sl.cmp (sl.nodeAt j).val val = 0) :
    ∃ j, j < sl.nodes.length ∧ sl.cmp (sl.nodeAt j).val val = 0 ∧
      (∀ j2, j2 < sl.nodes.length → sl.cmp (sl.nodeAt j2).val val = 0 → j2 = j) ∧
      sl.Insert val nl = sl.setVal j val := by
  obtain ⟨dfacts, hbelow, habove, hrlen, hpred, hJ, hJtop, hJlen⟩ := descendV_facts w Lc val
  set r := idxOf ((sl.descendV val sl.level none).1.getD 0 none) with hrdef
  obtain ⟨j, hj, hjeq⟩ := hfound
  have huniq : ∀ j2, j2 < sl.nodes.length → sl.cmp (sl.nodeAt j2).val val = 0 → j2 = r := by
    intro j2 hj2 hj2eq
    rcases Nat.lt_trichotomy j2 r with h | h | h
    · have := hbelow j2 h
      omega
    · exact h
    · have hrl : r < sl.nodes.length := by omega
      have := strict_above w Lc val h hj2
        (by have := habove r (le_refl r) hrl; omega)
      omega
  have hjr : j = r := huniq j hj hjeq
  subst hjr
  refine ⟨r, hj, hjeq, huniq, ?_⟩
  have hnext : sl.nextPos 0 ((sl.descendV val sl.level none).1.getD 0 none) = some r := by
    rw [nextPos_eq_ftall, ← hrdef, w.ftall_zero, if_pos hj]
  simp only [Insert, hnext]
  have hv : sl.valP (some r) = (sl.nodeAt r).val := rfl
  rw [hv, if_pos hjeq]

/-- `Insert` of a value not present: full structural description of the
new state. -/
theorem Insert_notfound {sl : SkipList V} (w : sl.WF) (Lc : LawfulCmp sl.cmp) {val : V}
    {nl : Nat} (hnl : 1 ≤ nl)
    (hnf : ∀ j, j < sl.nodes.length → sl.cmp (sl.nodeAt j).val val ≠ 0) :
    (sl.Insert val nl).WF ∧
    (sl.Insert val nl).cmp = sl.cmp ∧
    (sl.Insert val nl).level = max sl.level nl ∧
    (sl.Insert val nl).size = sl.size + 1 ∧
    (sl.Insert val nl).nodes.length = sl.nodes.length + 1 ∧
    sl.insPos val ≤ sl.nodes.length ∧
    (∀ i, i < sl.insPos val → (sl.Insert val nl).valP (some i) = sl.valP (some i)) ∧
    (sl.Insert val nl).valP (some (sl.insPos val)) = val ∧
    (∀ i, sl.insPos val ≤ i → i < sl.nodes.length →
      (sl.Insert val nl).valP (some (i + 1)) = sl.valP (some i)) ∧
    (∀ i, i < sl.insPos val → sl.cmp (sl.nodeAt i).val val < 0) ∧
    (∀ i, sl.insPos val ≤ i → i < sl.nodes.length →
      0 < sl.cmp (sl.nodeAt i).val val) := by
  obtain ⟨dfacts, hbelow, habove, hrlen, hpred, hJ, hJtop, hJlen⟩ := descendV_facts w Lc val
  set r := idxOf ((sl.descendV val sl.level none).1.getD 0 none) with hrdef
  have hrpos : sl.insPos val = r := rfl
  have habove2 : ∀ i, r ≤ i → i < sl.nodes.length → 0 < sl.cmp (sl.nodeAt i).val val := by
    intro i h1 h2
    have := habove i h1 h2
    have := hnf i h2
    omega
  have hstep : sl.Insert val nl =
      sl.insertNew val nl (sl.descendV val sl.level none).1 (sl.descendV val sl.level none).2
        ((sl.descendV val sl.level none).1.getD 0 none) := by
    match hnext : sl.nextPos 0 ((sl.descendV val sl.level none).1.getD 0 none) with
    | none => simp only [Insert, hnext]
    | some q =>
      have hq : q = r ∧ r < sl.nodes.length := by
        rw [nextPos_eq_ftall, ← hrdef, w.ftall_zero] at hnext
        by_cases hc : r < sl.nodes.length
        · rw [if_pos hc] at hnext
          cases hnext
          exact ⟨rfl, hc⟩
        · rw [if_neg hc] at hnext
          cases hnext
      have hne : ¬ sl.cmp (sl.valP (some q)) val = 0 := by
        rw [hq.1]
        exact hnf r hq.2
      simp only [Insert, hnext]
      rw [if_neg hne]
  rw [hstep, insertNew_eq_mkT, hrpos, ← hrdef]
  by_cases hgrow : sl.level < nl
  · rw [if_pos hgrow]
    have hUgetD : ∀ ℓ,
        ((sl.descendV val sl.level none).1 ++ List.replicate (nl - sl.level) (none : Pos)).getD
          ℓ none =
        if ℓ < sl.level then (sl.descendV val sl.level none).1.getD ℓ none else none := by
      intro ℓ
      rw [getD_append_replicate, dfacts.len_eq]
      by_cases hc : ℓ < sl.level
      · rw [if_pos hc, if_pos hc]
      · rw [if_neg hc, if_neg hc]
        split <;> rfl
    have hJgetD : ∀ ℓ,
        ((sl.descendV val sl.level none).2 ++ List.replicate (nl - sl.level) (0 : Int)).getD
          ℓ 0 =
        if ℓ < sl.level then (sl.descendV val sl.level none).2.getD ℓ 0 else 0 := by
      intro ℓ
      rw [getD_append_replicate, hJlen]
      by_cases hc : ℓ < sl.level
      · rw [if_pos hc, if_pos hc]
      · rw [if_neg hc, if_neg hc]
        split <;> rfl
    set G : SkipList V := { sl with
        headWidth := sl.headWidth ++ List.replicate (nl - sl.level) (sl.size : Int),
        level := nl } with hGdef
    have hGhw_len : G.headWidth.length = nl := by
      show (sl.headWidth ++ List.replicate (nl - sl.level) (sl.size : Int)).length = nl
      rw [List.length_append, w.headW_len, List.length_replicate]
      omega
    have hGwidth : ∀ ℓ, ℓ < G.level → ∀ p, G.OnChain ℓ p →
        G.widthAt ℓ p = rankN G.nodes.length (G.ftall ℓ (idxOf p)) - rankP p := by
      intro ℓ hℓ p hp
      have hℓ2 : ℓ < nl := hℓ
      by_cases hc : ℓ < sl.level
      · have hw1 : G.widthAt ℓ p = sl.widthAt ℓ p := by
          match p with
          | some i => rfl
          | none =>
            show (sl.headWidth ++ List.replicate (nl - sl.level) (sl.size : Int)).getD ℓ 0 =
              sl.headWidth.getD ℓ 0
            exact getD_append_lt _ _ _ _ (by rw [w.headW_len]; exact hc)
        rw [hw1, w.widthAt_eq hc (hp : sl.OnChain ℓ p), nextPos_eq_ftall]
        rfl
      · rcases hp with rfl | ⟨i, rfl, hi, ht⟩
        · have h1 : G.widthAt ℓ none = (sl.size : Int) := by
            show (sl.headWidth ++ List.replicate (nl - sl.level) (sl.size : Int)).getD ℓ 0 = _
            rw [getD_append_replicate, w.headW_len, if_neg hc,
              if_pos (by show ℓ - sl.level < nl - sl.level; omega)]
          have h2 : G.ftall ℓ 0 = none := by
            rw [ftall_none_iff]
            intro m hm1 hm2
            have := w.height_le m hm2
            show sl.heightAt m ≤ ℓ
            omega
          have h0 : idxOf (none : Pos) = 0 := rfl
          rw [h1, h0, h2]
          have h3 : rankP (none : Pos) = 0 := rfl
          rw [h3]
          show (sl.size : Int) = (sl.nodes.length : Int) - 0
          rw [w.size_eq]
          ring
        · exfalso
          have h4 : sl.heightAt i ≤ sl.level := w.height_le i hi
          have h5 : ℓ < sl.heightAt i := ht
          omega
    have hDF : G.DescentFacts
        ((sl.descendV val sl.level none).1 ++ List.replicate (nl - sl.level) (none : Pos)) r := by
      constructor
      · show ((sl.descendV val sl.level none).1 ++
          List.replicate (nl - sl.level) (none : Pos)).length = nl
        rw [List.length_append, dfacts.len_eq, List.length_replicate]
        omega
      · intro ℓ hℓ
        rw [hUgetD ℓ]
        by_cases hc : ℓ < sl.level
        · rw [if_pos hc]
          exact (dfacts.onChain ℓ hc : sl.OnChain ℓ _)
        · rw [if_neg hc]
          exact Or.inl rfl
      · intro ℓ hℓ
        rw [hUgetD ℓ]
        by_cases hc : ℓ < sl.level
        · rw [if_pos hc]
          exact dfacts.idx_le ℓ hc
        · rw [if_neg hc]
          have h0 : idxOf (none : Pos) = 0 := rfl
          omega
      · intro ℓ hℓ t ht1 ht2
        rw [hUgetD ℓ] at ht1
        by_cases hc : ℓ < sl.level
        · rw [if_pos hc] at ht1
          exact dfacts.gap ℓ hc t ht1 ht2
        · show sl.heightAt t ≤ ℓ
          have := w.height_le t (by omega)
          omega
    obtain ⟨c1, c2, c3, c4, c5, c6, c7, c8⟩ := insertCore_wf (G := G)
      (Lc : LawfulCmp G.cmp) hnl (by show nl ≤ nl; omega)
      (w.size_eq : G.size = G.nodes.length)
      (by rw [hGhw_len])
      (w.height_pos : ∀ i, i < G.nodes.length → 1 ≤ G.heightAt i)
      (by
        intro i hi
        show sl.heightAt i ≤ nl
        have := w.height_le i hi
        omega)
      (Or.inl rfl)
      (w.sorted : ∀ i, i < G.nodes.length → ∀ j, j < G.nodes.length → i < j →
        G.cmp (G.nodeAt i).val (G.nodeAt j).val < 0)
      hGwidth hDF
      (by
        rw [hUgetD 0, if_pos (show (0 : Nat) < sl.level from w.level_pos)])
      (hrlen : r ≤ G.nodes.length)
      (by
        intro ℓ hℓ
        rw [hJgetD ℓ, hUgetD ℓ, hUgetD (ℓ + 1)]
        by_cases hc1 : ℓ + 1 < sl.level
        · rw [if_pos (by omega), if_pos (by omega), if_pos hc1]
          exact hJ ℓ hc1
        · by_cases hc2 : ℓ < sl.level
          · have hℓeq : ℓ = sl.level - 1 := by omega
            rw [if_pos hc2, if_pos hc2, if_neg (by omega)]
            have h3 : rankP (none : Pos) = 0 := rfl
            rw [h3, hℓeq]
            rw [hJtop]
            ring
          · rw [if_neg hc2, if_neg hc2, if_neg (by omega)]
            simp [rankP]
        )
      (hbelow : ∀ i, i < r → G.cmp (G.nodeAt i).val val < 0)
      (habove2 : ∀ i, r ≤ i → i < G.nodes.length → 0 < G.cmp (G.nodeAt i).val val)
    refine ⟨c1, c2, ?_, c4, c5, hrlen, c6, c7, c8, hbelow, habove2⟩
    rw [c3]
    show nl = max sl.level nl
    omega
  · rw [if_neg hgrow]
    obtain ⟨c1, c2, c3, c4, c5, c6, c7, c8⟩ := insertCore_wf (G := sl)
      Lc hnl (by omega)
      w.size_eq w.headW_len w.height_pos w.height_le
      (by
        rcases w.top with h1 | h2
        · left; omega
        · right; exact h2)
      w.sorted
      (by
        intro ℓ hℓ p hp
        rw [← nextPos_eq_ftall]
        exact w.widthAt_eq hℓ hp)
      dfacts hrdef.symm hrlen
      (fun ℓ hℓ => hJ ℓ (by omega))
      hbelow habove2
    refine ⟨c1, c2, ?_, c4, c5, hrlen, c6, c7, c8, hbelow, habove2⟩
    rw [c3]
    omega

theorem rankN_map_sub_one {len : Nat} {o : Option Nat}
    (hpos : ∀ t, o = some t → 1 ≤ t) (hlen : 1 ≤ len) :
    rankN (len - 1) (o.map (· - 1)) = rankN len o - 1 := by
  match o with
  | none =>
    show rankN (len - 1) none = rankN len none - 1
    simp [rankN]
    omega
  | some t =>
    have := hpos t rfl
    show rankN (len - 1) (some (t - 1)) = rankN len (some t) - 1
    simp [rankN]
    omega

theorem length_del {α : Type} (ns : List α) (q : Nat) (hq : q < ns.length) :
    (ns.take q ++ ns.drop (q + 1)).length = ns.length - 1 := by
  simp [List.length_take, List.length_drop]
  omega

theorem getD_del_lt {α : Type} (ns : List α) (q : Nat) (d : α) {j : Nat}
    (hj : j < q) (hq : q < ns.length) :
    (ns.take q ++ ns.drop (q + 1)).getD j d = ns.getD j d := by
  rw [List.getD_eq_getElem?_getD, List.getD_eq_getElem?_getD]
  rw [List.getElem?_append_left (by simp [List.length_take]; omega)]
  rw [List.getElem?_take]
  rw [if_pos hj]

theorem getD_del_ge {α : Type} (ns : List α) (q : Nat) (d : α) {j : Nat}
    (hj : q ≤ j) (hq : q < ns.length) :
    (ns.take q ++ ns.drop (q + 1)).getD j d = ns.getD (j + 1) d := by
  have hmin : min q ns.length = q := Nat.min_eq_left (by omega)
  rw [List.getD_eq_getElem?_getD, List.getD_eq_getElem?_getD]
  rw [List.getElem?_append_right (by rw [List.length_take]; omega)]
  rw [List.getElem?_drop]
  congr 1
  rw [List.length_take, hmin]
  have hidx : q + 1 + (j - q) = j + 1 := by omega
  rw [hidx]

/-- The trim loop after a removal computes the level down to the highest
still-populated level, never below 1. -/
theorem trimLevel_spec (ns : List (Node V)) :
    ∀ L, 1 ≤ L → (∀ m, m < ns.length → (ns.getD m dnode).height ≤ L) →
    1 ≤ trimLevel ns L ∧ trimLevel ns L ≤ L ∧
    (∀ m, m < ns.length → (ns.getD m dnode).height ≤ trimLevel ns L) ∧
    (trimLevel ns L = 1 ∨
      ∃ m, m < ns.length ∧ (ns.getD m dnode).height = trimLevel ns L) := by
  intro L
  induction L with
  | zero => omega
  | succ L ih =>
    intro hL1 hle
    clear hL1
    match L, ih, hle with
    | 0, _, hle =>
      refine ⟨by simp [trimLevel], by simp [trimLevel], ?_, Or.inl (by simp [trimLevel])⟩
      intro m hm
      simpa [trimLevel] using hle m hm
    | K + 1, ih, hle =>
      by_cases hnone : firstTallAux (K + 1) ns 0 = none
      · have hstep : trimLevel ns (K + 1 + 1) = trimLevel ns (K + 1) := by
          show trimLevel ns (K + 2) = _
          simp [trimLevel, hnone]
        have hle2 : ∀ m, m < ns.length → (ns.getD m dnode).height ≤ K + 1 := by
          rw [firstTallAux_none_iff] at hnone
          exact hnone
        have hrec := ih (by omega) hle2
        rw [hstep]
        exact ⟨hrec.1, le_trans hrec.2.1 (by omega), hrec.2.2.1, hrec.2.2.2⟩
      · have hstep : trimLevel ns (K + 1 + 1) = K + 1 + 1 := by
          show trimLevel ns (K + 2) = K + 1 + 1
          simp only [trimLevel]
          rw [if_neg hnone]
        rw [hstep]
        refine ⟨by omega, le_refl _, hle, Or.inr ?_⟩
        match hfz : firstTallAux (K + 1) ns 0 with
        | none => exact absurd hfz hnone
        | some t =>
          rw [firstTallAux_some_iff] at hfz
          obtain ⟨j, ht, hjlen, hjtall, _⟩ := hfz
          refine ⟨j, hjlen, ?_⟩
          have := hle j hjlen
          omega

/-- Invariant proof for the unlink loop of `Delete`/`DeleteAt`: each
level's predecessor width is merged with the removed node's width (minus
one) when it pointed at the removed node, else decremented. -/
theorem unlinkLoop_spec {U : List Pos} {q : Nat} {qw : List Int} :
    ∀ (count k : Nat) (S : SkipList V),
    (∀ ℓ, k ≤ ℓ → ℓ < k + count → S.slotOk (U.getD ℓ none) ℓ) →
    SameShape (unlinkLoop U q qw count k S) S ∧
    (∀ ℓ p, (unlinkLoop U q qw count k S).widthAt ℓ p =
      if k ≤ ℓ ∧ ℓ < k + count ∧ p = U.getD ℓ none then
        (if S.nextPos ℓ p = some q then S.widthAt ℓ p + qw.getD ℓ 0 - 1
         else S.widthAt ℓ p - 1)
      else S.widthAt ℓ p) := by
  intro count
  induction count with
  | zero =>
    intro k S hin
    simp only [unlinkLoop]
    refine ⟨sameShape_refl S, ?_⟩
    intro ℓ p
    rw [if_neg (by rintro ⟨a, b, _⟩; omega)]
  | succ count ih =>
    intro k S hin
    simp only [unlinkLoop]
    have hslot := hin k (le_refl _) (by omega)
    set w0 : Int := if S.nextPos k (U.getD k none) = some q then
        S.widthAt k (U.getD k none) + qw.getD k 0 - 1
      else S.widthAt k (U.getD k none) - 1 with hw0
    have hbody : (if S.nextPos k (U.getD k none) = some q then
        S.setWidth (U.getD k none) k (S.widthAt k (U.getD k none) + qw.getD k 0 - 1)
      else S.setWidth (U.getD k none) k (S.widthAt k (U.getD k none) - 1)) =
        S.setWidth (U.getD k none) k w0 := by
      rw [hw0]
      split <;> rfl
    rw [hbody]
    have hshape' : SameShape (S.setWidth (U.getD k none) k w0) S :=
      setWidth_sameShape S _ k _
    have hrec := ih (k + 1) (S.setWidth (U.getD k none) k w0)
      (by
        intro ℓ hℓ1 hℓ2
        have hS := hin ℓ (by omega) (by omega)
        rcases hcase : U.getD ℓ none with _ | i
        · show ℓ < (S.setWidth (U.getD k none) k w0).headWidth.length
          rw [hshape'.2.2.2.2.1]
          rw [hcase] at hS
          exact hS
        · show i < (S.setWidth (U.getD k none) k w0).nodes.length ∧
            ℓ < ((S.setWidth (U.getD k none) k w0).nodeAt i).width.length
          rw [hcase] at hS
          obtain ⟨ha, hb⟩ := (hS : i < S.nodes.length ∧ ℓ < (S.nodeAt i).width.length)
          refine ⟨by rw [hshape'.2.2.2.1]; exact ha, ?_⟩
          have h4 : ((S.setWidth (U.getD k none) k w0).nodeAt i).width.length =
            (S.setWidth (U.getD k none) k w0).heightAt i := rfl
          have h5 : (S.nodeAt i).width.length = S.heightAt i := rfl
          have h6 := hshape'.2.2.2.2.2.1 i
          omega)
    refine ⟨sameShape_trans hrec.1 hshape', ?_⟩
    intro ℓ p
    rw [hrec.2 ℓ p]
    have hnextEq : ∀ ℓ2 p2, (S.setWidth (U.getD k none) k w0).nextPos ℓ2 p2 =
        S.nextPos ℓ2 p2 := by
      intro ℓ2 p2
      rw [nextPos_eq_ftall, nextPos_eq_ftall]
      exact hshape'.ftall_eq ℓ2 (idxOf p2)
    by_cases hc : k + 1 ≤ ℓ ∧ ℓ < k + 1 + count ∧ p = U.getD ℓ none
    · have hc2 : k ≤ ℓ ∧ ℓ < k + (count + 1) ∧ p = U.getD ℓ none :=
        ⟨by omega, by omega, hc.2.2⟩
      rw [if_pos hc, if_pos hc2]
      have hother : (S.setWidth (U.getD k none) k w0).widthAt ℓ p = S.widthAt ℓ p :=
        setWidth_widthAt_other _ (Or.inr (by omega))
      rw [hnextEq ℓ p, hother]
    · rw [if_neg hc]
      by_cases hslot2 : p = U.getD k none ∧ ℓ = k
      · obtain ⟨hp, hℓ⟩ := hslot2
        subst hℓ
        rw [hp]
        rw [setWidth_widthAt_self _ hslot]
        have hc3 : ℓ ≤ ℓ ∧ ℓ < ℓ + (count + 1) ∧
            (U.getD ℓ none : Pos) = U.getD ℓ none := ⟨le_refl _, by omega, rfl⟩
        rw [if_pos hc3]
      · have hdiff : p ≠ U.getD k none ∨ ℓ ≠ k := by tauto
        rw [setWidth_widthAt_other _ hdiff]
        rw [if_neg (by
          rintro ⟨a, b, c⟩
          by_cases hℓk : ℓ = k
          · subst hℓk
            exact hslot2 ⟨c, rfl⟩
          · exact hc ⟨by omega, by omega, c⟩)]

theorem getD_take_lt {α : Type} (l : List α) {n i : Nat} (d : α) (h : i < n) :
    (l.take n).getD i d = l.getD i d := by
  rw [List.getD_eq_getElem?_getD, List.getD_eq_getElem?_getD, List.getElem?_take, if_pos h]

/-- Correctness of the shared removal tail: removing the node at bottom
index `q` through per-level predecessors satisfying the descent facts
yields a well-formed state whose chain is the old chain with index `q`
erased, with the size decremented and the level trimmed but never below
1. -/
theorem removeNode_wf {G : SkipList V} {U : List Pos} {q : Nat}
    (w : G.WF) (DF : DescentFacts G U q) (hqlen : q < G.nodes.length) :
    (G.removeNode U q).WF ∧
    (G.removeNode U q).cmp = G.cmp ∧
    1 ≤ (G.removeNode U q).level ∧ (G.removeNode U q).level ≤ G.level ∧
    (G.removeNode U q).size = G.size - 1 ∧
    (G.removeNode U q).nodes.length = G.nodes.length - 1 ∧
    (∀ i, i < q → (G.removeNode U q).valP (some i) = G.valP (some i)) ∧
    (∀ i, q ≤ i → i + 1 < G.nodes.length →
      (G.removeNode U q).valP (some i) = G.valP (some (i + 1))) := by
  classical
  set len := G.nodes.length with hlendef
  have hslots : ∀ ℓ, 0 ≤ ℓ → ℓ < 0 + G.level → G.slotOk (U.getD ℓ none) ℓ := by
    intro ℓ _ hℓ2
    have hℓ : ℓ < G.level := by omega
    have hO := DF.onChain ℓ hℓ
    rcases hcase : U.getD ℓ none with _ | i
    · show ℓ < G.headWidth.length
      rw [w.headW_len]; exact hℓ
    · show i < G.nodes.length ∧ ℓ < (G.nodeAt i).width.length
      rw [hcase] at hO
      rcases hO with h | ⟨i2, hi2, hlen2, ht2⟩
      · cases h
      · injection hi2 with hii
        subst hii
        exact ⟨hlen2, ht2⟩
  have ul := @unlinkLoop_spec V _ U q (G.nodeAt q).width G.level 0 G hslots
  set S1 := unlinkLoop U q (G.nodeAt q).width G.level 0 G with hS1
  have S1shape : SameShape S1 G := ul.1
  have hWov := ul.2
  set ns2 := S1.nodes.take q ++ S1.nodes.drop (q + 1) with hns2
  have hS1len : S1.nodes.length = len := S1shape.2.2.2.1
  have hqS1 : q < S1.nodes.length := by rw [hS1len]; omega
  have hns2len : ns2.length = len - 1 := by
    rw [hns2, length_del _ _ hqS1, hS1len]
  have hns2h_lt : ∀ m, m < q → (ns2.getD m dnode).height = G.heightAt m := by
    intro m hm
    rw [hns2, getD_del_lt _ _ _ hm hqS1]
    exact S1shape.2.2.2.2.2.1 m
  have hns2h_ge : ∀ m, q ≤ m → m + 1 < len →
      (ns2.getD m dnode).height = G.heightAt (m + 1) := by
    intro m hm hm2
    rw [hns2, getD_del_ge _ _ _ hm hqS1]
    exact S1shape.2.2.2.2.2.1 (m + 1)
  have htrim := trimLevel_spec ns2 S1.level (by rw [S1shape.2.1]; exact w.level_pos)
    (by
      intro m hm
      rw [hns2len] at hm
      rw [S1shape.2.1]
      by_cases hmq : m < q
      · rw [hns2h_lt m hmq]; exact w.height_le m (by omega)
      · rw [hns2h_ge m (by omega) (by omega)]; exact w.height_le (m + 1) (by omega))
  set lvl := trimLevel ns2 S1.level with hlvl
  obtain ⟨hlvl1, hlvlle, hlvlhle, hlvltop⟩ := htrim
  have hlvlleG : lvl ≤ G.level := by
    have := S1shape.2.1; omega
  have hEnodes : (G.removeNode U q).nodes = ns2 := rfl
  have hElevel : (G.removeNode U q).level = lvl := rfl
  have hEhw : (G.removeNode U q).headWidth = S1.headWidth.take lvl := rfl
  have hEsize : (G.removeNode U q).size = S1.size - 1 := rfl
  have hEcmp : (G.removeNode U q).cmp = G.cmp := by
    have h0 : (G.removeNode U q).cmp = S1.cmp := rfl
    rw [h0]; exact S1shape.1
  have hElenEq : (G.removeNode U q).nodes.length = len - 1 := by
    rw [hEnodes]; exact hns2len
  have hElen1 : (G.removeNode U q).nodes.length + 1 = len := by
    rw [hElenEq]
    exact Nat.sub_add_cancel (Nat.lt_of_le_of_lt (Nat.zero_le q) hqlen)
  have hEh_lt : ∀ m, m < q → (G.removeNode U q).heightAt m = G.heightAt m := by
    intro m hm
    show (((G.removeNode U q).nodes).getD m ⟨default, []⟩).height = _
    rw [hEnodes]
    exact hns2h_lt m hm
  have hEh_ge : ∀ m, q ≤ m → m + 1 < len →
      (G.removeNode U q).heightAt m = G.heightAt (m + 1) := by
    intro m hm hm2
    show (((G.removeNode U q).nodes).getD m ⟨default, []⟩).height = _
    rw [hEnodes]
    exact hns2h_ge m hm hm2
  have hrankmap : ∀ ℓ k, q ≤ k →
      rankN (len - 1) ((G.removeNode U q).ftall ℓ k) =
        rankN len (G.ftall ℓ (k + 1)) - 1 := by
    intro ℓ k hk
    rw [ftall_del_above hEh_ge hElen1 hk]
    apply rankN_map_sub_one
    · intro t ht
      rw [ftall_some_iff] at ht
      omega
    · omega
  have hval_lt : ∀ i, i < q →
      (G.removeNode U q).valP (some i) = G.valP (some i) := by
    intro i hi
    show (((G.removeNode U q).nodes).getD i ⟨default, []⟩).val =
      ((G.nodes).getD i ⟨default, []⟩).val
    rw [hEnodes, hns2, getD_del_lt _ _ _ hi hqS1]
    exact S1shape.2.2.2.2.2.2 (some i)
  have hval_ge : ∀ i, q ≤ i → i + 1 < len →
      (G.removeNode U q).valP (some i) = G.valP (some (i + 1)) := by
    intro i hi hi2
    show (((G.removeNode U q).nodes).getD i ⟨default, []⟩).val =
      ((G.nodes).getD (i + 1) ⟨default, []⟩).val
    rw [hEnodes, hns2, getD_del_ge _ _ _ hi hqS1]
    exact S1shape.2.2.2.2.2.2 (some (i + 1))
  have hEwidth_node_lt : ∀ ℓ j, j < q →
      (G.removeNode U q).widthAt ℓ (some j) = S1.widthAt ℓ (some j) := by
    intro ℓ j hj
    have hnode : (G.removeNode U q).nodeAt j = S1.nodeAt j := by
      show ((G.removeNode U q).nodes).getD j ⟨default, []⟩ = _
      rw [hEnodes, hns2]
      exact getD_del_lt _ _ _ hj hqS1
    show ((G.removeNode U q).nodeAt j).width.getD ℓ 0 = (S1.nodeAt j).width.getD ℓ 0
    rw [hnode]
  have hEwidth_node_ge : ∀ ℓ j, q ≤ j →
      (G.removeNode U q).widthAt ℓ (some j) = S1.widthAt ℓ (some (j + 1)) := by
    intro ℓ j hj
    have hnode : (G.removeNode U q).nodeAt j = S1.nodeAt (j + 1) := by
      show ((G.removeNode U q).nodes).getD j ⟨default, []⟩ = _
      rw [hEnodes, hns2]
      exact getD_del_ge _ _ _ hj hqS1
    show ((G.removeNode U q).nodeAt j).width.getD ℓ 0 =
      (S1.nodeAt (j + 1)).width.getD ℓ 0
    rw [hnode]
  have CLAIM : ∀ ℓ, ℓ < G.level → ∀ p, G.OnChain ℓ p → idxOf p ≤ q →
      S1.widthAt ℓ p =
        rankN (len - 1) ((G.removeNode U q).ftall ℓ (idxOf p)) - rankP p := by
    intro ℓ hℓ p hchain hple
    have hwG : G.widthAt ℓ p = rankN len (G.ftall ℓ (idxOf p)) - rankP p := by
      rw [w.widthAt_eq hℓ hchain, nextPos_eq_ftall]
    by_cases hpu : p = U.getD ℓ none
    · have hcond1 : 0 ≤ ℓ ∧ ℓ < 0 + G.level ∧ p = U.getD ℓ none :=
        ⟨by omega, by omega, hpu⟩
      rw [hWov ℓ p, if_pos hcond1]
      have hEgap : ∀ m, idxOf p ≤ m → m < q → (G.removeNode U q).heightAt m ≤ ℓ := by
        intro m hm1 hm2
        rw [hEh_lt m hm2]
        exact DF.gap ℓ hℓ m (by rw [← hpu]; exact hm1) hm2
      have hEcongr : (G.removeNode U q).ftall ℓ (idxOf p) =
          (G.removeNode U q).ftall ℓ q :=
        ftall_congr_start hple hEgap
      by_cases hcond : G.nextPos ℓ p = some q
      · rw [if_pos hcond]
        have hfq : G.ftall ℓ (idxOf p) = some q := by
          rw [← nextPos_eq_ftall]; exact hcond
        have hfacts := (ftall_some_iff).mp hfq
        have hqw : (G.nodeAt q).width.getD ℓ 0 = rankN len (G.ftall ℓ (q + 1)) - q :=
          w.nodewidth q (by omega) ℓ hfacts.2.2.1
        rw [hEcongr, hrankmap ℓ q (le_refl _), hwG, hfq, hqw]
        have hrq : rankN len (some q) = (q : Int) := rfl
        rw [hrq]
        omega
      · rw [if_neg hcond]
        have hgapG : ∀ m, idxOf p ≤ m → m < q → G.heightAt m ≤ ℓ := fun m hm1 hm2 =>
          DF.gap ℓ hℓ m (by rw [← hpu]; exact hm1) hm2
        have hGcongr : G.ftall ℓ (idxOf p) = G.ftall ℓ q :=
          ftall_congr_start hple hgapG
        have hhq : G.heightAt q ≤ ℓ := by
          by_contra hh
          push_neg at hh
          have hsome : G.ftall ℓ q = some q := by
            rw [ftall_some_iff]
            exact ⟨le_refl _, by omega, hh, by omega⟩
          exact hcond (by rw [nextPos_eq_ftall, hGcongr]; exact hsome)
        have hGcongr2 : G.ftall ℓ q = G.ftall ℓ (q + 1) :=
          ftall_congr_start (by omega)
            (by
              intro m hm1 hm2
              have hmq : m = q := by omega
              exact le_of_eq_of_le (congrArg G.heightAt hmq) hhq)
        rw [hEcongr, hrankmap ℓ q (le_refl _), hwG, hGcongr, hGcongr2]
        omega
    · rw [hWov ℓ p, if_neg (by rintro ⟨_, _, hc⟩; exact hpu hc)]
      have hnt : ∃ t, G.ftall ℓ (idxOf p) = some t ∧ t < q := by
        rcases hUc : U.getD ℓ none with _ | u
        · exfalso
          rcases hchain with rfl | ⟨j, rfl, hjlen, hjt⟩
          · exact hpu (by rw [hUc])
          · have hidxj : idxOf (some j : Pos) = j + 1 := rfl
            have hgap := DF.gap ℓ hℓ j
              (by rw [hUc]; exact Nat.zero_le j) (by omega)
            omega
        · have hOU := DF.onChain ℓ hℓ
          rw [hUc] at hOU
          rcases hOU with h | ⟨u2, hu2, hulen, hutall⟩
          · cases h
          · injection hu2 with huu
            subst huu
            have hidxu : idxOf (some u : Pos) = u + 1 := rfl
            have hule : idxOf (some u : Pos) ≤ q := by
              rw [← hUc]; exact DF.idx_le ℓ hℓ
            have hip : idxOf p ≤ u := by
              rcases hchain with rfl | ⟨j, rfl, hjlen, hjt⟩
              · exact Nat.zero_le u
              · have hjne : j ≠ u := by
                  intro hju
                  exact hpu (by rw [hUc, hju])
                have hidxj : idxOf (some j : Pos) = j + 1 := rfl
                by_contra hju2
                push_neg at hju2
                have hgap := DF.gap ℓ hℓ j (by rw [hUc, hidxu]; omega) (by omega)
                omega
            obtain ⟨t, hft, htu⟩ := ftall_le_of_tall hutall hip hulen
            exact ⟨t, hft, by omega⟩
      obtain ⟨t, hft, htq⟩ := hnt
      have hEt : (G.removeNode U q).ftall ℓ (idxOf p) = some t :=
        ftall_del_below hEh_lt hElen1 (by omega) hft htq
      rw [hwG, hft, hEt]
      have h1 : rankN len (some t) = (t : Int) := rfl
      have h2 : rankN (len - 1) (some t) = (t : Int) := rfl
      rw [h1, h2]
  refine ⟨⟨?_, ?_, ?_, ?_, ?_, ?_, ?_, ?_, ?_⟩, hEcmp, ?_, ?_, ?_, hElenEq, hval_lt,
    fun i hi hi2 => hval_ge i hi (by omega)⟩
  · rw [hEsize, hElenEq, S1shape.2.2.1, w.size_eq]
  · rw [hElevel]; exact hlvl1
  · rw [hEhw, hElevel, List.length_take]
    have hhwlen : S1.headWidth.length = G.level := by
      rw [S1shape.2.2.2.2.1, w.headW_len]
    rw [hhwlen]
    omega
  · intro i hi
    rw [hElenEq] at hi
    by_cases hiq : i < q
    · rw [hEh_lt i hiq]; exact w.height_pos i (by omega)
    · rw [hEh_ge i (by omega) (by omega)]; exact w.height_pos (i + 1) (by omega)
  · intro i hi
    rw [hElenEq] at hi
    have hconv : (G.removeNode U q).heightAt i = (ns2.getD i dnode).height := by
      show (((G.removeNode U q).nodes).getD i ⟨default, []⟩).height = _
      rw [hEnodes]
      rfl
    rw [hconv, hElevel]
    exact hlvlhle i (by rw [hns2len]; omega)
  · rw [hElevel]
    rcases hlvltop with h1 | ⟨m, hm, hh⟩
    · exact Or.inl h1
    · refine Or.inr ⟨m, ?_, ?_⟩
      · rw [hElenEq, ← hns2len]; exact hm
      · show (((G.removeNode U q).nodes).getD m ⟨default, []⟩).height = lvl
        rw [hEnodes]
        exact hh
  · intro i hi j hj hij
    rw [hElenEq] at hi hj
    show (G.removeNode U q).cmp ((G.removeNode U q).valP (some i))
      ((G.removeNode U q).valP (some j)) < 0
    rw [hEcmp]
    by_cases hiq : i < q
    · by_cases hjq : j < q
      · rw [hval_lt i hiq, hval_lt j hjq]
        exact w.sorted i (by omega) j (by omega) hij
      · rw [hval_lt i hiq, hval_ge j (by omega) (by omega)]
        exact w.sorted i (by omega) (j + 1) (by omega) (by omega)
    · by_cases hjq : j < q
      · exact absurd (by omega : i < q) hiq
      · rw [hval_ge i (by omega) (by omega), hval_ge j (by omega) (by omega)]
        exact w.sorted (i + 1) (by omega) (j + 1) (by omega) (by omega)
  · intro ℓ hℓE
    rw [hElevel] at hℓE
    have hℓG : ℓ < G.level := by omega
    have h1 : ((G.removeNode U q).headWidth).getD ℓ 0 = S1.widthAt ℓ none := by
      show ((G.removeNode U q).headWidth).getD ℓ 0 = S1.headWidth.getD ℓ 0
      rw [hEhw]
      exact getD_take_lt _ 0 hℓE
    have h2 := CLAIM ℓ hℓG none (onChain_head G ℓ) (Nat.zero_le q)
    rw [h1, h2, hElenEq]
    have hidx : idxOf (none : Pos) = 0 := rfl
    have hrp : rankP (none : Pos) = 0 := rfl
    rw [hidx, hrp]
    omega
  · intro i hi ℓ hℓh
    rw [hElenEq] at hi
    by_cases hiq : i < q
    · have hℓG : ℓ < G.heightAt i := by rw [← hEh_lt i hiq]; exact hℓh
      have hℓlev : ℓ < G.level := by
        have := w.height_le i (by omega); omega
      have h1 := hEwidth_node_lt ℓ i hiq
      have hidxi : idxOf (some i : Pos) = i + 1 := rfl
      have h2 := CLAIM ℓ hℓlev (some i) (Or.inr ⟨i, rfl, by omega, hℓG⟩)
        (by rw [hidxi]; omega)
      have h0 : ((G.removeNode U q).nodeAt i).width.getD ℓ 0 =
          (G.removeNode U q).widthAt ℓ (some i) := rfl
      rw [h0, h1, h2, hElenEq, hidxi]
      have hrp : rankP (some i : Pos) = (i : Int) := rfl
      rw [hrp]
    · have hiq2 : q ≤ i := by omega
      have hℓG : ℓ < G.heightAt (i + 1) := by
        rw [← hEh_ge i hiq2 (by omega)]; exact hℓh
      have hℓlev : ℓ < G.level := by
        have := w.height_le (i + 1) (by omega); omega
      have h1 := hEwidth_node_ge ℓ i hiq2
      have h2 : S1.widthAt ℓ (some (i + 1)) = G.widthAt ℓ (some (i + 1)) := by
        rw [hWov ℓ (some (i + 1))]
        rw [if_neg (by
          rintro ⟨_, _, hc⟩
          have hle2 := DF.idx_le ℓ hℓlev
          rw [← hc] at hle2
          have hidx2 : idxOf (some (i + 1) : Pos) = i + 2 := rfl
          omega)]
      have h3 : G.widthAt ℓ (some (i + 1)) =
          rankN len (G.ftall ℓ (i + 1 + 1)) - (↑(i + 1) : Int) :=
        w.nodewidth (i + 1) (by omega) ℓ hℓG
      have h4 := hrankmap ℓ (i + 1) (by omega)
      have h0 : ((G.removeNode U q).nodeAt i).width.getD ℓ 0 =
          (G.removeNode U q).widthAt ℓ (some i) := rfl
      rw [h0, h1, h2, h3, hElenEq, h4]
      push_cast
      ring
  · rw [hElevel]; exact hlvl1
  · rw [hElevel]; exact hlvlleG
  · rw [hEsize, S1shape.2.2.1]

theorem descendD_eq (sl : SkipList V) (val : V) :
    ∀ (L : Nat) (p : Pos), sl.descendD val L p = (sl.descendV val L p).1 := by
  intro L
  induction L with
  | zero => intro p; rfl
  | succ L ih =>
    intro p
    simp only [descendD, descendV]
    rw [ih]

/-- `Delete` when no stored value compares equal: the state is returned
unchanged. -/
theorem Delete_absent {sl : SkipList V} (w : sl.WF) (Lc : LawfulCmp sl.cmp) {val : V}
    (habs : ∀ j, j < sl.nodes.length → sl.cmp (sl.nodeAt j).val val ≠ 0) :
    sl.Delete val = sl := by
  obtain ⟨dfacts, hbelow, habove, hrlen, hpred, hJ, hJtop, hJlen⟩ := descendV_facts w Lc val
  set r := idxOf ((sl.descendV val sl.level none).1.getD 0 none) with hrdef
  match hnext : sl.nextPos 0 ((sl.descendV val sl.level none).1.getD 0 none) with
  | none =>
    simp only [Delete, descendD_eq, hnext]
  | some q =>
    have hq : q = r ∧ r < sl.nodes.length := by
      rw [nextPos_eq_ftall, ← hrdef, w.ftall_zero] at hnext
      by_cases hc : r < sl.nodes.length
      · rw [if_pos hc] at hnext
        cases hnext
        exact ⟨rfl, hc⟩
      · rw [if_neg hc] at hnext
        cases hnext
    have hne : ¬ sl.cmp (sl.valP (some q)) val = 0 := by
      rw [hq.1]
      exact habs r hq.2
    simp only [Delete, descendD_eq, hnext, if_neg hne]

/-- `Delete` of a present value: the unique equal-comparing node is
removed, the chain closes up around its index, the size decrements and
the level is trimmed but stays at least 1; the result is well-formed. -/
theorem Delete_present {sl : SkipList V} (w : sl.WF) (Lc : LawfulCmp sl.cmp) {val : V}
    {j : Nat} (hj : j < sl.nodes.length) (hjeq : sl.cmp (sl.nodeAt j).val val = 0) :
    (sl.Delete val).WF ∧
    (sl.Delete val).cmp = sl.cmp ∧
    1 ≤ (sl.Delete val).level ∧ (sl.Delete val).level ≤ sl.level ∧
    (sl.Delete val).size = sl.size - 1 ∧
    (sl.Delete val).nodes.length = sl.nodes.length - 1 ∧
    (∀ i, i < j → (sl.Delete val).valP (some i) = sl.valP (some i)) ∧
    (∀ i, j ≤ i → i + 1 < sl.nodes.length →
      (sl.Delete val).valP (some i) = sl.valP (some (i + 1))) := by
  obtain ⟨dfacts, hbelow, habove, hrlen, hpred, hJ, hJtop, hJlen⟩ := descendV_facts w Lc val
  set r := idxOf ((sl.descendV val sl.level none).1.getD 0 none) with hrdef
  have hjr : j = r := by
    rcases Nat.lt_trichotomy j r with h | h | h
    · have := hbelow j h
      omega
    · exact h
    · have hrl : r < sl.nodes.length := by omega
      have := strict_above w Lc val h hj
        (by have := habove r (le_refl r) hrl; omega)
      omega
  subst hjr
  have hnext : sl.nextPos 0 ((sl.descendV val sl.level none).1.getD 0 none) = some r := by
    rw [nextPos_eq_ftall, ← hrdef, w.ftall_zero, if_pos hj]
  have hceq : sl.cmp (sl.valP (some r)) val = 0 := hjeq
  have hstep : sl.Delete val = sl.removeNode (sl.descendV val sl.level none).1 r := by
    simp only [Delete, descendD_eq, hnext, if_pos hceq]
  rw [hstep]
  exact removeNode_wf w dfacts hj

/-- Specification of the by-rank inner loop on well-formed states: it
never steps onto the Go `nil`, stays on the chain, only moves forward,
keeps the accumulated position equal to the current rank, and stops
exactly when the next jump would pass (or reach, in the strict variant)
the target. -/
theorem walkW_spec {sl : SkipList V} (w : sl.WF) (s : Bool) {i : Int} {ℓ : Nat}
    (hℓ : ℓ < sl.level) (hi0 : 0 ≤ i) (hilen : i < (sl.nodes.length : Int)) :
    ∀ fuel p, sl.nodes.length + 1 ≤ fuel + idxOf p → sl.OnChain ℓ p → rankP p ≤ i →
      (s = true → (idxOf p : Int) ≤ i) →
    ∃ p2, sl.walkW s i ℓ fuel (some p) (rankP p) = (some p2, rankP p2) ∧
      sl.OnChain ℓ p2 ∧ idxOf p ≤ idxOf p2 ∧ rankP p2 ≤ i ∧
      (s = true → (idxOf p2 : Int) ≤ i) ∧
      ¬ (if s = true then rankN sl.nodes.length (sl.nextPos ℓ p2) < i
          else rankN sl.nodes.length (sl.nextPos ℓ p2) ≤ i) := by
  intro fuel
  induction fuel with
  | zero =>
    intro p hfuel hchain hrank hsidx
    have := idxOf_le_length hchain
    omega
  | succ fuel ih =>
    intro p hfuel hchain hrank hsidx
    have hw : sl.widthAt ℓ p = rankN sl.nodes.length (sl.nextPos ℓ p) - rankP p :=
      w.widthAt_eq hℓ hchain
    by_cases hcond : (if s = true then rankP p + sl.widthAt ℓ p < i
        else rankP p + sl.widthAt ℓ p ≤ i)
    · have hA : rankP p + sl.widthAt ℓ p ≤ i := by
        cases s with
        | false => simpa using hcond
        | true =>
          rw [if_pos rfl] at hcond
          omega
      have hrankle : rankN sl.nodes.length (sl.nextPos ℓ p) ≤ i := by omega
      match hnext : sl.nextPos ℓ p with
      | none =>
        exfalso
        rw [hnext] at hrankle
        have hr0 : rankN sl.nodes.length (none : Option Nat) =
          (sl.nodes.length : Int) := rfl
        omega
      | some t =>
        have hft : sl.ftall ℓ (idxOf p) = some t := by
          rw [← nextPos_eq_ftall]; exact hnext
        have hfacts := (ftall_some_iff).mp hft
        have hchain2 : sl.OnChain ℓ (some t) := Or.inr ⟨t, rfl, hfacts.2.1, hfacts.2.2.1⟩
        have hrt : rankN sl.nodes.length (some t) = (t : Int) := rfl
        have hidxt : idxOf (some t : Pos) = t + 1 := rfl
        have hrankt : rankP (some t) ≤ i := by
          rw [hnext, hrt] at hrankle
          exact hrankle
        have hstRank : s = true → (idxOf (some t : Pos) : Int) ≤ i := by
          intro hs
          subst hs
          rw [if_pos rfl] at hcond
          rw [hnext, hrt] at hw
          rw [hidxt]
          push_cast
          omega
        have hstep := ih (some t) (by omega) hchain2 hrankt hstRank
        obtain ⟨p2, hres, hc2, hi2, hr2, hsi2, hs2⟩ := hstep
        refine ⟨p2, ?_, hc2, by omega, hr2, hsi2, hs2⟩
        show sl.walkW s i ℓ (fuel + 1) (some p) (rankP p) = (some p2, rankP p2)
        simp only [walkW]
        rw [if_pos hcond, hnext]
        have harg : rankP p + sl.widthAt ℓ p = rankP (some t) := by
          rw [hw, hnext, hrt]
          have hrpt : rankP (some t : Pos) = (t : Int) := rfl
          rw [hrpt]
          ring
        rw [harg]
        exact hres
    · refine ⟨p, ?_, hchain, le_refl _, hrank, hsidx, ?_⟩
      · show sl.walkW s i ℓ (fuel + 1) (some p) (rankP p) = (some p, rankP p)
        simp only [walkW]
        rw [if_neg hcond]
      · have heq : rankP p + sl.widthAt ℓ p =
            rankN sl.nodes.length (sl.nextPos ℓ p) := by
          rw [hw]; ring
        rw [← heq]
        exact hcond

/-- Specification of the by-rank descent (`At`, `UpdateAt`): starting
on-chain at or before the target, it lands on a position on the bottom
chain, at or before the target, stopped by the bottom-level condition. -/
theorem descendW_spec {sl : SkipList V} (w : sl.WF) (s : Bool) {i : Int}
    (hi0 : 0 ≤ i) (hilen : i < (sl.nodes.length : Int)) :
    ∀ L, L ≤ sl.level → ∀ p, (L = 0 ∨ sl.OnChain (L - 1) p) → rankP p ≤ i →
      (s = true → (idxOf p : Int) ≤ i) →
    ∃ p2, sl.descendW s i L (some p, rankP p) = (some p2, rankP p2) ∧
      (L = 0 → p2 = p) ∧
      (1 ≤ L → sl.OnChain 0 p2 ∧ rankP p2 ≤ i ∧
        (s = true → (idxOf p2 : Int) ≤ i) ∧
        ¬ (if s = true then rankN sl.nodes.length (sl.nextPos 0 p2) < i
            else rankN sl.nodes.length (sl.nextPos 0 p2) ≤ i)) := by
  intro L
  induction L with
  | zero =>
    intro _ p _ hrank _
    exact ⟨p, rfl, fun _ => rfl, by omega⟩
  | succ L ih =>
    intro hL p hchain hrank hsidx
    have hchain2 : sl.OnChain L p := by
      rcases hchain with h | h
      · omega
      · exact h
    have hwalk := walkW_spec w s (show L < sl.level by omega) hi0 hilen
      (sl.nodes.length + 1) p (by omega) hchain2 hrank hsidx
    obtain ⟨p1, hres, hc1, hi1, hr1, hsi1, hs1⟩ := hwalk
    rcases Nat.eq_zero_or_pos L with hL0 | hLpos
    · subst hL0
      refine ⟨p1, ?_, by omega, ?_⟩
      · show sl.descendW s i 1 (some p, rankP p) = (some p1, rankP p1)
        simp only [descendW]
        rw [hres]
      · intro _
        exact ⟨hc1, hr1, hsi1, hs1⟩
    · have hrec := ih (by omega) p1 (Or.inr (onChain_mono hc1 (by omega))) hr1 hsi1
      obtain ⟨p2, hres2, _, hfin⟩ := hrec
      refine ⟨p2, ?_, by omega, fun _ => hfin hLpos⟩
      show sl.descendW s i (L + 1) (some p, rankP p) = (some p2, rankP p2)
      simp only [descendW]
      rw [hres]
      exact hres2

/-- The non-strict by-rank descent from the head lands exactly on the
node of rank `n`. -/
theorem At_land {sl : SkipList V} (w : sl.WF) {n : Nat} (hn : n < sl.nodes.length) :
    sl.descendW false (n : Int) sl.level (some none, 0) = (some (some n), (n : Int)) := by
  have h0 : (0 : Int) ≤ (n : Int) := Int.ofNat_nonneg n
  have hlen : (n : Int) < (sl.nodes.length : Int) := by exact_mod_cast hn
  have hspec := descendW_spec w false h0 hlen sl.level (le_refl _) none
    (Or.inr (onChain_head sl _)) h0 (fun h => by cases h)
  obtain ⟨p2, hres, _, hfin⟩ := hspec
  obtain ⟨hc2, hr2, _, hs2⟩ := hfin w.level_pos
  have hs2n : ¬ rankN sl.nodes.length (sl.nextPos 0 p2) ≤ (n : Int) := by
    simpa using hs2
  rcases hc2 with rfl | ⟨t, rfl, htlen, _⟩
  · exfalso
    have hn0 : sl.nextPos 0 (none : Pos) = some 0 := by
      rw [nextPos_eq_ftall]
      have hidx0 : idxOf (none : Pos) = 0 := rfl
      rw [hidx0, w.ftall_zero, if_pos (by omega)]
    rw [hn0] at hs2n
    have hr00 : rankN sl.nodes.length (some 0) = (0 : Int) := rfl
    omega
  · have hrpt : rankP (some t : Pos) = (t : Int) := rfl
    have htn2 : (t : Int) ≤ (n : Int) := by rw [← hrpt]; exact hr2
    have htn : t ≤ n := by exact_mod_cast htn2
    have hnext : sl.nextPos 0 (some t) = sl.ftall 0 (t + 1) := by
      rw [nextPos_eq_ftall]
      rfl
    have hteq : t = n := by
      rw [hnext, w.ftall_zero] at hs2n
      by_cases hc : t + 1 < sl.nodes.length
      · rw [if_pos hc] at hs2n
        have hr1 : rankN sl.nodes.length (some (t + 1)) = ((t + 1 : Nat) : Int) := rfl
        rw [hr1] at hs2n
        omega
      · rw [if_neg hc] at hs2n
        omega
    subst hteq
    rw [hrpt] at hres
    have h00 : rankP (none : Pos) = (0 : Int) := rfl
    rw [h00] at hres
    exact hres

/-- `At` on a valid index returns the value of the node of that rank. -/
theorem At_ok {sl : SkipList V} (w : sl.WF) {n : Nat} (hn : n < sl.size) :
    sl.At (n : Int) = .ok (sl.valP (some n)) := by
  have hn2 : n < sl.nodes.length := by rw [← w.size_eq]; exact hn
  have hland := At_land w hn2
  have hguard : ¬ ((n : Int) < 0 ∨ (sl.size : Int) ≤ (n : Int)) := by
    push_neg
    exact ⟨Int.ofNat_nonneg n, by exact_mod_cast hn⟩
  simp only [At, if_neg hguard, hland]

/-- The strict by-rank descent from the head lands exactly on the
predecessor of the node of rank `n`: its bottom successor is that node. -/
theorem UA_land {sl : SkipList V} (w : sl.WF) {n : Nat} (hn : n < sl.nodes.length) :
    ∃ p2, sl.descendW true (n : Int) sl.level (some none, 0) = (some p2, rankP p2) ∧
      idxOf p2 = n ∧ sl.OnChain 0 p2 ∧ sl.nextPos 0 p2 = some n := by
  have h0 : (0 : Int) ≤ (n : Int) := Int.ofNat_nonneg n
  have hlen : (n : Int) < (sl.nodes.length : Int) := by exact_mod_cast hn
  have hidx0 : idxOf (none : Pos) = 0 := rfl
  have hspec := descendW_spec w true h0 hlen sl.level (le_refl _) none
    (Or.inr (onChain_head sl _)) h0 (fun _ => by rw [hidx0]; exact_mod_cast h0)
  obtain ⟨p2, hres, _, hfin⟩ := hspec
  obtain ⟨hc2, hr2, hsi2, hs2⟩ := hfin w.level_pos
  have hidxle : idxOf p2 ≤ n := by
    have := hsi2 rfl
    exact_mod_cast this
  have hs2n : ¬ rankN sl.nodes.length (sl.nextPos 0 p2) < (n : Int) := by
    simpa using hs2
  have hnextf : sl.nextPos 0 p2 = some (idxOf p2) := by
    rw [nextPos_eq_ftall, w.ftall_zero, if_pos (by omega)]
  have hidxeq : idxOf p2 = n := by
    rw [hnextf] at hs2n
    have hr1 : rankN sl.nodes.length (some (idxOf p2)) = ((idxOf p2 : Nat) : Int) := rfl
    rw [hr1] at hs2n
    have : ¬ ((idxOf p2 : Int) < (n : Int)) := hs2n
    omega
  refine ⟨p2, ?_, hidxeq, hc2, by rw [hnextf, hidxeq]⟩
  have h00 : rankP (none : Pos) = (0 : Int) := rfl
  rw [h00] at hres
  exact hres

theorem getD_map_some {α : Type} (l : List α) (k : Nat) (d : α) (h : k < l.length) :
    (l.map some).getD k none = some (l.getD k d) := by
  rw [List.getD_eq_getElem?_getD, List.getD_eq_getElem?_getD, List.getElem?_map,
    List.getElem?_eq_getElem h]
  rfl

theorem mapM_id_eq_some {α : Type} :
    ∀ (l : List (Option α)), (∀ x, x ∈ l → x ≠ none) →
    ∃ l2, l.mapM id = some l2 ∧ l = l2.map some := by
  intro l
  induction l with
  | nil => intro _; exact ⟨[], rfl, rfl⟩
  | cons x rest ih =>
    intro hall
    obtain ⟨l2, hm, hrest⟩ := ih (fun y hy => hall y (List.mem_cons_of_mem _ hy))
    match x, hall x (List.mem_cons_self _ _) with
    | some a, _ =>
      refine ⟨a :: l2, ?_, by rw [hrest]; rfl⟩
      rw [List.mapM_cons, hm]
      rfl
    | none, hx => exact absurd rfl hx

/-- Specification of the recording strict by-rank descent of `DeleteAt`:
the final pair agrees with the plain strict descent, and every recorded
per-level predecessor is a non-nil pointer on its chain, at or before the
target, stopped by that level's strict condition. -/
theorem descendWU_spec {sl : SkipList V} (w : sl.WF) {i : Int}
    (hi0 : 0 ≤ i) (hilen : i < (sl.nodes.length : Int)) :
    ∀ L, L ≤ sl.level → ∀ p, (L = 0 ∨ sl.OnChain (L - 1) p) → rankP p ≤ i →
      ((idxOf p : Int) ≤ i) →
    (sl.descendWU i L (some p, rankP p)).2 = sl.descendW true i L (some p, rankP p) ∧
    (sl.descendWU i L (some p, rankP p)).1.length = L ∧
    (∀ ℓ, ℓ < L → ∃ u, (sl.descendWU i L (some p, rankP p)).1.getD ℓ none = some u ∧
      sl.OnChain ℓ u ∧ (idxOf u : Int) ≤ i ∧
      ¬ rankN sl.nodes.length (sl.nextPos ℓ u) < i) := by
  intro L
  induction L with
  | zero =>
    intro _ p _ _ _
    exact ⟨rfl, rfl, fun ℓ hℓ => absurd hℓ (by omega)⟩
  | succ L ih =>
    intro hL p hchain hrank hidx
    have hchain2 : sl.OnChain L p := by
      rcases hchain with h | h
      · omega
      · exact h
    have hwalk := walkW_spec w true (show L < sl.level by omega) hi0 hilen
      (sl.nodes.length + 1) p (by omega) hchain2 hrank (fun _ => hidx)
    obtain ⟨p1, hres, hc1, hi1, hr1, hsi1, hs1⟩ := hwalk
    have hrec := ih (by omega) p1
      (by
        rcases Nat.eq_zero_or_pos L with h0 | h0
        · exact Or.inl h0
        · exact Or.inr (onChain_mono hc1 (by omega)))
      hr1 (hsi1 rfl)
    have hstep : sl.descendWU i (L + 1) (some p, rankP p) =
        ((sl.descendWU i L (some p1, rankP p1)).1 ++ [some p1],
         (sl.descendWU i L (some p1, rankP p1)).2) := by
      simp only [descendWU]
      rw [hres]
    have hstepW : sl.descendW true i (L + 1) (some p, rankP p) =
        sl.descendW true i L (some p1, rankP p1) := by
      simp only [descendW]
      rw [hres]
    rw [hstep, hstepW]
    refine ⟨hrec.1, by simp [hrec.2.1], ?_⟩
    intro ℓ hℓ
    by_cases hcase : ℓ < L
    · obtain ⟨u, hu, huc, hui, hus⟩ := hrec.2.2 ℓ hcase
      exact ⟨u, by rw [getD_append_lt _ _ _ _ (by rw [hrec.2.1]; omega)]; exact hu,
        huc, hui, hus⟩
    · have hℓL : ℓ = L := by omega
      subst hℓL
      refine ⟨p1, ?_, hc1, hsi1 rfl, by simpa using hs1⟩
      have hsnoc := getD_snoc_self (sl.descendWU i ℓ (some p1, rankP p1)).1 (some p1) none
      rw [hrec.2.1] at hsnoc
      exact hsnoc

/-- Full characterization of `UpdateAt` on a valid index: the value is
checked against the predecessor position's stored value (the head
sentinel's zero value when the target is at rank 0) and against the
successor when one exists, and on success only the target's value is
overwritten. -/
theorem UpdateAt_eq {sl : SkipList V} (w : sl.WF) {n : Nat} {val : V}
    (hn : n < sl.size) :
    sl.UpdateAt (n : Int) val =
      (if 0 ≤ sl.cmp (sl.valP (predIdx n)) val then .error .notGreaterPrev
       else if n + 1 < sl.nodes.length then
         (if 0 ≤ sl.cmp val (sl.valP (some (n + 1))) then .error .notLessNext
          else .ok (sl.setVal n val))
       else .ok (sl.setVal n val)) := by
  have hn2 : n < sl.nodes.length := by rw [← w.size_eq]; exact hn
  obtain ⟨p2, hres, hidx2, hc2, hnext2⟩ := UA_land w hn2
  have hguard : ¬ ((n : Int) < 0 ∨ (sl.size : Int) ≤ (n : Int)) := by
    push_neg
    exact ⟨Int.ofNat_nonneg n, by exact_mod_cast hn⟩
  have hp2 : p2 = predIdx n := by
    match p2, hidx2 with
    | none, h =>
      have hnn : n = 0 := by simpa [idxOf] using h.symm
      rw [hnn]
      rfl
    | some j, h =>
      have hj : j + 1 = n := by simpa [idxOf] using h
      show some j = predIdx n
      rw [predIdx, if_neg (by omega)]
      congr 1
      omega
  have hnext3 : sl.nextPos 0 (some n) =
      if n + 1 < sl.nodes.length then some (n + 1) else none := by
    rw [nextPos_eq_ftall]
    have h : idxOf (some n : Pos) = n + 1 := rfl
    rw [h, w.ftall_zero]
  simp only [UpdateAt, if_neg hguard, hres, hnext2]
  rw [hp2]
  by_cases h1 : 0 ≤ sl.cmp (sl.valP (predIdx n)) val
  · rw [if_pos h1, if_pos h1]
  · rw [if_neg h1, if_neg h1]
    by_cases hc : n + 1 < sl.nodes.length
    · have hnx : sl.nextPos 0 (some n) = some (n + 1) := by rw [hnext3, if_pos hc]
      simp only [hnx]
      rw [if_pos hc]
    · have hnx : sl.nextPos 0 (some n) = none := by rw [hnext3, if_neg hc]
      simp only [hnx]
      rw [if_neg hc]

/-- `DeleteAt` on a valid index: returns the removed rank's old value and
a well-formed state whose chain is the old one with that rank erased. -/
theorem DeleteAt_ok {sl : SkipList V} (w : sl.WF) {n : Nat} (hn : n < sl.size) :
    ∃ sl2, sl.DeleteAt (n : Int) = .ok (sl.valP (some n), sl2) ∧
      sl2.WF ∧ sl2.cmp = sl.cmp ∧ 1 ≤ sl2.level ∧ sl2.level ≤ sl.level ∧
      sl2.size = sl.size - 1 ∧ sl2.nodes.length = sl.nodes.length - 1 ∧
      (∀ k, k < n → sl2.valP (some k) = sl.valP (some k)) ∧
      (∀ k, n ≤ k → k + 1 < sl.nodes.length →
        sl2.valP (some k) = sl.valP (some (k + 1))) := by
  have hn2 : n < sl.nodes.length := by rw [← w.size_eq]; exact hn
  have h0 : (0 : Int) ≤ (n : Int) := Int.ofNat_nonneg n
  have hlen : (n : Int) < (sl.nodes.length : Int) := by exact_mod_cast hn2
  have hidx0 : idxOf (none : Pos) = 0 := rfl
  have h00 : rankP (none : Pos) = (0 : Int) := rfl
  have hspec := descendWU_spec w h0 hlen sl.level (le_refl _) none
    (Or.inr (onChain_head sl _)) (by rw [h00]; exact h0)
    (by rw [hidx0]; exact_mod_cast h0)
  rw [h00] at hspec
  obtain ⟨hd2, hdlen, hdget⟩ := hspec
  obtain ⟨p2, hresW, hidx2, hc2, hnext2⟩ := UA_land w hn2
  have hguard : ¬ ((n : Int) < 0 ∨ (sl.size : Int) ≤ (n : Int)) := by
    push_neg
    exact ⟨h0, by exact_mod_cast hn⟩
  have hall : ∀ x, x ∈ (sl.descendWU (n : Int) sl.level (some none, 0)).1 →
      x ≠ none := by
    intro x hx
    obtain ⟨k, hk, hxe⟩ := List.getElem_of_mem hx
    have hkL : k < sl.level := by rw [← hdlen]; exact hk
    obtain ⟨u, hu, _⟩ := hdget k hkL
    have hgd : (sl.descendWU (n : Int) sl.level (some none, 0)).1.getD k none = x := by
      rw [List.getD_eq_getElem?_getD, List.getElem?_eq_getElem hk, hxe]
      rfl
    rw [hgd] at hu
    rw [hu]
    intro hcon
    cases hcon
  obtain ⟨ups, hm, hmapeq⟩ := mapM_id_eq_some _ hall
  have hupslen : ups.length = sl.level := by
    have hh := congrArg List.length hmapeq
    rw [List.length_map] at hh
    omega
  have hupsget : ∀ ℓ, ℓ < sl.level → ∀ u,
      (sl.descendWU (n : Int) sl.level (some none, 0)).1.getD ℓ none = some u →
      ups.getD ℓ none = u := by
    intro ℓ hℓ u hu
    rw [hmapeq] at hu
    rw [getD_map_some ups ℓ none (by omega)] at hu
    exact Option.some.inj hu
  have DF : DescentFacts sl ups n := by
    refine ⟨hupslen, ?_, ?_, ?_⟩
    · intro ℓ hℓ
      obtain ⟨u, hu, huc, _, _⟩ := hdget ℓ hℓ
      rw [hupsget ℓ hℓ u hu]
      exact huc
    · intro ℓ hℓ
      obtain ⟨u, hu, _, hui, _⟩ := hdget ℓ hℓ
      rw [hupsget ℓ hℓ u hu]
      exact_mod_cast hui
    · intro ℓ hℓ t ht1 ht2
      obtain ⟨u, hu, _, _, hus⟩ := hdget ℓ hℓ
      rw [hupsget ℓ hℓ u hu] at ht1
      rw [nextPos_eq_ftall] at hus
      match hf : sl.ftall ℓ (idxOf u) with
      | some t2 =>
        rw [hf] at hus
        have hr2 : rankN sl.nodes.length (some t2) = (t2 : Int) := rfl
        rw [hr2] at hus
        have ht2n : n ≤ t2 := by exact_mod_cast (not_lt.mp hus)
        have hfacts := (ftall_some_iff).mp hf
        exact hfacts.2.2.2 t ht1 (by omega)
      | none =>
        rw [ftall_none_iff] at hf
        exact hf t ht1 (by omega)
  have hfacts := removeNode_wf w DF hn2
  refine ⟨sl.removeNode ups n, ?_, hfacts.1, hfacts.2.1, hfacts.2.2.1,
    hfacts.2.2.2.1, hfacts.2.2.2.2.1, hfacts.2.2.2.2.2.1,
    hfacts.2.2.2.2.2.2.1, hfacts.2.2.2.2.2.2.2⟩
  have hfst : ((sl.descendWU (n : Int) sl.level (some none, 0)).2).1 = some p2 := by
    rw [hd2, hresW]
  simp only [DeleteAt, if_neg hguard, hfst, hnext2, hm]

/-- Equal-comparing indices are unique on a sorted well-formed state. -/
theorem eq_unique {sl : SkipList V} (w : sl.WF) (Lc : LawfulCmp sl.cmp) {val : V}
    {j j2 : Nat} (hj : j < sl.nodes.length) (hjeq : sl.cmp (sl.nodeAt j).val val = 0)
    (hj2 : j2 < sl.nodes.length) (hj2eq : sl.cmp (sl.nodeAt j2).val val = 0) :
    j2 = j := by
  rcases Nat.lt_trichotomy j2 j with h | h | h
  · have hs := w.sorted j2 hj2 j hj h
    have he : sl.cmp (sl.nodeAt j2).val (sl.nodeAt j).val =
        sl.cmp (sl.nodeAt j2).val val := Lc.eq_congr_right hjeq
    omega
  · exact h
  · have hs := w.sorted j hj j2 hj2 h
    have he : sl.cmp (sl.nodeAt j).val (sl.nodeAt j2).val =
        sl.cmp (sl.nodeAt j).val val := Lc.eq_congr_right hj2eq
    omega

/-- Overwriting a stored value that still orders strictly between its
neighbours preserves well-formedness. -/
theorem setVal_wf {sl : SkipList V} (w : sl.WF) {j : Nat} {v : V}
    (hj : j < sl.nodes.length)
    (hlt : ∀ i2, i2 < j → sl.cmp (sl.nodeAt i2).val v < 0)
    (hgt : ∀ i2, j < i2 → i2 < sl.nodes.length → sl.cmp v (sl.nodeAt i2).val < 0) :
    (sl.setVal j v).WF := by
  obtain ⟨hc, hl, hs, hn, hh⟩ := setVal_fields sl j v
  refine ⟨?_, ?_, ?_, ?_, ?_, ?_, ?_, ?_, ?_⟩
  · rw [hs, hn]; exact w.size_eq
  · rw [hl]; exact w.level_pos
  · rw [hh, hl]; exact w.headW_len
  · intro i hi
    rw [hn] at hi
    rw [setVal_heightAt]
    exact w.height_pos i hi
  · intro i hi
    rw [hn] at hi
    rw [setVal_heightAt, hl]
    exact w.height_le i hi
  · rw [hl, hn]
    rcases w.top with h | ⟨i, hi, hhi⟩
    · exact Or.inl h
    · exact Or.inr ⟨i, hi, by rw [setVal_heightAt]; exact hhi⟩
  · intro a ha b hb hab
    rw [hn] at ha hb
    show (sl.setVal j v).cmp ((sl.setVal j v).valP (some a))
      ((sl.setVal j v).valP (some b)) < 0
    rw [hc]
    by_cases haj : a = j
    · subst haj
      rw [setVal_valP_self v hj,
        setVal_valP_other v (show (some b : Pos) ≠ some a by
          intro hcon; injection hcon with hcon2; omega)]
      exact hgt b (by omega) hb
    · by_cases hbj : b = j
      · subst hbj
        rw [setVal_valP_self v hj,
          setVal_valP_other v (show (some a : Pos) ≠ some b by
            intro hcon; injection hcon with hcon2; omega)]
        exact hlt a (by omega)
      · rw [setVal_valP_other v (show (some a : Pos) ≠ some j by
            intro hcon; injection hcon with hcon2; omega),
          setVal_valP_other v (show (some b : Pos) ≠ some j by
            intro hcon; injection hcon with hcon2; omega)]
        exact w.sorted a ha b hb hab
  · intro ℓ hℓ
    rw [hl] at hℓ
    rw [hh, hn, setVal_ftall]
    exact w.headwidth ℓ hℓ
  · intro i hi ℓ hℓ
    rw [hn] at hi
    rw [setVal_heightAt] at hℓ
    have hwAt : ((sl.setVal j v).nodeAt i).width.getD ℓ 0 =
        (sl.nodeAt i).width.getD ℓ 0 := setVal_widthAt sl j v ℓ (some i)
    rw [hwAt, hn, setVal_ftall]
    exact w.nodewidth i hi ℓ hℓ

/-- Splitting the chain at a bottom-level descent's final position: all
earlier values are strictly below the searched value, all later ones are
not. -/
theorem bottom_split {sl : SkipList V} (w : sl.WF) (Lc : LawfulCmp sl.cmp) {val : V}
    {u : Pos} (hchain : sl.OnChain 0 u) (hpred : sl.PredOk val u)
    (hstop : ∀ q, sl.nextPos 0 u = some q → 0 ≤ sl.cmp (sl.valP (some q)) val) :
    (∀ i, i < idxOf u → sl.cmp (sl.nodeAt i).val val < 0) ∧
    (∀ i, idxOf u ≤ i → i < sl.nodes.length → 0 ≤ sl.cmp (sl.nodeAt i).val val) := by
  constructor
  · intro i hi
    rcases hchain with rfl | ⟨j, rfl, hjlen, _⟩
    · simp [idxOf] at hi
    · have hidxj : idxOf (some j : Pos) = j + 1 := rfl
      rw [hidxj] at hi
      rcases hpred with hno | hlt2
      · cases hno
      · have hltj : sl.cmp (sl.nodeAt j).val val < 0 := hlt2
        by_cases hij : i = j
        · subst hij; exact hltj
        · exact Lc.lt_trans _ _ _ (w.sorted i (by omega) j hjlen (by omega)) hltj
  · intro i hi hilen
    have hr := idxOf_le_length hchain
    have hnext0 : sl.nextPos 0 u = some (idxOf u) := by
      rw [nextPos_eq_ftall, w.ftall_zero, if_pos (by omega)]
    have hstop2 := hstop (idxOf u) hnext0
    by_cases hir : i = idxOf u
    · subst hir; exact hstop2
    · have hri : idxOf u < i := by omega
      have hsort := w.sorted (idxOf u) (by omega) i hilen hri
      have h1 := Lc.antisymm (sl.nodeAt (idxOf u)).val val
      have h2 : sl.cmp val (sl.nodeAt (idxOf u)).val ≤ 0 := by
        have hv : sl.valP (some (idxOf u)) = (sl.nodeAt (idxOf u)).val := rfl
        rw [hv] at hstop2
        omega
      have h3 := Lc.le_lt_trans h2 hsort
      have h4 := Lc.antisymm val (sl.nodeAt i).val
      omega

theorem descendV_len (sl : SkipList V) (val : V) :
    ∀ (L : Nat) (p : Pos), (sl.descendV val L p).1.length = L := by
  intro L
  induction L with
  | zero => intro p; rfl
  | succ L ih =>
    intro p
    simp [descendV, ih]

theorem getD_indep {α : Type} {l : List α} {k : Nat} (h : k < l.length) (d1 d2 : α) :
    l.getD k d1 = l.getD k d2 := by
  rw [List.getD_eq_getElem?_getD, List.getD_eq_getElem?_getD, List.getElem?_eq_getElem h]
  rfl

theorem descendS_eq (sl : SkipList V) (val : V) :
    ∀ (L : Nat) (p : Pos), sl.descendS val L p = (sl.descendV val L p).1.getD 0 p := by
  intro L
  induction L with
  | zero => intro p; rfl
  | succ L ih =>
    intro p
    simp only [descendS, descendV]
    rw [ih]
    rcases Nat.eq_zero_or_pos L with h0 | hpos
    · subst h0
      rfl
    · have hlen := descendV_len sl val L (sl.walkV val L (sl.nodes.length + 1) p 0).1
      rw [getD_append_lt _ _ _ _ (by omega)]
      exact getD_indep (by omega) _ _

/-- `Search` for a present value returns the stored equal-comparing
element and `true`. -/
theorem Search_present {sl : SkipList V} (w : sl.WF) (Lc : LawfulCmp sl.cmp) {val : V}
    {j : Nat} (hj : j < sl.nodes.length) (hjeq : sl.cmp (sl.nodeAt j).val val = 0) :
    sl.Search val = ((sl.nodeAt j).val, true) := by
  set L := min (sl.level - 1) sl.bestEntryLevel + 1 with hLdef
  have hL : L ≤ sl.level := by
    have := w.level_pos
    omega
  have spec := descendV_spec w val L hL none (Or.inr (onChain_head sl _)) (Or.inl rfl)
  set u := (sl.descendV val L none).1.getD 0 none with hudef
  have hb := spec.2.2.1 0 (by omega)
  obtain ⟨hsplit_lo, hsplit_hi⟩ := bottom_split w Lc hb.1 hb.2.1 hb.2.2
  have hridx : idxOf u ≤ j := by
    by_contra hcon
    push_neg at hcon
    have := hsplit_lo j hcon
    omega
  have hjeq2 : j = idxOf u := by
    by_cases hcase : idxOf u = j
    · omega
    · exfalso
      have hlt : idxOf u < j := by omega
      have h0 := hsplit_hi (idxOf u) (le_refl _) (by omega)
      have := strict_above w Lc val hlt hj h0
      omega
  have hnext : sl.nextPos 0 u = some j := by
    rw [nextPos_eq_ftall, w.ftall_zero, if_pos (by omega)]
    rw [hjeq2]
  have hceq : sl.cmp (sl.valP (some j)) val = 0 := hjeq
  simp only [Search, descendS_eq]
  rw [← hLdef, ← hudef]
  simp only [hnext]
  rw [if_pos hceq]
  rfl

/-- `Search` for an absent value returns the zero value and `false`. -/
theorem Search_absent {sl : SkipList V} (w : sl.WF) (Lc : LawfulCmp sl.cmp) {val : V}
    (habs : ∀ j, j < sl.nodes.length → sl.cmp (sl.nodeAt j).val val ≠ 0) :
    sl.Search val = (default, false) := by
  set L := min (sl.level - 1) sl.bestEntryLevel + 1 with hLdef
  have hL : L ≤ sl.level := by
    have := w.level_pos
    omega
  have spec := descendV_spec w val L hL none (Or.inr (onChain_head sl _)) (Or.inl rfl)
  set u := (sl.descendV val L none).1.getD 0 none with hudef
  have hb := spec.2.2.1 0 (by omega)
  obtain ⟨hsplit_lo, hsplit_hi⟩ := bottom_split w Lc hb.1 hb.2.1 hb.2.2
  have hr := idxOf_le_length hb.1
  by_cases hc : idxOf u < sl.nodes.length
  · have hnext : sl.nextPos 0 u = some (idxOf u) := by
      rw [nextPos_eq_ftall, w.ftall_zero, if_pos hc]
    have hge := hsplit_hi (idxOf u) (le_refl _) hc
    have hne : ¬ sl.cmp (sl.valP (some (idxOf u))) val = 0 := habs (idxOf u) hc
    simp only [Search, descendS_eq]
    rw [← hLdef, ← hudef]
    simp only [hnext]
    rw [if_neg hne]
  · have hnext : sl.nextPos 0 u = none := by
      rw [nextPos_eq_ftall, w.ftall_zero, if_neg hc]
    simp only [Search, descendS_eq]
    rw [← hLdef, ← hudef]
    simp only [hnext]

/-- The state built by `NewFunc` is well-formed. -/
theorem NewFunc_wf (c : V → V → Int) : (NewFunc c : SkipList V).WF := by
  refine ⟨rfl, le_refl _, rfl, ?_, ?_, Or.inl rfl, ?_, ?_, ?_⟩
  · intro i hi
    have h0 : (NewFunc c : SkipList V).nodes.length = 0 := rfl
    omega
  · intro i hi
    have h0 : (NewFunc c : SkipList V).nodes.length = 0 := rfl
    omega
  · intro i hi j hj hij
    have h0 : (NewFunc c : SkipList V).nodes.length = 0 := rfl
    omega
  · intro ℓ hℓ
    have hℓ0 : ℓ = 0 := by
      have h1 : (NewFunc c : SkipList V).level = 1 := rfl
      omega
    subst hℓ0
    rfl
  · intro i hi ℓ hℓ
    have h0 : (NewFunc c : SkipList V).nodes.length = 0 := rfl
    omega

/-- `Insert` preserves well-formedness and the comparator for any level
draw of at least 1. -/
theorem Insert_wf {sl : SkipList V} (w : sl.WF) (Lc : LawfulCmp sl.cmp) (val : V)
    {nl : Nat} (hnl : 1 ≤ nl) :
    (sl.Insert val nl).WF ∧ (sl.Insert val nl).cmp = sl.cmp := by
  classical
  by_cases hf : ∃ j, j < sl.nodes.length ∧ sl.cmp (sl.nodeAt j).val val = 0
  · obtain ⟨j, hjl, hjeq, huniq, heq⟩ := Insert_found w Lc nl hf
    rw [heq]
    constructor
    · apply setVal_wf w hjl
      · intro i2 hi2
        have hs := w.sorted i2 (by omega) j hjl hi2
        have he : sl.cmp (sl.nodeAt i2).val (sl.nodeAt j).val =
            sl.cmp (sl.nodeAt i2).val val := Lc.eq_congr_right hjeq
        omega
      · intro i2 h1 h2
        have hs := w.sorted j hjl i2 h2 h1
        have he := Lc.eq_congr _ _ (sl.nodeAt i2).val hjeq
        omega
    · exact (setVal_fields sl j val).1
  · push_neg at hf
    have h := Insert_notfound w Lc hnl hf
    exact ⟨h.1, h.2.1⟩

/-- `Delete` preserves well-formedness and the comparator. -/
theorem Delete_wf {sl : SkipList V} (w : sl.WF) (Lc : LawfulCmp sl.cmp) (val : V) :
    (sl.Delete val).WF ∧ (sl.Delete val).cmp = sl.cmp := by
  classical
  by_cases hf : ∃ j, j < sl.nodes.length ∧ sl.cmp (sl.nodeAt j).val val = 0
  · obtain ⟨j, hjl, hjeq⟩ := hf
    have h := Delete_present w Lc hjl hjeq
    exact ⟨h.1, h.2.1⟩
  · push_neg at hf
    rw [Delete_absent w Lc hf]
    exact ⟨w, rfl⟩

/-- The state after a `DeleteAt` call preserves well-formedness and the
comparator, also when the call is rejected. -/
theorem deleteAtSt_wf {sl : SkipList V} (w : sl.WF) (i : Int) :
    (sl.deleteAtSt i).WF ∧ (sl.deleteAtSt i).cmp = sl.cmp := by
  by_cases hin : 0 ≤ i ∧ i < (sl.size : Int)
  · obtain ⟨h0, h1⟩ := hin
    have hn : i.toNat < sl.size := by omega
    obtain ⟨sl2, hok, hwf, hcmp, _⟩ := DeleteAt_ok w hn
    have hcast : ((i.toNat : Nat) : Int) = i := Int.toNat_of_nonneg h0
    rw [hcast] at hok
    simp only [deleteAtSt, hok]
    exact ⟨hwf, hcmp⟩
  · have hcond : i < 0 ∨ (sl.size : Int) ≤ i := by omega
    have herr : sl.DeleteAt i = .error .outOfRange := by
      simp only [DeleteAt, if_pos hcond]
    simp only [deleteAtSt, herr]
    exact ⟨w, trivial⟩

/-- The state after an `UpdateAt` call preserves well-formedness and the
comparator, also when the call is rejected. -/
theorem updateAtSt_wf {sl : SkipList V} (w : sl.WF) (Lc : LawfulCmp sl.cmp)
    (i : Int) (val : V) :
    (sl.updateAtSt i val).WF ∧ (sl.updateAtSt i val).cmp = sl.cmp := by
  by_cases hin : 0 ≤ i ∧ i < (sl.size : Int)
  · obtain ⟨h0, h1⟩ := hin
    have hn : i.toNat < sl.size := by omega
    have heq := @UpdateAt_eq V _ sl w i.toNat val hn
    have hcast : ((i.toNat : Nat) : Int) = i := Int.toNat_of_nonneg h0
    rw [hcast] at heq
    set n := i.toNat with hndef
    have hn2 : n < sl.nodes.length := by rw [← w.size_eq]; exact hn
    by_cases hprev : 0 ≤ sl.cmp (sl.valP (predIdx n)) val
    · rw [if_pos hprev] at heq
      simp only [updateAtSt, heq]
      exact ⟨w, trivial⟩
    · rw [if_neg hprev] at heq
      push_neg at hprev
      have hleft : ∀ i2, i2 < n → sl.cmp (sl.nodeAt i2).val val < 0 := by
        intro i2 hi2
        have hnpos : 1 ≤ n := by omega
        have hpredval : sl.valP (predIdx n) = (sl.nodeAt (n - 1)).val := by
          rw [predIdx, if_neg (by omega)]
          rfl
        rw [hpredval] at hprev
        by_cases hieq : i2 = n - 1
        · subst hieq
          exact hprev
        · have hs := w.sorted i2 (by omega) (n - 1) (by omega) (by omega)
          exact Lc.lt_trans _ _ _ hs hprev
      by_cases hc2 : n + 1 < sl.nodes.length
      · rw [if_pos hc2] at heq
        by_cases hc3 : 0 ≤ sl.cmp val (sl.valP (some (n + 1)))
        · rw [if_pos hc3] at heq
          simp only [updateAtSt, heq]
          exact ⟨w, trivial⟩
        · rw [if_neg hc3] at heq
          push_neg at hc3
          simp only [updateAtSt, heq]
          refine ⟨setVal_wf w hn2 hleft ?_, (setVal_fields sl n val).1⟩
          intro i2 h1 h2
          have hsucc : sl.cmp val (sl.nodeAt (n + 1)).val < 0 := hc3
          by_cases hieq : i2 = n + 1
          · subst hieq
            exact hsucc
          · have hs := w.sorted (n + 1) hc2 i2 h2 (by omega)
            exact Lc.lt_trans _ _ _ hsucc hs
      · rw [if_neg hc2] at heq
        simp only [updateAtSt, heq]
        refine ⟨setVal_wf w hn2 hleft ?_, (setVal_fields sl n val).1⟩
        intro i2 h1 h2
        omega
  · have hcond : i < 0 ∨ (sl.size : Int) ≤ i := by omega
    have herr : sl.UpdateAt i val = .error .outOfRange := by
      simp only [UpdateAt, if_pos hcond]
    simp only [updateAtSt, herr]
    exact ⟨w, trivial⟩

/-- Every reachable state is well-formed and carries a lawful
comparator. -/
theorem reach_wf {sl : SkipList V} (h : Reachable sl) : sl.WF ∧ LawfulCmp sl.cmp := by
  induction h with
  | base c hc => exact ⟨NewFunc_wf c, hc⟩
  | ins sl2 v nl _ hnl ih =>
    obtain ⟨hw, hlc⟩ := ih
    obtain ⟨h1, h2⟩ := Insert_wf hw hlc v hnl
    exact ⟨h1, by rw [h2]; exact hlc⟩
  | del sl2 v _ ih =>
    obtain ⟨hw, hlc⟩ := ih
    obtain ⟨h1, h2⟩ := Delete_wf hw hlc v
    exact ⟨h1, by rw [h2]; exact hlc⟩
  | delAt sl2 i _ ih =>
    obtain ⟨hw, hlc⟩ := ih
    obtain ⟨h1, h2⟩ := deleteAtSt_wf hw i
    exact ⟨h1, by rw [h2]; exact hlc⟩
  | updAt sl2 i v _ ih =>
    obtain ⟨hw, hlc⟩ := ih
    obtain ⟨h1, h2⟩ := updateAtSt_wf hw hlc i v
    exact ⟨h1, by rw [h2]; exact hlc⟩

/-- Overwriting the unique equal-comparing element changes no value's
presence. -/
theorem setVal_presence {sl : SkipList V} (Lc : LawfulCmp sl.cmp)
    {v : V} {j : Nat} (hjl : j < sl.nodes.length)
    (hjeq : sl.cmp (sl.nodeAt j).val v = 0) :
    ∀ v2, (∃ j2, j2 < (sl.setVal j v).nodes.length ∧
        sl.cmp ((sl.setVal j v).nodeAt j2).val v2 = 0) ↔
      (∃ j2, j2 < sl.nodes.length ∧ sl.cmp (sl.nodeAt j2).val v2 = 0) := by
  intro v2
  have hlen2 := (setVal_fields sl j v).2.2.2.1
  have hkey : ∀ j2, j2 < sl.nodes.length →
      (sl.cmp ((sl.setVal j v).nodeAt j2).val v2 = 0 ↔
        sl.cmp (sl.nodeAt j2).val v2 = 0) := by
    intro j2 hj2
    by_cases hjj : j2 = j
    · subst hjj
      have hvv : ((sl.setVal j2 v).nodeAt j2).val = v := setVal_valP_self v hjl
      rw [hvv]
      have he := Lc.eq_congr _ _ v2 hjeq
      constructor
      · intro h; omega
      · intro h; omega
    · have hov : ((sl.setVal j v).nodeAt j2).val = (sl.nodeAt j2).val :=
        setVal_valP_other v (show (some j2 : Pos) ≠ some j by
          intro hcon; injection hcon with h2; exact hjj h2)
      rw [hov]
  constructor
  · rintro ⟨j2, hj2, hj2eq⟩
    rw [hlen2] at hj2
    exact ⟨j2, hj2, (hkey j2 hj2).mp hj2eq⟩
  · rintro ⟨j2, hj2, hj2eq⟩
    exact ⟨j2, by rw [hlen2]; exact hj2, (hkey j2 hj2).mpr hj2eq⟩

/-- Inserting an absent value makes exactly the values comparing equal to
it newly present. -/
theorem insert_presence {sl : SkipList V} (w : sl.WF) (Lc : LawfulCmp sl.cmp)
    {v : V} {nl : Nat} (hnl : 1 ≤ nl)
    (hnf : ∀ j, j < sl.nodes.length → sl.cmp (sl.nodeAt j).val v ≠ 0) :
    ∀ v2, (∃ j2, j2 < (sl.Insert v nl).nodes.length ∧
        (sl.Insert v nl).cmp ((sl.Insert v nl).nodeAt j2).val v2 = 0) ↔
      ((∃ j, j < sl.nodes.length ∧ sl.cmp (sl.nodeAt j).val v2 = 0) ∨
        sl.cmp v v2 = 0) := by
  intro v2
  have h := Insert_notfound w Lc hnl hnf
  obtain ⟨_, hcmp, _, _, hlen, hrle, hlow, hat, hhigh, _, _⟩ := h
  constructor
  · rintro ⟨j2, hj2, hj2eq⟩
    rw [hcmp] at hj2eq
    rw [hlen] at hj2
    rcases Nat.lt_trichotomy j2 (sl.insPos v) with hc | hc | hc
    · left
      refine ⟨j2, by omega, ?_⟩
      have hback : ((sl.Insert v nl).nodeAt j2).val =
        (sl.Insert v nl).valP (some j2) := rfl
      rw [hback, hlow j2 hc] at hj2eq
      exact hj2eq
    · right
      subst hc
      have hback : ((sl.Insert v nl).nodeAt (sl.insPos v)).val =
        (sl.Insert v nl).valP (some (sl.insPos v)) := rfl
      rw [hback, hat] at hj2eq
      exact hj2eq
    · left
      have hj2m : j2 - 1 + 1 = j2 := by omega
      have hv := hhigh (j2 - 1) (by omega) (by omega)
      rw [hj2m] at hv
      refine ⟨j2 - 1, by omega, ?_⟩
      have hback : ((sl.Insert v nl).nodeAt j2).val =
        (sl.Insert v nl).valP (some j2) := rfl
      rw [hback, hv] at hj2eq
      exact hj2eq
  · rintro (⟨j, hj, hjeq⟩ | hveq)
    · by_cases hc : j < sl.insPos v
      · refine ⟨j, by omega, ?_⟩
        show (sl.Insert v nl).cmp ((sl.Insert v nl).valP (some j)) v2 = 0
        rw [hcmp, hlow j hc]
        exact hjeq
      · refine ⟨j + 1, by omega, ?_⟩
        show (sl.Insert v nl).cmp ((sl.Insert v nl).valP (some (j + 1))) v2 = 0
        rw [hcmp, hhigh j (by omega) hj]
        exact hjeq
    · refine ⟨sl.insPos v, by omega, ?_⟩
      show (sl.Insert v nl).cmp ((sl.Insert v nl).valP (some (sl.insPos v))) v2 = 0
      rw [hcmp, hat]
      exact hveq

/-- Core length invariant for insert sequences: the size grows by exactly
the number of comparator-new values, with `base` abstracting the values
already present. -/
theorem insertAll_size {V : Type} [Inhabited V] :
    ∀ (ops : List (V × Nat)) (sl : SkipList V) (base : List V),
    sl.WF → LawfulCmp sl.cmp →
    (∀ x, x ∈ ops → 1 ≤ x.2) →
    (∀ v, (∃ j, j < sl.nodes.length ∧ sl.cmp (sl.nodeAt j).val v = 0) ↔
      (∃ u, u ∈ base ∧ sl.cmp u v = 0)) →
    (insertAll sl ops).size = sl.size + newCount sl.cmp base (ops.map Prod.fst) := by
  intro ops
  induction ops with
  | nil =>
    intro sl base _ _ _ _
    show sl.size = sl.size + newCount sl.cmp base []
    simp [newCount]
  | cons x rest ih =>
    intro sl base w Lc hpos hiff
    obtain ⟨v, nl⟩ := x
    have hnl : 1 ≤ nl := hpos (v, nl) (List.mem_cons_self _ _)
    have hposr : ∀ y, y ∈ rest → 1 ≤ y.2 :=
      fun y hy => hpos y (List.mem_cons_of_mem _ hy)
    show (insertAll (sl.Insert v nl) rest).size =
      sl.size + newCount sl.cmp base (v :: rest.map Prod.fst)
    have hW2 := (Insert_wf w Lc v hnl).1
    have hcmpI := (Insert_wf w Lc v hnl).2
    have hLc2 : LawfulCmp (sl.Insert v nl).cmp := by rw [hcmpI]; exact Lc
    by_cases hf : ∃ j, j < sl.nodes.length ∧ sl.cmp (sl.nodeAt j).val v = 0
    · have hany : (base.any (fun u => decide (sl.cmp u v = 0))) = true := by
        rw [List.any_eq_true]
        obtain ⟨u, hu, hueq⟩ := (hiff v).mp hf
        exact ⟨u, hu, by rw [decide_eq_true_eq]; exact hueq⟩
      have hcount : newCount sl.cmp base (v :: rest.map Prod.fst) =
          newCount sl.cmp base (rest.map Prod.fst) := by
        simp [newCount, hany]
      obtain ⟨j, hjl, hjeq, huniq, heqIns⟩ := Insert_found w Lc nl hf
      have hiff2 : ∀ v2, (∃ j2, j2 < (sl.Insert v nl).nodes.length ∧
          (sl.Insert v nl).cmp ((sl.Insert v nl).nodeAt j2).val v2 = 0) ↔
          (∃ u, u ∈ base ∧ (sl.Insert v nl).cmp u v2 = 0) := by
        intro v2
        rw [hcmpI, heqIns]
        rw [setVal_presence Lc hjl hjeq v2]
        exact hiff v2
      have hrec := ih (sl.Insert v nl) base hW2 hLc2 hposr hiff2
      rw [hcmpI] at hrec
      have hsz : (sl.Insert v nl).size = sl.size := by
        rw [heqIns]
        exact (setVal_fields sl j v).2.2.1
      rw [hcount]
      rw [hrec, hsz]
    · push_neg at hf
      have hnotany : (base.any (fun u => decide (sl.cmp u v = 0))) = false := by
        rw [Bool.eq_false_iff]
        intro htrue
        rw [List.any_eq_true] at htrue
        obtain ⟨u, hu, hd⟩ := htrue
        rw [decide_eq_true_eq] at hd
        obtain ⟨j, hj, hjeq⟩ := (hiff v).mpr ⟨u, hu, hd⟩
        exact hf j hj hjeq
      have hcount : newCount sl.cmp base (v :: rest.map Prod.fst) =
          newCount sl.cmp (v :: base) (rest.map Prod.fst) + 1 := by
        simp [newCount, hnotany]
      have hiff2 : ∀ v2, (∃ j2, j2 < (sl.Insert v nl).nodes.length ∧
          (sl.Insert v nl).cmp ((sl.Insert v nl).nodeAt j2).val v2 = 0) ↔
          (∃ u, u ∈ v :: base ∧ (sl.Insert v nl).cmp u v2 = 0) := by
        intro v2
        rw [insert_presence w Lc hnl hf v2, hcmpI]
        constructor
        · rintro (hold | hveq)
          · obtain ⟨u, hu, hueq⟩ := (hiff v2).mp hold
            exact ⟨u, List.mem_cons_of_mem _ hu, hueq⟩
          · exact ⟨v, List.mem_cons_self _ _, hveq⟩
        · rintro ⟨u, hu, hueq⟩
          rcases List.mem_cons.mp hu with rfl | hu2
          · exact Or.inr hueq
          · exact Or.inl ((hiff v2).mpr ⟨u, hu2, hueq⟩)
      have hrec := ih (sl.Insert v nl) (v :: base) hW2 hLc2 hposr hiff2
      rw [hcmpI] at hrec
      have hsz : (sl.Insert v nl).size = sl.size + 1 :=
        (Insert_notfound w Lc hnl hf).2.2.2.1
      rw [hcount, hrec, hsz]
      omega

/-- On a well-formed state the widths summed from any chain position up
to node `n` cover exactly the rank distance: from the head the sum is
`n`, the node's 0-based rank. -/
theorem chainSum_rank {sl : SkipList V} (w : sl.WF) {n ℓ : Nat}
    (hn : n < sl.nodes.length) (hℓn : ℓ < sl.heightAt n) :
    ∀ fuel p, sl.OnChain ℓ p → (p = none ∨ ∃ j, p = some j ∧ j ≤ n) →
      sl.nodes.length + 1 ≤ fuel + idxOf p →
      sl.chainSum ℓ n fuel p = some ((n : Int) - rankP p) := by
  have hℓ : ℓ < sl.level := by
    have := w.height_le n hn
    omega
  intro fuel
  induction fuel with
  | zero =>
    intro p hchain _ hfuel
    have := idxOf_le_length hchain
    omega
  | succ fuel ih =>
    intro p hchain hble hfuel
    by_cases hpn : p = some n
    · subst hpn
      simp only [chainSum, eq_self_iff_true, if_true]
      have hrpn : rankP (some n : Pos) = (n : Int) := rfl
      rw [hrpn]
      congr 1
      ring
    · have hidxle : idxOf p ≤ n := by
        rcases hble with rfl | ⟨j, rfl, hj⟩
        · exact Nat.zero_le n
        · have hjn : j ≠ n := fun hc => hpn (by rw [hc])
          have hidxj : idxOf (some j : Pos) = j + 1 := rfl
          omega
      obtain ⟨t, hft, htn⟩ := ftall_le_of_tall hℓn hidxle hn
      have hnext : sl.nextPos ℓ p = some t := by
        rw [nextPos_eq_ftall]; exact hft
      have hfacts := (ftall_some_iff).mp hft
      have hchain2 : sl.OnChain ℓ (some t) := Or.inr ⟨t, rfl, hfacts.2.1, hfacts.2.2.1⟩
      have hidxt : idxOf (some t : Pos) = t + 1 := rfl
      have hrec := ih (some t) hchain2 (Or.inr ⟨t, rfl, htn⟩) (by omega)
      simp only [chainSum, if_neg hpn, hnext, hrec]
      have hw := w.widthAt_eq hℓ hchain
      rw [hnext] at hw
      have hrt : rankN sl.nodes.length (some t) = (t : Int) := rfl
      rw [hrt] at hw
      have hrpt : rankP (some t : Pos) = (t : Int) := rfl
      show some (sl.widthAt ℓ p + ((n : Int) - rankP (some t))) =
        some ((n : Int) - rankP p)
      rw [hrpt, hw]
      congr 1
      ring

theorem walkW_Reverse (sl : SkipList V) (s : Bool) (i : Int) (ℓ : Nat) :
    ∀ (fuel : Nat) (c : Option Pos) (pos : Int),
    (sl.Reverse).walkW s i ℓ fuel c pos = sl.walkW s i ℓ fuel c pos := by
  intro fuel
  induction fuel with
  | zero => intro c pos; rfl
  | succ fuel ih =>
    intro c pos
    match c with
    | none => rfl
    | some p =>
      simp only [walkW]
      have hwid : (sl.Reverse).widthAt ℓ p = sl.widthAt ℓ p := rfl
      have hnext : (sl.Reverse).nextPos ℓ p = sl.nextPos ℓ p := rfl
      rw [hwid, hnext, ih]

theorem descendW_Reverse (sl : SkipList V) (s : Bool) (i : Int) :
    ∀ (L : Nat) (c : Option Pos × Int),
    (sl.Reverse).descendW s i L c = sl.descendW s i L c := by
  intro L
  induction L with
  | zero => intro c; rfl
  | succ L ih =>
    intro c
    simp only [descendW]
    have hlen : (sl.Reverse).nodes.length = sl.nodes.length := rfl
    rw [hlen, walkW_Reverse, ih]

/-- The reversed view keeps the chain, sizes and levels and only swaps
the comparator's arguments; random access reads no comparator, so it is
untouched. -/
theorem Reverse_At (sl : SkipList V) (i : Int) : (sl.Reverse).At i = sl.At i := by
  simp only [At]
  have hsize : (sl.Reverse).size = sl.size := rfl
  have hlevel : (sl.Reverse).level = sl.level := rfl
  have hval : ∀ p, (sl.Reverse).valP p = sl.valP p := fun p => rfl
  rw [hsize, hlevel, descendW_Reverse]
  simp only [hval]

theorem Reverse_fields (sl : SkipList V) :
    (sl.Reverse).nodes = sl.nodes ∧ (sl.Reverse).headWidth = sl.headWidth ∧
    (sl.Reverse).level = sl.level ∧ (sl.Reverse).size = sl.size ∧
    (sl.Reverse).cmp = (fun a b => sl.cmp b a) :=
  ⟨rfl, rfl, rfl, rfl, rfl⟩

/-- C1: for every state reachable by the mutating operations from a new
empty list, and every node `n` and level `ℓ` below its height, the widths
summed from the head sentinel to `n` along level-`ℓ` forward pointers
equal `n`'s 0-based rank — not rank plus 1 as the spec claims; the
counterexample theorem exhibits the off-by-one on a singleton list. -/
theorem C1_width_sum_is_rank {V : Type} [Inhabited V] {sl : SkipList V}
    (h : Reachable sl) {n ℓ : Nat} (hn : n < sl.nodes.length)
    (hℓ : ℓ < sl.heightAt n) :
    sl.chainSum ℓ n (sl.nodes.length + 1) none = some (n : Int) := by
  obtain ⟨w, _⟩ := reach_wf h
  have h0 : idxOf (none : Pos) = 0 := rfl
  have hc := chainSum_rank w hn hℓ (sl.nodes.length + 1) none (onChain_head sl ℓ)
    (Or.inl rfl) (by rw [h0])
  rw [hc]
  show some ((n : Int) - rankP none) = some ((n : Int))
  have hrp : ((n : Int) - rankP none) = (n : Int) := by
    have hrp0 : rankP (none : Pos) = 0 := rfl
    rw [hrp0]
    ring
  rw [hrp]

theorem C1_witness :
    ((NewFunc intCmp).Insert 5 1).chainSum 0 0
      (((NewFunc intCmp).Insert 5 1).nodes.length + 1) none = some ((0 : Nat) : Int) :=
  C1_width_sum_is_rank
    (Reachable.ins (NewFunc intCmp) 5 1 (Reachable.base intCmp lawful_intCmp)
      (by omega))
    (by decide) (by decide)

theorem C1_counterexample :
    Reachable ((NewFunc intCmp).Insert 5 1) ∧
    ((NewFunc intCmp).Insert 5 1).nodes.length = 1 ∧
    ((NewFunc intCmp).Insert 5 1).heightAt 0 = 1 ∧
    ((NewFunc intCmp).Insert 5 1).chainSum 0 0 2 none = some 0 ∧
    some ((0 : Int) + 1) ≠ some (0 : Int) :=
  ⟨Reachable.ins (NewFunc intCmp) 5 1 (Reachable.base intCmp lawful_intCmp)
      (by omega),
    rfl, rfl, rfl, by decide⟩

/-- C2: on every reachable state, random access is strictly increasing
under the list's comparator: for ranks `i < j` within the length, the
values returned by `At` compare strictly below. -/
theorem C2_at_strictly_increasing {V : Type} [Inhabited V] {sl : SkipList V}
    (h : Reachable sl) {i j : Nat} (hij : i < j) (hj : j < sl.Len) :
    ∃ a b, sl.At (i : Int) = .ok a ∧ sl.At (j : Int) = .ok b ∧ sl.cmp a b < 0 := by
  obtain ⟨w, _⟩ := reach_wf h
  have hjs : j < sl.size := hj
  have his : i < sl.size := by omega
  refine ⟨sl.valP (some i), sl.valP (some j), At_ok w his, At_ok w hjs, ?_⟩
  exact w.sorted i (by rw [← w.size_eq]; omega) j (by rw [← w.size_eq]; exact hjs) hij

theorem C2_witness :
    ∃ a b, (((NewFunc intCmp).Insert 5 1).Insert 7 1).At ((0 : Nat) : Int) = .ok a ∧
      (((NewFunc intCmp).Insert 5 1).Insert 7 1).At ((1 : Nat) : Int) = .ok b ∧
      (((NewFunc intCmp).Insert 5 1).Insert 7 1).cmp a b < 0 :=
  C2_at_strictly_increasing
    (Reachable.ins _ 7 1
      (Reachable.ins _ 5 1 (Reachable.base intCmp lawful_intCmp) (by omega))
      (by omega))
    (by omega) (by decide)

/-- C5: contrary to the claim that rank 0 carries no predecessor
constraint, `UpdateAt` compares the new value against the stored value of
the predecessor position, which at rank 0 is the head sentinel holding
the zero value of the element type: on the reachable one-element list
[5], `updateAt(0, -1)` is rejected with the predecessor-ordering error
although index 0 is in range and is also the last index, so the claim
predicts success. -/
theorem C5_updateAt_head_sentinel_bug :
    Reachable ((NewFunc intCmp).Insert 5 1) ∧
    ((NewFunc intCmp).Insert 5 1).Len = 1 ∧
    ((NewFunc intCmp).Insert 5 1).valP (predIdx 0) = 0 ∧
    ((NewFunc intCmp).Insert 5 1).UpdateAt 0 (-1) = .error .notGreaterPrev ∧
    ((NewFunc intCmp).Insert 5 1).updateAtSt 0 (-1) = (NewFunc intCmp).Insert 5 1 :=
  ⟨Reachable.ins (NewFunc intCmp) 5 1 (Reachable.base intCmp lawful_intCmp)
      (by omega),
    rfl, rfl, rfl, rfl⟩

/-- C6: the three rank-based accessors signal the out-of-range error
exactly for indices outside `[0, size)`; in particular `at(-1)` and
`at(len())` are rejected, covering the empty list at index 0. -/
theorem C6_out_of_range_iff {V : Type} [Inhabited V] (sl : SkipList V)
    (i : Int) (v : V) :
    (sl.At i = .error .outOfRange ↔ (i < 0 ∨ (sl.size : Int) ≤ i)) ∧
    (sl.DeleteAt i = .error .outOfRange ↔ (i < 0 ∨ (sl.size : Int) ≤ i)) ∧
    (sl.UpdateAt i v = .error .outOfRange ↔ (i < 0 ∨ (sl.size : Int) ≤ i)) ∧
    sl.At (-1) = .error .outOfRange ∧
    sl.At ((sl.Len : Int)) = .error .outOfRange := by
  have hAt : ∀ i2 : Int, (i2 < 0 ∨ (sl.size : Int) ≤ i2) →
      sl.At i2 = .error .outOfRange := by
    intro i2 hc
    simp only [At, if_pos hc]
  refine ⟨⟨?_, hAt i⟩, ⟨?_, ?_⟩, ⟨?_, ?_⟩, hAt (-1) (by omega),
    hAt ((sl.Len : Int)) (by right; exact le_refl _)⟩
  · intro h
    by_contra hc
    simp only [At, if_neg hc] at h
    split at h
    · simp at h
    · simp at h
  · intro h
    by_contra hc
    simp only [DeleteAt, if_neg hc] at h
    split at h
    · simp at h
    · split at h
      · simp at h
      · split at h
        · simp at h
        · simp at h
  · intro hc
    simp only [DeleteAt, if_pos hc]
  · intro h
    by_contra hc
    simp only [UpdateAt, if_neg hc] at h
    split at h
    · simp at h
    · split at h
      · simp at h
      · split at h
        · simp at h
        · split at h
          · split at h
            · simp at h
            · simp at h
          · simp at h
  · intro hc
    simp only [UpdateAt, if_pos hc]

/-- C3: from a new empty list, any finite sequence of inserts leaves the
length equal to the number of comparator-distinct values inserted; and
inserting a value already present overwrites the unique equal-comparing
element in place, creating no node and changing no other rank. -/
theorem C3_len_distinct_upsert {V : Type} [Inhabited V] (c : V → V → Int)
    (hc : LawfulCmp c) (ops : List (V × Nat)) (hpos : ∀ x, x ∈ ops → 1 ≤ x.2) :
    (insertAll (NewFunc c) ops).Len = newCount c [] (ops.map Prod.fst) ∧
    (∀ (sl : SkipList V), Reachable sl → ∀ v nl, 1 ≤ nl →
      (∃ j, j < sl.nodes.length ∧ sl.cmp (sl.nodeAt j).val v = 0) →
      ∃ j, j < sl.nodes.length ∧ sl.cmp (sl.nodeAt j).val v = 0 ∧
        sl.Insert v nl = sl.setVal j v ∧
        (sl.Insert v nl).Len = sl.Len ∧
        (sl.Insert v nl).nodes.length = sl.nodes.length ∧
        (∀ k, k < sl.nodes.length → k ≠ j →
          (sl.Insert v nl).valP (some k) = sl.valP (some k)) ∧
        (sl.Insert v nl).valP (some j) = v) := by
  constructor
  · have h := insertAll_size ops (NewFunc c) [] (NewFunc_wf c) hc hpos
      (by
        intro v
        constructor
        · rintro ⟨j, hj, _⟩
          have h0 : (NewFunc c : SkipList V).nodes.length = 0 := rfl
          omega
        · rintro ⟨u, hu, _⟩
          exact absurd hu (List.not_mem_nil u))
    show (insertAll (NewFunc c) ops).size = _
    rw [h]
    show 0 + newCount c [] (ops.map Prod.fst) = newCount c [] (ops.map Prod.fst)
    exact Nat.zero_add _
  · intro sl hreach v nl hnl hf
    obtain ⟨w, Lc⟩ := reach_wf hreach
    obtain ⟨j, hjl, hjeq, huniq, heqIns⟩ := Insert_found w Lc nl hf
    refine ⟨j, hjl, hjeq, heqIns, ?_, ?_, ?_, ?_⟩
    · show (sl.Insert v nl).size = sl.size
      rw [heqIns]
      exact (setVal_fields sl j v).2.2.1
    · rw [heqIns]
      exact (setVal_fields sl j v).2.2.2.1
    · intro k hk hkj
      rw [heqIns]
      exact setVal_valP_other v
        (by intro hcon; injection hcon with h2; exact hkj h2)
    · rw [heqIns]
      exact setVal_valP_self v hjl

theorem C3_witness :
    (insertAll (NewFunc intCmp) [(5, 1), (5, 1), (7, 1)]).Len =
      newCount intCmp [] ([(5, 1), (5, 1), (7, 1)].map Prod.fst) ∧
    (∀ (sl : SkipList Int), Reachable sl → ∀ v nl, 1 ≤ nl →
      (∃ j, j < sl.nodes.length ∧ sl.cmp (sl.nodeAt j).val v = 0) →
      ∃ j, j < sl.nodes.length ∧ sl.cmp (sl.nodeAt j).val v = 0 ∧
        sl.Insert v nl = sl.setVal j v ∧
        (sl.Insert v nl).Len = sl.Len ∧
        (sl.Insert v nl).nodes.length = sl.nodes.length ∧
        (∀ k, k < sl.nodes.length → k ≠ j →
          (sl.Insert v nl).valP (some k) = sl.valP (some k)) ∧
        (sl.Insert v nl).valP (some j) = v) :=
  C3_len_distinct_upsert intCmp lawful_intCmp [(5, 1), (5, 1), (7, 1)] (by decide)

/-- C4: on every reachable state, deleting a valid rank removes exactly
that rank and hands back its old value: the length drops by one, earlier
ranks read unchanged and later ranks shift down by one. -/
theorem C4_deleteAt_removes_rank {V : Type} [Inhabited V] {sl : SkipList V}
    (h : Reachable sl) {n : Nat} (hn : n < sl.Len) :
    ∃ v sl2, sl.DeleteAt (n : Int) = .ok (v, sl2) ∧ sl.At (n : Int) = .ok v ∧
      sl2.Len = sl.Len - 1 ∧
      (∀ j, j < n → sl2.At (j : Int) = sl.At (j : Int)) ∧
      (∀ j, n ≤ j → j < sl.Len - 1 → sl2.At (j : Int) = sl.At ((j : Int) + 1)) := by
  obtain ⟨w, _⟩ := reach_wf h
  obtain ⟨sl2, hok, hwf2, hcmp2, hl1, hl2, hsz, hlen2, hlow, hhigh⟩ := DeleteAt_ok w hn
  refine ⟨sl.valP (some n), sl2, hok, At_ok w hn, hsz, ?_, ?_⟩
  · intro j hj
    have hns : n < sl.size := hn
    have hj2 : j < sl2.size := by omega
    rw [At_ok hwf2 hj2, At_ok w (by omega)]
    rw [hlow j hj]
  · intro j hjn hjlen
    have hns : n < sl.size := hn
    have hlenn : sl.Len - 1 = sl.size - 1 := rfl
    rw [hlenn] at hjlen
    have hj2 : j < sl2.size := by omega
    have hcast : ((j : Int) + 1) = ((j + 1 : Nat) : Int) := by push_cast; ring
    rw [At_ok hwf2 hj2, hcast, At_ok w (by omega)]
    rw [hhigh j hjn (by rw [← w.size_eq]; omega)]

theorem C4_witness :
    ∃ v sl2, (((NewFunc intCmp).Insert 5 1).Insert 7 1).DeleteAt ((0 : Nat) : Int) =
        .ok (v, sl2) ∧
      (((NewFunc intCmp).Insert 5 1).Insert 7 1).At ((0 : Nat) : Int) = .ok v ∧
      sl2.Len = (((NewFunc intCmp).Insert 5 1).Insert 7 1).Len - 1 ∧
      (∀ j : Nat, j < 0 → sl2.At (j : Int) =
        (((NewFunc intCmp).Insert 5 1).Insert 7 1).At (j : Int)) ∧
      (∀ j : Nat, 0 ≤ j → j < (((NewFunc intCmp).Insert 5 1).Insert 7 1).Len - 1 →
        sl2.At (j : Int) =
          (((NewFunc intCmp).Insert 5 1).Insert 7 1).At ((j : Int) + 1)) :=
  C4_deleteAt_removes_rank
    (Reachable.ins _ 7 1
      (Reachable.ins _ 5 1 (Reachable.base intCmp lawful_intCmp) (by omega))
      (by omega))
    (show (0 : Nat) < (((NewFunc intCmp).Insert 5 1).Insert 7 1).Len by decide)

/-- C7: every rejected operation leaves the state untouched: an
`UpdateAt` or `DeleteAt` error keeps the state identical, and deleting an
absent value is the identity. -/
theorem C7_rejected_ops_unmodified {V : Type} [Inhabited V] {sl : SkipList V}
    (h : Reachable sl) (i : Int) (v : V) (e : SLErr) :
    (sl.UpdateAt i v = .error e → sl.updateAtSt i v = sl) ∧
    (sl.DeleteAt i = .error e → sl.deleteAtSt i = sl) ∧
    ((∀ j, j < sl.nodes.length → sl.cmp (sl.nodeAt j).val v ≠ 0) →
      sl.Delete v = sl) := by
  obtain ⟨w, Lc⟩ := reach_wf h
  refine ⟨?_, ?_, fun habs => Delete_absent w Lc habs⟩
  · intro he
    simp only [updateAtSt, he]
  · intro he
    simp only [deleteAtSt, he]

theorem C7_witness :
    (((NewFunc intCmp).Insert 5 1).UpdateAt (-1) 3 = .error .outOfRange →
      ((NewFunc intCmp).Insert 5 1).updateAtSt (-1) 3 = (NewFunc intCmp).Insert 5 1) ∧
    (((NewFunc intCmp).Insert 5 1).DeleteAt (-1) = .error .outOfRange →
      ((NewFunc intCmp).Insert 5 1).deleteAtSt (-1) = (NewFunc intCmp).Insert 5 1) ∧
    ((∀ j, j < ((NewFunc intCmp).Insert 5 1).nodes.length →
        ((NewFunc intCmp).Insert 5 1).cmp
          (((NewFunc intCmp).Insert 5 1).nodeAt j).val 3 ≠ 0) →
      ((NewFunc intCmp).Insert 5 1).Delete 3 = (NewFunc intCmp).Insert 5 1) :=
  C7_rejected_ops_unmodified
    (Reachable.ins (NewFunc intCmp) 5 1 (Reachable.base intCmp lawful_intCmp)
      (by omega))
    (-1) 3 .outOfRange

/-- C8: on every reachable state, inserting a value and immediately
searching for it yields the value with `true`; deleting it and searching
yields the zero value with `false`. -/
theorem C8_search_roundtrip {V : Type} [Inhabited V] {sl : SkipList V}
    (h : Reachable sl) (v : V) {nl : Nat} (hnl : 1 ≤ nl) :
    (sl.Insert v nl).Search v = (v, true) ∧
    (sl.Delete v).Search v = (default, false) := by
  classical
  obtain ⟨w, Lc⟩ := reach_wf h
  constructor
  · by_cases hf : ∃ j, j < sl.nodes.length ∧ sl.cmp (sl.nodeAt j).val v = 0
    · obtain ⟨j, hjl, hjeq, huniq, heqIns⟩ := Insert_found w Lc nl hf
      have hW2 := (Insert_wf w Lc v hnl).1
      have hc2 := (Insert_wf w Lc v hnl).2
      have hLc2 : LawfulCmp (sl.Insert v nl).cmp := by rw [hc2]; exact Lc
      have hjl2 : j < (sl.Insert v nl).nodes.length := by
        rw [heqIns, (setVal_fields sl j v).2.2.2.1]
        exact hjl
      have hval : ((sl.Insert v nl).nodeAt j).val = v := by
        rw [heqIns]
        exact setVal_valP_self v hjl
      have heq0 : (sl.Insert v nl).cmp ((sl.Insert v nl).nodeAt j).val v = 0 := by
        rw [hval, hc2]
        exact Lc.refl v
      rw [Search_present hW2 hLc2 hjl2 heq0, hval]
    · push_neg at hf
      have h2 := Insert_notfound w Lc hnl hf
      obtain ⟨hW2, hc2, _, _, hlen2, hrle, _, hat, _, _, _⟩ := h2
      have hLc2 : LawfulCmp (sl.Insert v nl).cmp := by rw [hc2]; exact Lc
      have hjl2 : sl.insPos v < (sl.Insert v nl).nodes.length := by omega
      have hval : ((sl.Insert v nl).nodeAt (sl.insPos v)).val = v := hat
      have heq0 : (sl.Insert v nl).cmp
          ((sl.Insert v nl).nodeAt (sl.insPos v)).val v = 0 := by
        rw [hval, hc2]
        exact Lc.refl v
      rw [Search_present hW2 hLc2 hjl2 heq0, hval]
  · by_cases hf : ∃ j, j < sl.nodes.length ∧ sl.cmp (sl.nodeAt j).val v = 0
    · obtain ⟨jd, hjd, hjdeq⟩ := hf
      have hD := Delete_present w Lc hjd hjdeq
      obtain ⟨hW2, hc2, _, _, _, hlen2, hlow, hhigh⟩ := hD
      have hLc2 : LawfulCmp (sl.Delete v).cmp := by rw [hc2]; exact Lc
      apply Search_absent hW2 hLc2
      intro k hk
      rw [hc2]
      rw [hlen2] at hk
      by_cases hkj : k < jd
      · show (sl.cmp ((sl.Delete v).valP (some k)) v ≠ 0)
        rw [hlow k hkj]
        intro hcon
        have := eq_unique w Lc hjd hjdeq (show k < sl.nodes.length by omega) hcon
        omega
      · show (sl.cmp ((sl.Delete v).valP (some k)) v ≠ 0)
        rw [hhigh k (by omega) (by omega)]
        intro hcon
        have := eq_unique w Lc hjd hjdeq (show k + 1 < sl.nodes.length by omega) hcon
        omega
    · push_neg at hf
      rw [Delete_absent w Lc hf]
      exact Search_absent w Lc hf

theorem C8_witness :
    (((NewFunc intCmp).Insert 5 1).Insert 7 1).Search 7 = (7, true) ∧
    (((NewFunc intCmp).Insert 5 1).Delete 7).Search 7 = (default, false) :=
  C8_search_roundtrip
    (Reachable.ins (NewFunc intCmp) 5 1 (Reachable.base intCmp lawful_intCmp)
      (by omega))
    7 (by omega)

/-- C9: `Reverse` shares the original node chain, head widths, level and
size without copying and swaps the comparator's argument order, but it
does not present the elements in reversed order: rank access ignores the
comparator, so the reversed view's `At i` equals the original's `At i`
(the counterexample refutes `At (n - 1 - i)`). -/
theorem C9_reverse_shares_chain {V : Type} [Inhabited V] (sl : SkipList V)
    (i : Int) :
    (sl.Reverse).nodes = sl.nodes ∧ (sl.Reverse).headWidth = sl.headWidth ∧
    (sl.Reverse).level = sl.level ∧ (sl.Reverse).Len = sl.Len ∧
    (sl.Reverse).cmp = (fun a b => sl.cmp b a) ∧
    (sl.Reverse).At i = sl.At i :=
  ⟨rfl, rfl, rfl, rfl, rfl, Reverse_At sl i⟩

theorem C9_counterexample :
    Reachable (((NewFunc intCmp).Insert 5 1).Insert 7 1) ∧
    (((NewFunc intCmp).Insert 5 1).Insert 7 1).Len = 2 ∧
    ((((NewFunc intCmp).Insert 5 1).Insert 7 1).Reverse).At 0 = .ok 5 ∧
    (((NewFunc intCmp).Insert 5 1).Insert 7 1).At (2 - 1 - 0) = .ok 7 ∧
    (Except.ok (5 : Int) : Except SLErr Int) ≠ .ok 7 :=
  ⟨Reachable.ins _ 7 1
      (Reachable.ins _ 5 1 (Reachable.base intCmp lawful_intCmp) (by omega))
      (by omega),
    rfl, rfl, rfl, by
      intro hcon
      injection hcon with h2
      exact absurd h2 (by decide)⟩

/-- C10: on every reachable state the level is at least 1, equals the
head sentinel's width-array length, and the top level is populated unless
the level is 1; the trim loop run by the delete operations lowers the
level exactly to the highest still-populated level, never below 1. -/
theorem C10_level_trimming {V : Type} [Inhabited V] {sl : SkipList V}
    (h : Reachable sl) :
    1 ≤ sl.level ∧ sl.headWidth.length = sl.level ∧
    (sl.level = 1 ∨ ∃ i, i < sl.nodes.length ∧ sl.heightAt i = sl.level) ∧
    (∀ L, 1 ≤ L → (∀ m, m < sl.nodes.length → sl.heightAt m ≤ L) →
      1 ≤ trimLevel sl.nodes L ∧ trimLevel sl.nodes L ≤ L ∧
      (trimLevel sl.nodes L = 1 ∨
        ∃ m, m < sl.nodes.length ∧ sl.heightAt m = trimLevel sl.nodes L)) := by
  obtain ⟨w, _⟩ := reach_wf h
  refine ⟨w.level_pos, w.headW_len, w.top, ?_⟩
  intro L hL hle
  have ht := trimLevel_spec sl.nodes L hL hle
  exact ⟨ht.1, ht.2.1, ht.2.2.2⟩

theorem C10_witness :
    1 ≤ ((NewFunc intCmp).Insert 5 1).level ∧
    ((NewFunc intCmp).Insert 5 1).headWidth.length =
      ((NewFunc intCmp).Insert 5 1).level ∧
    (((NewFunc intCmp).Insert 5 1).level = 1 ∨
      ∃ i, i < ((NewFunc intCmp).Insert 5 1).nodes.length ∧
        ((NewFunc intCmp).Insert 5 1).heightAt i =
          ((NewFunc intCmp).Insert 5 1).level) ∧
    (∀ L, 1 ≤ L →
      (∀ m, m < ((NewFunc intCmp).Insert 5 1).nodes.length →
        ((NewFunc intCmp).Insert 5 1).heightAt m ≤ L) →
      1 ≤ trimLevel ((NewFunc intCmp).Insert 5 1).nodes L ∧
      trimLevel ((NewFunc intCmp).Insert 5 1).nodes L ≤ L ∧
      (trimLevel ((NewFunc intCmp).Insert 5 1).nodes L = 1 ∨
        ∃ m, m < ((NewFunc intCmp).Insert 5 1).nodes.length ∧
          ((NewFunc intCmp).Insert 5 1).heightAt m =
            trimLevel ((NewFunc intCmp).Insert 5 1).nodes L)) :=
  C10_level_trimming
    (Reachable.ins (NewFunc intCmp) 5 1 (Reachable.base intCmp lawful_intCmp)
      (by omega))

end SkipList

end Skiplists
